import Mathlib

/-!
# IBM/license-scanner: the offset-preserving normalizer

A shallow embedding of `normalizer/normalizer.go`.

* A Go `string` is the list of its bytes (`Text`); `len` is the byte count.
* Go `int` values (match indices, index-map entries) are `Int`.
* A Go run-time failure (index or slice bound out of range) is `none`.
* A slice `a[lo:hi]` of the index map is bounded here by `len(a)`; Go bounds it
  by `cap(a)`, which is at least `len(a)`.  Every statement below that relies on
  such a slice succeeding has `hi ≤ len(a)`.
* The parts of Go's standard library the file calls (`utf8` decoding, the
  `regexp` matcher, `strings.ToLower`) are written out from their documented
  behaviour; `unicode.ToLower`, the three hash functions and the embedded file
  `replacement_words.json` are parameters (`Env`).
-/

namespace LicenseScanner

/-- The bytes of a Go string. -/
abbrev Text := List Nat

/-! ## Go run-time primitives -/

/-- Go `l[lo:hi]`: fails unless `0 ≤ lo ≤ hi ≤ len(l)`. -/
def goSlice {α : Type} (l : List α) (lo hi : Int) : Option (List α) :=
  if 0 ≤ lo ∧ lo ≤ hi ∧ hi ≤ (l.length : Int) then
    some ((l.drop lo.toNat).take (hi.toNat - lo.toNat))
  else none

/-- Go `l[lo:]`: fails unless `0 ≤ lo ≤ len(l)`. -/
def goSliceFrom {α : Type} (l : List α) (lo : Int) : Option (List α) :=
  if 0 ≤ lo ∧ lo ≤ (l.length : Int) then some (l.drop lo.toNat) else none

/-- Go `l[i]`: fails unless `0 ≤ i < len(l)`. -/
def goIndex {α : Type} (l : List α) (i : Int) : Option α :=
  if 0 ≤ i then l[i.toNat]? else none

/-- The rune `utf8.RuneError` (U+FFFD). -/
def RuneError : Nat := 0xFFFD

/-- A UTF-8 continuation byte. -/
def isCont (b : Nat) : Bool := 0x80 ≤ b && b ≤ 0xBF

/-- Go `utf8.DecodeRuneInString`: the first rune of `s` and its width in bytes.
An empty string gives `(RuneError, 0)`, an invalid encoding `(RuneError, 1)`. -/
def decodeRune : Text → Nat × Nat
  | [] => (RuneError, 0)
  | b0 :: rest =>
    if b0 < 0x80 then (b0, 1)
    else if b0 < 0xC2 then (RuneError, 1)
    else if b0 < 0xE0 then
      match rest with
      | b1 :: _ => if isCont b1 then ((b0 % 32) * 64 + b1 % 64, 2) else (RuneError, 1)
      | _ => (RuneError, 1)
    else if b0 < 0xF0 then
      match rest with
      | b1 :: b2 :: _ =>
        let lo := if b0 = 0xE0 then 0xA0 else 0x80
        let hi := if b0 = 0xED then 0x9F else 0xBF
        if lo ≤ b1 && b1 ≤ hi && isCont b2 then
          ((b0 % 16) * 4096 + (b1 % 64) * 64 + b2 % 64, 3)
        else (RuneError, 1)
      | _ => (RuneError, 1)
    else if b0 < 0xF5 then
      match rest with
      | b1 :: b2 :: b3 :: _ =>
        let lo := if b0 = 0xF0 then 0x90 else 0x80
        let hi := if b0 = 0xF4 then 0x8F else 0xBF
        if lo ≤ b1 && b1 ≤ hi && isCont b2 && isCont b3 then
          ((b0 % 8) * 262144 + (b1 % 64) * 4096 + (b2 % 64) * 64 + b3 % 64, 4)
        else (RuneError, 1)
      | _ => (RuneError, 1)
    else (RuneError, 1)

/-- Go `utf8.EncodeRune` (surrogates and values above U+10FFFF are written as
`RuneError`). -/
def encodeRune (r : Nat) : Text :=
  if r < 0x80 then [r]
  else if r < 0x800 then [0xC0 + r / 64, 0x80 + r % 64]
  else if (0xD800 ≤ r && r ≤ 0xDFFF) || 0x10FFFF < r then [0xEF, 0xBF, 0xBD]
  else if r < 0x10000 then [0xE0 + r / 4096, 0x80 + (r / 64) % 64, 0x80 + r % 64]
  else [0xF0 + r / 262144, 0x80 + (r / 4096) % 64, 0x80 + (r / 64) % 64, 0x80 + r % 64]

/-- The byte offsets and values of the runes of `s`, as `for i, c := range s`
visits them; `skip` bytes at the front belong to a rune already visited. -/
def rangeRunesAux : Nat → Nat → Text → List (Nat × Nat)
  | _, _, [] => []
  | 0, pos, b :: rest =>
    (pos, (decodeRune (b :: rest)).1) ::
      rangeRunesAux ((decodeRune (b :: rest)).2 - 1) (pos + 1) rest
  | k + 1, pos, _ :: rest => rangeRunesAux k (pos + 1) rest

/-- Go `for i, c := range s`: the pairs `(i, c)` in order. -/
def rangeRunes (s : Text) : List (Nat × Nat) := rangeRunesAux 0 0 s

/-- The bytes of a Lean string literal in UTF-8, as Go stores the same literal. -/
def bytes (s : String) : Text := s.toList.flatMap fun c => encodeRune c.toNat

/-! ## Data model (`normalizer.go`, lines 103-129) -/

/-- Go `CaptureGroup`. -/
structure CaptureGroup where
  GroupNumber : Int
  Name : Text
  Original : Text
  Matches : Text
  deriving DecidableEq, Repr

/-- Go `Digest`. -/
structure Digest where
  Md5 : Text
  Sha256 : Text
  Sha512 : Text
  deriving DecidableEq, Repr

/-- Go `NormalizationData`. -/
structure NormalizationData where
  OriginalText : Text
  NormalizedText : Text
  IndexMap : List Int
  CaptureGroups : List CaptureGroup
  Hash : Digest
  deriving DecidableEq, Repr

/-- A fresh record as callers build it: only `OriginalText` is set. -/
def newRecord (original : Text) : NormalizationData :=
  { OriginalText := original, NormalizedText := [], IndexMap := [],
    CaptureGroups := [], Hash := { Md5 := [], Sha256 := [], Sha512 := [] } }

/-- Go `initialize()` (lines 239-253). -/
def initializeRecord (n : NormalizationData) : NormalizationData :=
  let n1 := if n.NormalizedText.length = 0 then { n with NormalizedText := n.OriginalText } else n
  if n1.IndexMap.length = 0 then
    { n1 with IndexMap := (List.range n1.NormalizedText.length).map Int.ofNat }
  else n1

/-! ## The coordinated rewrite (lines 507-562) -/

/-- The loop `for c := range replacement` of lines 534-543, run over the rune
offsets `cs` on the zero-filled slice `acc = make([]int, len(replacement))`. -/
def fillReplacementIndex (IndexMap : List Int) (firstIndex lastIndex : Int) (len : Nat) :
    List Nat → List Int → Option (List Int)
  | [], acc => some acc
  | c :: cs, acc =>
    if c = 0 then
      match goIndex IndexMap firstIndex with
      | some v => fillReplacementIndex IndexMap firstIndex lastIndex len cs (acc.set c v)
      | none => none
    else if c = len - 1 then
      match goIndex IndexMap (lastIndex - 1) with
      | some v => fillReplacementIndex IndexMap firstIndex lastIndex len cs (acc.set c v)
      | none => none
    else fillReplacementIndex IndexMap firstIndex lastIndex len cs (acc.set c (-1))

/-- The slice `replacementIndex` of lines 533-543 for one match. -/
def replacementIndex (IndexMap : List Int) (firstIndex lastIndex : Int) (replacement : Text) :
    Option (List Int) :=
  fillReplacementIndex IndexMap firstIndex lastIndex replacement.length
    ((rangeRunes replacement).map Prod.fst) (List.replicate replacement.length 0)

/-- One iteration of the loop of lines 516-551, after `match[0]`, `match[1]` and
`replacements[i]` have been read.  The slice `n.IndexMap[prev:firstIndex]` is
bounded by the length of `IndexMap` here; Go bounds a slice expression on a
slice by its capacity, so the two differ only for a record whose `IndexMap` is
shorter than its text and has spare capacity. -/
def replaceStep (text : Text) (IndexMap : List Int) (firstIndex lastIndex : Int)
    (replacement : Text) (prev : Int) (newText : Text) (newIndex : List Int) :
    Option (Text × List Int) :=
  let copied : Option (Text × List Int) :=
    if firstIndex > prev then
      match goSlice text prev firstIndex, goSlice IndexMap prev firstIndex with
      | some t, some ix => some (newText ++ t, newIndex ++ ix)
      | _, _ => none
    else some (newText, newIndex)
  match copied with
  | none => none
  | some (t, ix) =>
    if replacement.length > 0 then
      match replacementIndex IndexMap firstIndex lastIndex replacement with
      | some ri => some (t ++ replacement, ix ++ ri)
      | none => none
    else some (t, ix)

/-- The loop of lines 515-551.  The replacements are consumed in step with the
matches, which is `replacements[i]` for the loop counter `i`. -/
def replaceLoop (text : Text) (IndexMap : List Int) :
    List (List Int) → List Text → Int → Text → List Int → Option (Int × Text × List Int)
  | [], _, prev, newText, newIndex => some (prev, newText, newIndex)
  | m :: ms, rs, prev, newText, newIndex =>
    match m[0]?, m[1]?, rs with
    | some firstIndex, some lastIndex, replacement :: rs' =>
      match replaceStep text IndexMap firstIndex lastIndex replacement prev newText newIndex with
      | some (t, ix) => replaceLoop text IndexMap ms rs' lastIndex t ix
      | none => none
    | _, _, _ => none

/-- Go `replaceMatchesWithStringsAndUpdateIndexMap` (lines 507-562).  The match
list is `none` for a nil slice. -/
def replaceMatchesWithStringsAndUpdateIndexMap (n : NormalizationData)
    (allSubmatchIndex : Option (List (List Int))) (replacements : List Text) :
    Option NormalizationData :=
  match allSubmatchIndex with
  | none => some n
  | some ms =>
    match replaceLoop n.NormalizedText n.IndexMap ms replacements 0 [] [] with
    | none => none
    | some (prev, newText, newIndex) =>
      if prev < (n.IndexMap.length : Int) then
        match goSliceFrom n.NormalizedText prev, goSliceFrom n.IndexMap prev with
        | some t, some ix =>
          some { n with NormalizedText := newText ++ t, IndexMap := newIndex ++ ix }
        | _, _ => none
      else some { n with NormalizedText := newText, IndexMap := newIndex }

/-- Go `substr` (lines 496-501). -/
def substr (text : Text) (lo hi : Int) : Option Text :=
  if hi ≥ (text.length : Int) then goSliceFrom text lo else goSlice text lo hi

/-! ## Specification vocabulary for the rewrite -/

/-- The match list is well formed over a text of `len` bytes: every match has a
start and an end, is non-empty, lies within the text, and the matches are
sorted and do not overlap (each starts at or after `prev`, the end of the one
before). -/
def validMatches (len : Nat) : Int → List (List Int) → Bool
  | _, [] => true
  | prev, m :: ms =>
    match m[0]?, m[1]? with
    | some s, some e => decide (prev ≤ s) && decide (s < e) && decide (e ≤ (len : Int)) &&
        validMatches len e ms
    | _, _ => false

/-- The span `[start, end)` of a match. -/
def spanOf (m : List Int) : Nat × Nat := ((m.getD 0 0).toNat, (m.getD 1 0).toNat)

/-- The list `seg0 ++ b1 ++ seg1 ++ ... ++ bk ++ segk`: the stretches of `l`
outside the spans, from position `prev` on, with the block `bj` in place of the
`j`-th span. -/
def splice {α : Type} (l : List α) : Nat → List ((Nat × Nat) × List α) → List α
  | prev, [] => l.drop prev
  | prev, (se, b) :: rest => (l.drop prev).take (se.1 - prev) ++ b ++ splice l se.2 rest

/-- Position `i` lies inside one of the spans. -/
def covered (spans : List (Nat × Nat)) (i : Nat) : Bool :=
  spans.any fun se => decide (se.1 ≤ i) && decide (i < se.2)

/-- The list `l`, whose first element has position `i`, without the elements
at covered positions. -/
def removeCoveredFrom {α : Type} (spans : List (Nat × Nat)) : Nat → List α → List α
  | _, [] => []
  | i, x :: xs =>
    if covered spans i then removeCoveredFrom spans (i + 1) xs
    else x :: removeCoveredFrom spans (i + 1) xs

/-- The index entries the code writes for one match: the slice
`replacementIndex` when the replacement is non-empty, nothing otherwise. -/
def blockOf (IndexMap : List Int) (m : List Int) (r : Text) : List Int :=
  if r.length > 0 then (replacementIndex IndexMap (m.getD 0 0) (m.getD 1 0) r).getD [] else []

/-! ## Go `regexp`: leftmost-first matching over runes -/

/-- A parsed regular expression.  A class lists inclusive rune ranges; `star`
carries its greediness; `group i` is capture group `i + 1` of the pattern. -/
inductive Re where
  | eps : Re
  | cls (ranges : List (Nat × Nat)) : Re
  | seq (a b : Re) : Re
  | alt (a b : Re) : Re
  | star (a : Re) (greedy : Bool) : Re
  | group (i : Nat) (a : Re) : Re
  | beginText : Re
  | endText : Re
  | beginLine : Re
  | endLine : Re
  | wordBoundary : Re

/-- A position in the searched text: the byte offset, the byte before it (if
any) and the bytes from it on. -/
structure Cursor where
  pos : Nat
  prev : Option Nat
  rest : Text

/-- The cursor at byte offset `pos` of `text`. -/
def Cursor.at (text : Text) (pos : Nat) : Cursor :=
  { pos := pos, prev := if pos = 0 then none else text[pos - 1]?, rest := text.drop pos }

/-- The cursor `w` bytes further on. -/
def Cursor.advance (c : Cursor) (w : Nat) : Cursor :=
  { pos := c.pos + w, prev := (c.rest.take w).getLast?, rest := c.rest.drop w }

/-- Capture registers: the span of each group, when set. -/
abbrev Caps := List (Option (Nat × Nat))

/-- What remains to be matched after a sub-expression. -/
abbrev Cont := Cursor → Caps → Option (Nat × Caps)

/-- ASCII word character, as `\b` and `\w` use it. -/
def isWordChar (b : Nat) : Bool :=
  (48 ≤ b && b ≤ 57) || (65 ≤ b && b ≤ 90) || b = 95 || (97 ≤ b && b ≤ 122)

/-- Repetition of `body`: a greedy star tries one more iteration first, a lazy
one tries to stop first.  An iteration has to consume input; `fuel` is the
number of bytes left plus one. -/
def starLoop (body : Cursor → Caps → Cont → Option (Nat × Caps)) (greedy : Bool) :
    Nat → Cursor → Caps → Cont → Option (Nat × Caps)
  | 0, c, caps, k => k c caps
  | fuel + 1, c, caps, k =>
    if greedy then
      match body c caps (fun c' caps' =>
          if c.pos < c'.pos then starLoop body greedy fuel c' caps' k else none) with
      | some r => some r
      | none => k c caps
    else
      match k c caps with
      | some r => some r
      | none => body c caps (fun c' caps' =>
          if c.pos < c'.pos then starLoop body greedy fuel c' caps' k else none)

/-- Match `re` at the cursor and then the continuation, preferring the first
alternative: the end offset and captures of the preferred match. -/
def Re.run : Re → Cursor → Caps → Cont → Option (Nat × Caps)
  | .eps, c, caps, k => k c caps
  | .cls ranges, c, caps, k =>
    if (decodeRune c.rest).2 ≠ 0 &&
        ranges.any (fun lh => lh.1 ≤ (decodeRune c.rest).1 && (decodeRune c.rest).1 ≤ lh.2) then
      k (c.advance (decodeRune c.rest).2) caps
    else none
  | .seq a b, c, caps, k => a.run c caps (fun c' caps' => b.run c' caps' k)
  | .alt a b, c, caps, k =>
    match a.run c caps k with
    | some r => some r
    | none => b.run c caps k
  | .star a greedy, c, caps, k => starLoop a.run greedy (c.rest.length + 1) c caps k
  | .group i a, c, caps, k =>
    a.run c caps (fun c' caps' => k c' (caps'.set i (some (c.pos, c'.pos))))
  | .beginText, c, caps, k => if c.pos = 0 then k c caps else none
  | .endText, c, caps, k => if c.rest.isEmpty then k c caps else none
  | .beginLine, c, caps, k => if c.prev = none || c.prev = some 10 then k c caps else none
  | .endLine, c, caps, k =>
    if c.rest.isEmpty || c.rest.head? = some 10 then k c caps else none
  | .wordBoundary, c, caps, k =>
    if ((c.prev.map isWordChar).getD false) != ((c.rest.head?.map isWordChar).getD false) then
      k c caps
    else none

/-- A compiled pattern: the expression and its number of capture groups. -/
structure Regexp where
  re : Re
  numSubexp : Nat

/-- Leftmost match at or after the cursor: start, end and captures.  The search
moves on rune by rune; `fuel` is the number of bytes left plus one. -/
def searchFrom (r : Regexp) : Nat → Cursor → Option (Nat × Nat × Caps)
  | 0, _ => none
  | fuel + 1, c =>
    match r.re.run c (List.replicate r.numSubexp none) (fun c' caps => some (c'.pos, caps)) with
    | some (e, caps) => some (c.pos, e, caps)
    | none =>
      if (decodeRune c.rest).2 = 0 then none
      else searchFrom r fuel (c.advance (decodeRune c.rest).2)

/-- Leftmost match of `r` in `text` at or after byte offset `pos`. -/
def execute (r : Regexp) (text : Text) (pos : Nat) : Option (Nat × Nat × Caps) :=
  searchFrom r (text.length - pos + 1) (Cursor.at text pos)

/-- The index slice Go returns for a match: start, end, then the span of each
group, `-1 -1` for a group that did not take part. -/
def matchIndex (s e : Nat) (caps : Caps) : List Int :=
  [(s : Int), (e : Int)] ++ caps.flatMap fun
    | some (a, b) => [(a : Int), (b : Int)]
    | none => [-1, -1]

/-- Go `(*Regexp).allMatches`: successive non-overlapping matches, at most `n`
of them; an empty match right after the previous match is dropped.  `fuel` is
`len(text) + 2`. -/
def allMatches (r : Regexp) (text : Text) : Nat → Nat → Int → Nat → List (List Int)
  | 0, _, _, _ => []
  | fuel + 1, pos, prevMatchEnd, n =>
    if n = 0 || text.length < pos then []
    else
      match execute r text pos with
      | none => []
      | some (s, e, caps) =>
        if e = pos then
          let pos' := if (decodeRune (text.drop pos)).2 > 0 then
            pos + (decodeRune (text.drop pos)).2 else text.length + 1
          if (s : Int) = prevMatchEnd then allMatches r text fuel pos' (e : Int) n
          else matchIndex s e caps :: allMatches r text fuel pos' (e : Int) (n - 1)
        else matchIndex s e caps :: allMatches r text fuel e (e : Int) (n - 1)

/-- Go `(*Regexp).FindAllStringSubmatchIndex(s, n)` for `n ≥ 0`: nil (`none`)
when there is no match. -/
def FindAllStringSubmatchIndex (r : Regexp) (s : Text) (n : Nat) : Option (List (List Int)) :=
  match allMatches r s (s.length + 2) 0 (-1) n with
  | [] => none
  | ms => some ms

/-- Go `(*Regexp).MatchString`. -/
def MatchString (r : Regexp) (s : Text) : Bool := (execute r s 0).isSome

/-! ### Pattern combinators -/

/-- Concatenation of a list of expressions. -/
def Re.seqs : List Re → Re
  | [] => .eps
  | [a] => a
  | a :: as => .seq a (Re.seqs as)

/-- Ordered alternation of a non-empty list of expressions. -/
def Re.alts : List Re → Re
  | [] => .eps
  | [a] => a
  | a :: as => .alt a (Re.alts as)

/-- The single rune `r`. -/
def Re.chr (r : Nat) : Re := .cls [(r, r)]

/-- One of the listed runes. -/
def Re.oneOf (rs : List Nat) : Re := .cls (rs.map fun r => (r, r))

/-- A literal string. -/
def Re.lit (s : String) : Re := Re.seqs (s.toList.map fun c => Re.chr c.toNat)

/-- The runes that fold to `r` under `(?i)` (Unicode simple folding), for the
runes that occur in this file's case-insensitive patterns: the ASCII letters
(with U+017F for `s` and U+212A for `k`), U+00E2/U+00C2 and U+0153/U+0152. -/
def foldOrbit (r : Nat) : List Nat :=
  if 97 ≤ r && r ≤ 122 then
    [r, r - 32] ++ (if r = 115 then [0x17F] else if r = 107 then [0x212A] else [])
  else if 65 ≤ r && r ≤ 90 then
    [r, r + 32] ++ (if r = 83 then [0x17F] else if r = 75 then [0x212A] else [])
  else if r = 0xE2 then [0xE2, 0xC2]
  else if r = 0xC2 then [0xC2, 0xE2]
  else if r = 0x153 then [0x153, 0x152]
  else [r]

/-- The rune `r` under `(?i)`. -/
def Re.chrI (r : Nat) : Re := Re.oneOf (foldOrbit r)

/-- A literal string under `(?i)`. -/
def Re.litI (s : String) : Re := Re.seqs (s.toList.map fun c => Re.chrI c.toNat)

/-- Greedy `a?`. -/
def Re.opt (a : Re) : Re := .alt a .eps

/-- Greedy `a+`. -/
def Re.plus (a : Re) : Re := .seq a (.star a true)

/-- Lazy `a+?`. -/
def Re.plusLazy (a : Re) : Re := .seq a (.star a false)

/-- The class `.` (no `s` flag): any rune but newline. -/
def Re.dot : Re := .cls [(0, 9), (11, 0x10FFFF)]

/-- The class `\s`: tab, newline, form feed, carriage return, space. -/
def Re.space : Re := .cls [(9, 10), (12, 13), (32, 32)]

/-- The class `\w`. -/
def Re.word : Re := .cls [(48, 57), (65, 90), (95, 95), (97, 122)]

/-! ## The pattern constants (lines 20-78) -/

/-- The pattern `(?i)<<note[:=].+?>>` -/
def NoteTagPatternRE : Regexp :=
  ⟨Re.seqs [Re.lit "<<", Re.litI "note", Re.oneOf [58, 61], Re.plusLazy Re.dot, Re.lit ">>"], 0⟩

/-- The pattern `(?i)<<match=\.\+>>` -/
def WildcardMatchingPatternRE : Regexp :=
  ⟨Re.seqs [Re.lit "<<", Re.litI "match", Re.lit "=.+>>"], 0⟩

/-- The pattern `<<match=\.\*>>` -/
def OptionalWildcardMatchingPatternRE : Regexp := ⟨Re.lit "<<match=.*>>", 0⟩

/-- The pattern `(?i)<<(?:var;(?:name=(.+?);)?(?:original=(.*?);)?)?match=(.+?)>>` -/
def ReplaceableTextPatternRE : Regexp :=
  ⟨Re.seqs [Re.lit "<<",
      Re.opt (Re.seqs [Re.litI "var", Re.lit ";",
        Re.opt (Re.seqs [Re.litI "name", Re.lit "=", .group 0 (Re.plusLazy Re.dot), Re.lit ";"]),
        Re.opt (Re.seqs [Re.litI "original", Re.lit "=", .group 1 (.star Re.dot false),
          Re.lit ";"])]),
      Re.litI "match", Re.lit "=", .group 2 (Re.plusLazy Re.dot), Re.lit ">>"], 3⟩

/-- The pattern `(?im)^<<beginOptional(?:;name=.*?)?>>` -/
def BeginOptionalLinePatternRE : Regexp :=
  ⟨Re.seqs [.beginLine, Re.lit "<<", Re.litI "beginOptional",
      Re.opt (Re.seqs [Re.lit ";", Re.litI "name", Re.lit "=", .star Re.dot false]),
      Re.lit ">>"], 0⟩

/-- The pattern `(?i)<<beginOptional(?:;name=.*?)?>>` -/
def BeginOptionalPatternRE : Regexp :=
  ⟨Re.seqs [Re.lit "<<", Re.litI "beginOptional",
      Re.opt (Re.seqs [Re.lit ";", Re.litI "name", Re.lit "=", .star Re.dot false]),
      Re.lit ">>"], 0⟩

/-- The pattern `(?i)<<endOptional>>` -/
def EndOptionalPatternRE : Regexp :=
  ⟨Re.seqs [Re.lit "<<", Re.litI "endOptional", Re.lit ">>"], 0⟩

/-- The pattern `(?m)^\s*(?:/\*|-{2,3}\[=*\[)|(?:\*/|]=*])\s*$` -/
def CommentBlockOutsideRE : Regexp :=
  ⟨.alt
    (Re.seqs [.beginLine, .star Re.space true,
      .alt (Re.lit "/*")
        (Re.seqs [Re.lit "--", Re.opt (Re.lit "-"), Re.lit "[", .star (Re.chr 61) true,
          Re.lit "["])])
    (Re.seqs [.alt (Re.lit "*/") (Re.seqs [Re.lit "]", .star (Re.chr 61) true, Re.lit "]"]),
      .star Re.space true, .endLine]), 0⟩

/-- The pattern `(?m)^\s*[*#]|\*$` -/
def CommentBlockInsideRE : Regexp :=
  ⟨.alt (Re.seqs [.beginLine, .star Re.space true, Re.oneOf [42, 35]])
    (Re.seqs [Re.lit "*", .endLine]), 0⟩

/-- The pattern `(?m)^\s*(?://|>|--|;{1,4})` -/
def CommentLineRE : Regexp :=
  ⟨Re.seqs [.beginLine, .star Re.space true,
      Re.alts [Re.lit "//", Re.lit ">", Re.lit "--",
        Re.seqs [Re.lit ";", Re.opt (Re.seqs [Re.lit ";",
          Re.opt (Re.seqs [Re.lit ";", Re.opt (Re.lit ";")])])]]], 0⟩

/-- The pattern `(?m)^\s*<!--|-->\s*$` -/
def HtmlStyleCommentRE : Regexp :=
  ⟨.alt (Re.seqs [.beginLine, .star Re.space true, Re.lit "<!--"])
    (Re.seqs [Re.lit "-->", .star Re.space true, .endLine]), 0⟩

/-- The pattern `[-‐‑–—―−﹘﹣︍]` -/
def DashLikeRE : Regexp :=
  ⟨Re.oneOf [0x2D, 0x2010, 0x2011, 0x2013, 0x2014, 0x2015, 0x2212, 0xFE58, 0xFE63, 0xFE0D], 0⟩

/-- The pattern `["'`´‘’“”]+` -/
def QuoteLikeRE : Regexp :=
  ⟨Re.plus (Re.oneOf [0x22, 0x27, 0x60, 0xB4, 0x2018, 0x2019, 0x201C, 0x201D]), 0⟩

/-- The pattern `(?i)https?` -/
def HTTPPatternRE : Regexp := ⟨Re.seqs [Re.litI "http", Re.opt (Re.chrI 115)], 0⟩

/-- The pattern `(?m)^\s*(?:[*+•-]|\(?(?:\w|\*|[\divx#]+)[.)])\s+(\w?)` -/
def BulletsAndNumberingPatternRE : Regexp :=
  ⟨Re.seqs [.beginLine, .star Re.space true,
      .alt (Re.oneOf [42, 43, 0x2022, 45])
        (Re.seqs [Re.opt (Re.lit "("),
          Re.alts [Re.word, Re.lit "*",
            Re.plus (.cls [(48, 57), (105, 105), (118, 118), (120, 120), (35, 35)])],
          Re.oneOf [46, 41]]),
      Re.plus Re.space, .group 0 (Re.opt Re.word)], 1⟩

/-- The pattern `(?m)\b-$\s+\b` -/
def SplitWordsRE : Regexp :=
  ⟨Re.seqs [.wordBoundary, Re.lit "-", .endLine, Re.plus Re.space, .wordBoundary], 0⟩

/-- The pattern `(?m)^\s*[*=-]{3,}` -/
def HorizontalRulePatternRE : Regexp :=
  ⟨Re.seqs [.beginLine, .star Re.space true, Re.oneOf [42, 61, 45], Re.oneOf [42, 61, 45],
      Re.oneOf [42, 61, 45], .star (Re.oneOf [42, 61, 45]) true], 0⟩

/-- The pattern `©|\([cC]\)` -/
def CopyrightRE : Regexp :=
  ⟨.alt (Re.chr 0xA9) (Re.seqs [Re.lit "(", Re.oneOf [99, 67], Re.lit ")"]), 0⟩

/-- The pattern `[\u0000-\u0007\u000E-\u001B]` -/
def ControlCharactersRE : Regexp := ⟨.cls [(0x0, 0x7), (0xE, 0x1B)], 0⟩

/-- The pattern `(?im)^\^l$|\u0080|\u0099|\u009C|\u009D|¬|â|§|Â|¤|œ|€|�` -/
def OddCharactersPatternRE : Regexp :=
  ⟨Re.alts [Re.seqs [.beginLine, Re.lit "^", Re.chrI 108, .endLine],
      Re.chrI 0x80, Re.chrI 0x99, Re.chrI 0x9C, Re.chrI 0x9D, Re.chrI 0xAC, Re.chrI 0xE2,
      Re.chrI 0xA7, Re.chrI 0xC2, Re.chrI 0xA4, Re.chrI 0x153, Re.chrI 0x20AC,
      Re.chrI 0xFFFD], 0⟩

/-- The pattern `^\s` -/
def LeadingWhitespaceRE : Regexp := ⟨.seq .beginText Re.space, 0⟩

/-- The pattern `(?:\s|·)+` -/
def MiddleWhitespaceRE : Regexp := ⟨Re.plus (.alt Re.space (Re.chr 0xB7)), 0⟩

/-- The pattern `\s$` -/
def TrailingWhitespaceRE : Regexp := ⟨.seq Re.space .endText, 0⟩

/-! ## What the code takes from outside this file -/

/-- The library functions and the embedded table the normalizer uses:
`unicode.ToLower`, the three digests as hexadecimal text, and the entries of
`replacement_words.json` as `(replacement, compiled pattern)` in the order in
which the Go map happens to be iterated. -/
structure Env where
  toLowerRune : Nat → Nat
  md5Hex : Text → Text
  sha256Hex : Text → Text
  sha512Hex : Text → Text
  replacementREs : List (Text × Regexp)

/-- Go `strings.ToLower`: an all-ASCII string is lowered byte by byte; any other
string is decoded rune by rune (an invalid byte is `RuneError`) and each rune's
lower case is encoded again. -/
def ToLower (lower : Nat → Nat) (s : Text) : Text :=
  if s.all (fun b => b < 0x80) then s.map fun b => if 65 ≤ b ∧ b ≤ 90 then b + 32 else b
  else (rangeRunes s).flatMap fun ic => encodeRune (lower ic.2)

/-- Go `strings.HasPrefix`. -/
def HasPrefix (s p : Text) : Bool := p.isPrefixOf s

/-- Go `strings.HasSuffix`. -/
def HasSuffix (s p : Text) : Bool := p.isSuffixOf s

/-! ## The passes -/

/-- The loop of lines 477-489 over one match: the pairs `match[i-1], match[i]`
for `i = 3, 5, ...`, given as the match without its first two entries. -/
def collectSubmatchesOf (text : Text) : List Int → List Text → Option (List Text)
  | lo :: hi :: rest, acc =>
    if lo ≥ 0 ∧ hi > lo then
      match substr text lo hi with
      | some sub =>
        if acc.contains sub then collectSubmatchesOf text rest acc
        else collectSubmatchesOf text rest (acc ++ [sub])
      | none => none
    else collectSubmatchesOf text rest acc
  | _, acc => some acc

/-- The loop of lines 477-489 over all matches. -/
def collectSubmatches (text : Text) : List (List Int) → List Text → Option (List Text)
  | [], acc => some acc
  | m :: ms, acc =>
    match collectSubmatchesOf text (m.drop 2) acc with
    | some acc' => collectSubmatches text ms acc'
    | none => none

/-- Go `replaceMatchesWithStringAndUpdateIndexMap` (lines 464-493): the record
after the call and the returned unique submatch strings. -/
def replaceMatchesWithStringAndUpdateIndexMap (n : NormalizationData)
    (allSubmatchIndex : Option (List (List Int))) (replacement : Text) :
    Option (NormalizationData × List Text) :=
  match allSubmatchIndex with
  | none => some (n, [])
  | some ms =>
    if ms.length = 0 then some (n, [])
    else
      match collectSubmatches n.NormalizedText ms [] with
      | none => none
      | some submatches =>
        match replaceMatchesWithStringsAndUpdateIndexMap n (some ms)
            (List.replicate ms.length replacement) with
        | some n' => some (n', submatches)
        | none => none

/-- Go `regexpReplacePatternAndUpdateIndexMap` (lines 279-283). -/
def regexpReplacePatternAndUpdateIndexMap (n : NormalizationData) (re : Regexp)
    (replacement : Text) : Option (NormalizationData × List Text) :=
  replaceMatchesWithStringAndUpdateIndexMap (initializeRecord n)
    (FindAllStringSubmatchIndex re (initializeRecord n).NormalizedText
      (initializeRecord n).NormalizedText.length) replacement

/-- Go `regexpRemovePatternAndUpdateIndexMap` (lines 272-274). -/
def regexpRemovePatternAndUpdateIndexMap (n : NormalizationData) (re : Regexp) :
    Option (NormalizationData × List Text) :=
  regexpReplacePatternAndUpdateIndexMap n re []

/-- A pass that drops the returned submatch strings. -/
def replacePass (re : Regexp) (replacement : Text) (n : NormalizationData) :
    Option NormalizationData :=
  (regexpReplacePatternAndUpdateIndexMap n re replacement).map Prod.fst

/-- Go `removeNoteTags` (lines 255-257). -/
def removeNoteTags (n : NormalizationData) : Option NormalizationData :=
  replacePass NoteTagPatternRE (bytes " ") n

/-- Go `limitWildcardMatching` (lines 260-262). -/
def limitWildcardMatching (n : NormalizationData) : Option NormalizationData :=
  replacePass WildcardMatchingPatternRE (bytes "<<.\x7b1,144\x7d>>") n

/-- Go `limitOptionalWildcardMatching` (lines 265-267). -/
def limitOptionalWildcardMatching (n : NormalizationData) : Option NormalizationData :=
  replacePass OptionalWildcardMatchingPatternRE (bytes "<<.\x7b0,144\x7d>>") n

/-- The loop of lines 295-303 over one match: the submatch strings, given the
match without its first two entries; a group that did not take part gives the
empty string. -/
def submatchStrings (text : Text) : List Int → Option (List Text)
  | firstIndex :: lastIndex :: rest =>
    match (if firstIndex < 0 ∨ lastIndex < 0 then some [] else goSlice text firstIndex lastIndex),
        submatchStrings text rest with
    | some sub, some subs => some (sub :: subs)
    | _, _ => none
  | _ => some []

/-- Lines 313-315: trim the double quotes around the match expression. -/
def trimQuotes (regex : Text) : Option Text :=
  if HasPrefix regex (bytes "\"") && HasSuffix regex (bytes "\"") then
    goSlice regex 1 ((regex.length : Int) - 1)
  else some regex

/-- Lines 318-320: make a trailing quantifier lazy. -/
def makeLazy (regex : Text) : Text :=
  if HasSuffix regex (bytes "+") || HasSuffix regex (bytes "*") ||
      HasSuffix regex (bytes "\x7d") then
    regex ++ bytes "?"
  else regex

/-- Lines 325-327: limit the range of a trailing `{0,5000}?`. -/
def limitRange (regex : Text) : Option Text :=
  if HasSuffix regex (bytes "\x7b0,5000\x7d?") then
    match goSlice regex 0 ((regex.length : Int) - ((bytes "\x7b0,5000\x7d?").length : Int)) with
    | some head => some (head ++ bytes "\x7b0,1000\x7d?")
    | none => none
  else some regex

/-- Lines 313-327 on the match expression of one marker. -/
def adjustRegex (regex : Text) : Option Text :=
  match trimQuotes regex with
  | some trimmed => limitRange (makeLazy trimmed)
  | none => none

/-- The loop of lines 293-340: the replacement strings and the capture groups
after the matches `ms`, starting from those built so far. -/
def captureLoop (text : Text) :
    List (List Int) → List Text → List CaptureGroup → Option (List Text × List CaptureGroup)
  | [], replacements, groups => some (replacements, groups)
  | m :: ms, replacements, groups =>
    match submatchStrings text (m.drop 2) with
    | none => none
    | some submatches =>
      match submatches[0]?, submatches[1]?, submatches[2]? with
      | some name, some original, some regex =>
        match adjustRegex regex with
        | none => none
        | some regex' =>
          captureLoop text ms (replacements ++ [bytes "<<" ++ regex' ++ bytes ">>"])
            (groups ++ [{ GroupNumber := (groups.length : Int) + 1, Name := name,
                          Original := original, Matches := regex' }])
      | _, _, _ => none

/-- Lines 291-342 of `captureReplaceableTextSections`, given the matches the
pattern search returned on the current text. -/
def captureWith (n : NormalizationData) (allSubmatchIndex : Option (List (List Int))) :
    Option NormalizationData :=
  match captureLoop n.NormalizedText (allSubmatchIndex.getD []) [] n.CaptureGroups with
  | none => none
  | some (replacements, groups) =>
    replaceMatchesWithStringsAndUpdateIndexMap { n with CaptureGroups := groups }
      allSubmatchIndex replacements

/-- Go `captureReplaceableTextSections` (lines 287-343). -/
def captureReplaceableTextSections (n : NormalizationData) : Option NormalizationData :=
  captureWith (initializeRecord n)
    (FindAllStringSubmatchIndex ReplaceableTextPatternRE (initializeRecord n).NormalizedText
      (initializeRecord n).NormalizedText.length)

/-- Go `standardizeOmitableTags` (lines 345-349). -/
def standardizeOmitableTags (n : NormalizationData) : Option NormalizationData :=
  (replacePass BeginOptionalLinePatternRE (bytes "<<omitable>>\n") n).bind fun n1 =>
  (replacePass BeginOptionalPatternRE (bytes "<<omitable>>") n1).bind fun n2 =>
  replacePass EndOptionalPatternRE (bytes "<</omitable>>") n2

/-- Go `removeCodeCommentIndicators` (lines 351-363). -/
def removeCodeCommentIndicators (n : NormalizationData) : Option NormalizationData :=
  (replacePass CommentBlockOutsideRE (bytes " ") n).bind fun n1 =>
  (replacePass CommentBlockInsideRE (bytes " ") n1).bind fun n2 =>
  (replacePass HtmlStyleCommentRE (bytes " ") n2).bind fun n3 =>
  replacePass CommentLineRE (bytes " ") n3

/-- Go `strings.Index(s, "<")` as an offset, `none` for `-1`. -/
def indexOfLt : Text → Option Nat
  | [] => none
  | b :: rest => if b = 60 then some 0 else (indexOfLt rest).map (· + 1)

/-- The inner loop of line 384 from offset `j`, on the text from `j` on: the
first offset at or after `j` that holds `<` or `>`, or the length of the text. -/
def skipContents : Text → Nat → Nat
  | [], j => j
  | b :: rest, j => if b ≠ 60 ∧ b ≠ 62 then skipContents rest (j + 1) else j

/-- The scanning loop of lines 372-393, entered with the search position `next`
and the matches appended so far; `fuel` bounds the number of iterations. -/
def removeHTMLTagsLoop (text : Text) : Nat → Nat → List (List Int) → Option (List (List Int))
  | 0, _, _ => none
  | fuel + 1, next, acc =>
    match goSliceFrom text (next : Int) with
    | none => none
    | some tail =>
      match indexOfLt tail with
      | none => some acc
      | some i0 =>
        let i := next + i0
        let next1 := i + 1
        if text.length > next1 + 4 ∧
            goSlice text (next1 : Int) ((next1 : Int) + 4) = some (bytes "http") then
          removeHTMLTagsLoop text fuel next1 acc
        else
          let j := if text.length > i + 1 then skipContents (text.drop (i + 1)) (i + 1) else i
          if text.length > j ∧ text[j]? = some 62 ∧
              (text.length ≤ j + 1 ∨ text[j + 1]? ≠ some 62) then
            removeHTMLTagsLoop text fuel (j + 1) (acc ++ [[(i : Int), ((j + 1 : Nat) : Int)]])
          else removeHTMLTagsLoop text fuel next1 acc

/-- Go `removeHTMLTags` (lines 365-397). -/
def removeHTMLTags (n : NormalizationData) : Option NormalizationData :=
  match removeHTMLTagsLoop n.NormalizedText (n.NormalizedText.length + 1) 0 [] with
  | none => none
  | some ms =>
    (replaceMatchesWithStringAndUpdateIndexMap n (if ms.isEmpty then none else some ms) []).map
      Prod.fst

/-- Go `replaceDashLikeCharacters` (lines 399-401). -/
def replaceDashLikeCharacters (n : NormalizationData) : Option NormalizationData :=
  replacePass DashLikeRE (bytes "-") n

/-- Go `replaceQuoteLikeCharacters` (lines 403-405). -/
def replaceQuoteLikeCharacters (n : NormalizationData) : Option NormalizationData :=
  replacePass QuoteLikeRE [39] n

/-- Go `standardizeToHTTP` (lines 407-409). -/
def standardizeToHTTP (n : NormalizationData) : Option NormalizationData :=
  replacePass HTTPPatternRE (bytes "http") n

/-- The loop of lines 417-425: one replacement per match, the text of group 1
or the empty string. -/
def bulletReplacements (text : Text) : List (List Int) → Option (List Text)
  | [] => some []
  | m :: ms =>
    match m[2]?, m[3]? with
    | some firstIndex, some lastIndex =>
      match (if firstIndex < 0 ∨ lastIndex < 0 then some []
          else goSlice text firstIndex lastIndex), bulletReplacements text ms with
      | some r, some rs => some (r :: rs)
      | _, _ => none
    | _, _ => none

/-- Go `removeBulletsAndNumbering` (lines 411-428). -/
def removeBulletsAndNumbering (n : NormalizationData) : Option NormalizationData :=
  match bulletReplacements (initializeRecord n).NormalizedText
      ((FindAllStringSubmatchIndex BulletsAndNumberingPatternRE (initializeRecord n).NormalizedText
        (initializeRecord n).NormalizedText.length).getD []) with
  | none => none
  | some replacements =>
    replaceMatchesWithStringsAndUpdateIndexMap (initializeRecord n)
      (FindAllStringSubmatchIndex BulletsAndNumberingPatternRE (initializeRecord n).NormalizedText
        (initializeRecord n).NormalizedText.length) replacements

/-- Go `reconnectSplitWords` (lines 430-432). -/
def reconnectSplitWords (n : NormalizationData) : Option NormalizationData :=
  (regexpRemovePatternAndUpdateIndexMap n SplitWordsRE).map Prod.fst

/-- Go `removeHorizontalRules` (lines 434-436). -/
def removeHorizontalRules (n : NormalizationData) : Option NormalizationData :=
  replacePass HorizontalRulePatternRE (bytes " ") n

/-- Go `replaceVarietalWordSpellings` (lines 444-448), over the table entries in
their iteration order. -/
def replaceVarietalWordSpellings (n : NormalizationData) :
    List (Text × Regexp) → Option NormalizationData
  | [] => some n
  | (replacement, re) :: rest =>
    match replacePass re replacement n with
    | some n' => replaceVarietalWordSpellings n' rest
    | none => none

/-- Go `replaceCopyrightSymbols` (lines 450-452). -/
def replaceCopyrightSymbols (n : NormalizationData) : Option NormalizationData :=
  replacePass CopyrightRE (bytes "copyright") n

/-- Go `removeOddCharacters` (lines 454-456). -/
def removeOddCharacters (n : NormalizationData) : Option NormalizationData :=
  replacePass OddCharactersPatternRE (bytes " ") n

/-- Go `replaceWhitespace` (lines 458-462). -/
def replaceWhitespace (n : NormalizationData) : Option NormalizationData :=
  (replacePass MiddleWhitespaceRE (bytes " ") n).bind fun n1 =>
  ((regexpRemovePatternAndUpdateIndexMap n1 LeadingWhitespaceRE).map Prod.fst).bind fun n2 =>
  (regexpRemovePatternAndUpdateIndexMap n2 TrailingWhitespaceRE).map Prod.fst

/-! ## `NormalizeText` (lines 132-236) -/

/-- The two errors `NormalizeText` returns. -/
inductive NormalizeError where
  | invalidLength (len : Nat) : NormalizeError
  | controlCharacters : NormalizeError
  deriving DecidableEq, Repr

/-- Lines 150-162: the passes before the text is lowered. -/
def passesBeforeLower (n : NormalizationData) : Option NormalizationData :=
  (removeNoteTags n).bind fun n1 =>
  (limitWildcardMatching n1).bind fun n2 =>
  (limitOptionalWildcardMatching n2).bind fun n3 =>
  (captureReplaceableTextSections n3).bind fun n4 =>
  standardizeOmitableTags n4

/-- Line 165: `n.NormalizedText = strings.ToLower(n.NormalizedText)`. -/
def lowerText (env : Env) (n : NormalizationData) : NormalizationData :=
  { n with NormalizedText := ToLower env.toLowerRune n.NormalizedText }

/-- Lines 169-199: the passes between the lowering and the word table. -/
def passesBeforeWords (n : NormalizationData) : Option NormalizationData :=
  (removeOddCharacters n).bind fun n1 =>
  (removeCodeCommentIndicators n1).bind fun n2 =>
  (replaceDashLikeCharacters n2).bind fun n3 =>
  (replaceQuoteLikeCharacters n3).bind fun n4 =>
  (standardizeToHTTP n4).bind fun n5 =>
  (removeBulletsAndNumbering n5).bind fun n6 =>
  (reconnectSplitWords n6).bind fun n7 =>
  removeHorizontalRules n7

/-- Lines 209-220: the passes after the word table. -/
def passesAfterWords (n : NormalizationData) : Option NormalizationData :=
  (replaceCopyrightSymbols n).bind fun n10 =>
  (removeHTMLTags n10).bind fun n11 =>
  replaceWhitespace n11

/-- Lines 169-220: the passes after the text is lowered. -/
def passesAfterLower (env : Env) (n : NormalizationData) : Option NormalizationData :=
  (passesBeforeWords n).bind fun n8 =>
  (replaceVarietalWordSpellings n8 env.replacementREs).bind fun n9 =>
  passesAfterWords n9

/-- Lines 222-233: the digests of the final text. -/
def addHash (env : Env) (n : NormalizationData) : NormalizationData :=
  { n with Hash := { Md5 := env.md5Hex n.NormalizedText, Sha256 := env.sha256Hex n.NormalizedText,
                     Sha512 := env.sha512Hex n.NormalizedText } }

/-- Lines 150-233: everything after the two input checks. -/
def normalizePasses (env : Env) (n : NormalizationData) : Option NormalizationData :=
  (passesBeforeLower n).bind fun n1 =>
  (passesAfterLower env (lowerText env n1)).map (addHash env)

/-- Go `NormalizeText` (lines 132-236): `none` is a run-time failure, otherwise
the record after the call and the returned error (`none` for `nil`). -/
def NormalizeText (env : Env) (n : NormalizationData) :
    Option (NormalizationData × Option NormalizeError) :=
  if n.OriginalText.length < 1 then some (n, some (.invalidLength n.OriginalText.length))
  else if MatchString ControlCharactersRE n.OriginalText then some (n, some .controlCharacters)
  else (normalizePasses env n).map fun n' => (n', none)

/-! ## Specification vocabulary for the claims -/

/-- Position `i` of the record maps back to the byte it shows:
`OriginalText[IndexMap[i]] == NormalizedText[i]`. -/
def provenanceAt (n : NormalizationData) (i : Nat) : Bool :=
  match n.IndexMap[i]?, n.NormalizedText[i]? with
  | some j, some c => goIndex n.OriginalText j == some c
  | _, _ => false

/-- Every position of the normalized text maps back to the byte it shows. -/
def Provenance (n : NormalizationData) : Prop :=
  ∀ i, i < n.NormalizedText.length → provenanceAt n i = true

/-- The records reached from a fresh record over `original` by `initialize()`
followed by any number of completed calls of
`replaceMatchesWithStringsAndUpdateIndexMap`. -/
inductive Rewritten (original : Text) : NormalizationData → Prop where
  | init (n : NormalizationData) (ho : n.OriginalText = original)
      (ht : n.NormalizedText = []) (hi : n.IndexMap = []) :
      Rewritten original (initializeRecord n)
  | step (n n' : NormalizationData) (allSubmatchIndex : Option (List (List Int)))
      (replacements : List Text) (h : Rewritten original n)
      (hs : replaceMatchesWithStringsAndUpdateIndexMap n allSubmatchIndex replacements = some n') :
      Rewritten original n'

/-- The code points of a text, as Go decodes it rune by rune. -/
def runes (s : Text) : List Nat := (rangeRunes s).map Prod.snd

/-- A code point in U+0000-U+0007 or U+000E-U+001B. -/
def isForbiddenControl (r : Nat) : Bool := r ≤ 0x7 || (0xE ≤ r && r ≤ 0x1B)

/-- Every match of the expression takes at least one rune (a sufficient
syntactic check). -/
def Re.consumes : Re → Bool
  | .cls _ => true
  | .seq a b => a.consumes || b.consumes
  | .alt a b => a.consumes && b.consumes
  | .group _ a => a.consumes
  | _ => false

/-- The cursor `c'` lies `d` bytes after the cursor `c` in the same text. -/
def Cursor.After (c c' : Cursor) (d : Nat) : Prop :=
  c'.pos = c.pos + d ∧ c'.rest = c.rest.drop d ∧ d ≤ c.rest.length

/-! ## The adjustment of a match expression, in the words of the specification -/

/-- The match expression of a marker: the text of the third capture group of
its match, as line 306 reads it. -/
def matchExpressionOf (text : Text) (m : List Int) : Option Text :=
  (submatchStrings text (m.drop 2)).bind fun submatches => submatches[2]?

/-- The pattern `y` is `x` without one leading and one trailing double quote when `x` both
starts and ends with a double quote, and `x` itself otherwise. -/
def IsStripped (x y : Text) : Prop :=
  (∃ mid, x = [34] ++ mid ++ [34] ∧ y = mid) ∨
    (¬ (x.head? = some 34 ∧ x.getLast? = some 34) ∧ y = x)

/-- The pattern `y` is `x` with `?` appended when `x` ends in `+`, `*` or a closing brace,
and `x` itself otherwise. -/
def IsMadeLazy (x y : Text) : Prop :=
  ((x.getLast? = some 43 ∨ x.getLast? = some 42 ∨ x.getLast? = some 125) ∧ y = x ++ [63]) ∨
    (¬ (x.getLast? = some 43 ∨ x.getLast? = some 42 ∨ x.getLast? = some 125) ∧ y = x)

/-- The pattern `y` is `x` with a trailing `{0,5000}?` rewritten to `{0,1000}?` and the part
before it unchanged, and `x` itself when it has no such ending. -/
def IsCapped (x y : Text) : Prop :=
  (∃ p, x = p ++ bytes "\x7b0,5000\x7d?" ∧ y = p ++ bytes "\x7b0,1000\x7d?") ∨
    ((¬ ∃ p, x = p ++ bytes "\x7b0,5000\x7d?") ∧ y = x)

/-- The pattern `y` is `cap(lazy(strip(x)))`. -/
def IsAdjusted (x y : Text) : Prop :=
  ∃ a b, IsStripped x a ∧ IsMadeLazy a b ∧ IsCapped b y

/-! ## Concrete inputs used below -/

/-- A record over the text `abcdef` with the identity index map. -/
def exampleRecord : NormalizationData :=
  { OriginalText := bytes "abcdef", NormalizedText := bytes "abcdef",
    IndexMap := [0, 1, 2, 3, 4, 5], CaptureGroups := [],
    Hash := { Md5 := [], Sha256 := [], Sha512 := [] } }

/-- The record over `abcdef` after the span `[1,3)` was replaced by the two-byte
string `é`. -/
def exampleRewritten : NormalizationData :=
  { OriginalText := bytes "abcdef", NormalizedText := [97, 0xC3, 0xA9, 100, 101, 102],
    IndexMap := [0, 1, 0, 3, 4, 5], CaptureGroups := [],
    Hash := { Md5 := [], Sha256 := [], Sha512 := [] } }

/-- A stand-in for the outside world: lower case for ASCII and for the Kelvin
sign U+212A, empty digests, and a one-entry word table. -/
def sampleEnv : Env :=
  { toLowerRune := fun r => if 65 ≤ r ∧ r ≤ 90 then r + 32 else if r = 0x212A then 0x6B else r,
    md5Hex := fun _ => [], sha256Hex := fun _ => [], sha512Hex := fun _ => [],
    replacementREs := [(bytes "acknowledgment", ⟨Re.lit "acknowledgement", 0⟩)] }

/-- The text made of the single character U+212A KELVIN SIGN (three bytes). -/
def kelvinText : Text := [0xE2, 0x84, 0xAA]

/-- The record of `kelvinText` as the passes before the lowering leave it. -/
def kelvinInitialized : NormalizationData :=
  { newRecord kelvinText with NormalizedText := kelvinText, IndexMap := [0, 1, 2] }

/-- The record of `kelvinText` after line 165. -/
def kelvinLowered : NormalizationData :=
  { newRecord kelvinText with NormalizedText := [0x6B], IndexMap := [0, 1, 2] }

/-- A record that already holds data and whose `OriginalText` is the single
control character U+001B. -/
def rejectedRecord : NormalizationData :=
  { exampleRecord with OriginalText := [0x1B] }

/-- A template with one quoted long-form marker. -/
def captureExample : NormalizationData :=
  newRecord (bytes "<<match=\".\x7b0,5000\x7d\">>")

/-- The record `captureExample` after the capture pass. -/
def captureExampleResult : NormalizationData :=
  { OriginalText := bytes "<<match=\".\x7b0,5000\x7d\">>",
    NormalizedText := bytes "<<.\x7b0,1000\x7d?>>",
    IndexMap := [0, -1, -1, -1, -1, -1, -1, -1, -1, -1, -1, -1, -1, 20],
    CaptureGroups := [{ GroupNumber := 1, Name := [], Original := [],
                        Matches := bytes ".\x7b0,1000\x7d?" }],
    Hash := { Md5 := [], Sha256 := [], Sha512 := [] } }

/-! ## Vocabulary for the capture groups -/

/-- The text of capture group `k + 1` of a marker's match: the slice of the
text between the group's indices, and the empty string when the group did not
take part (indices `-1`). -/
def markerField (text : Text) (m : List Int) (k : Nat) : Option Text :=
  match m[2 * k + 2]?, m[2 * k + 3]? with
  | some lo, some hi => if lo < 0 ∨ hi < 0 then some [] else goSlice text lo hi
  | _, _ => none

/-- The marker `<<` ++ `Matches` ++ `>>` of a capture group. -/
def markerOf (g : CaptureGroup) : Text := bytes "<<" ++ g.Matches ++ bytes ">>"

/-- The text contains the given strings one after the other, in this order
(with anything before, between and after them). -/
def ContainsInOrder : Text → List Text → Prop
  | _, [] => True
  | t, m :: ms => ∃ a b, t = a ++ m ++ b ∧ ContainsInOrder b ms

/-- A template with a full-form marker and a bare marker. -/
def captureTwoExample : NormalizationData :=
  newRecord (bytes "<<var;name=x;original=Y;match=.+>> <<match=[A-Z]>>")

/-- The record `captureTwoExample` after the capture pass. -/
def captureTwoResult : NormalizationData :=
  { OriginalText := bytes "<<var;name=x;original=Y;match=.+>> <<match=[A-Z]>>",
    NormalizedText := bytes "<<.+?>> <<[A-Z]>>",
    IndexMap := [0, -1, -1, -1, -1, -1, 33, 34, 35, -1, -1, -1, -1, -1, -1, -1, 49],
    CaptureGroups := [{ GroupNumber := 1, Name := bytes "x", Original := bytes "Y",
                        Matches := bytes ".+?" },
                      { GroupNumber := 2, Name := [], Original := [],
                        Matches := bytes "[A-Z]" }],
    Hash := { Md5 := [], Sha256 := [], Sha512 := [] } }

/-- A two-entry word table in the style of the equivalent-words list: `licence`
is written `license`, and `sub-license` or `sub license` is written
`sublicense`. -/
def overlappingTable : List (Text × Regexp) :=
  [(bytes "license", ⟨Re.lit "licence", 0⟩),
   (bytes "sublicense", ⟨Re.seqs [Re.lit "sub", Re.oneOf [45, 32], Re.lit "license"], 0⟩)]

/-! ## Rewriting every occurrence, in the words of the specification -/

/-- Rewrite every occurrence from left to right: where `len` gives a match
length at the current position, the replacement is written and the matched
bytes are skipped; elsewhere the byte is copied.  `skip` is the number of bytes
of the current match that are still to be skipped. -/
def rewriteEveryAux (len : Text → Option Nat) (replacement : Text) : Nat → Text → Text
  | _, [] => []
  | 0, b :: rest =>
    match len (b :: rest) with
    | some l => replacement ++ rewriteEveryAux len replacement (l - 1) rest
    | none => b :: rewriteEveryAux len replacement 0 rest
  | k + 1, _ :: rest => rewriteEveryAux len replacement k rest

/-- The text with every occurrence (leftmost first, not overlapping) replaced. -/
def rewriteEvery (len : Text → Option Nat) (replacement : Text) (text : Text) : Text :=
  rewriteEveryAux len replacement 0 text

/-- The spans of the occurrences that `rewriteEvery` replaces, for a text whose
first byte has offset `pos`. -/
def matchSpansAux (len : Text → Option Nat) : Nat → Nat → Text → List (Nat × Nat)
  | _, _, [] => []
  | 0, pos, b :: rest =>
    match len (b :: rest) with
    | some l => (pos, pos + l) :: matchSpansAux len (l - 1) (pos + 1) rest
    | none => matchSpansAux len 0 (pos + 1) rest
  | k + 1, pos, _ :: rest => matchSpansAux len k (pos + 1) rest

/-- The first occurrence at or after the start of a text whose first byte has
offset `pos`. -/
def firstMatch (len : Text → Option Nat) : Nat → Text → Option (Nat × Nat)
  | _, [] => none
  | pos, b :: rest =>
    match len (b :: rest) with
    | some l => some (pos, pos + l)
    | none => firstMatch len (pos + 1) rest

/-- The lower-case form of an ASCII byte. -/
def toLowerByte (b : Nat) : Nat := if 65 ≤ b ∧ b ≤ 90 then b + 32 else b

/-- The text starts with the bare marker `<<match=.+>>`, the keyword in any
letter-casing: the length of the marker. -/
def wildcardLen (rest : Text) : Option Nat :=
  if (rest.take 12).map toLowerByte = bytes "<<match=.+>>" then some 12 else none

/-- The text starts with the bare marker `<<match=.*>>` in lower case: the
length of the marker. -/
def optionalWildcardLen (rest : Text) : Option Nat :=
  if rest.take 12 = bytes "<<match=.*>>" then some 12 else none

/-- The length of an `s` at the start of the text, in any form the pattern
accepts under `(?i)`: `s`, `S`, or the two bytes of U+017F; zero if none. -/
def sLen : Text → Nat
  | [] => 0
  | b :: rest =>
    if b = 115 ∨ b = 83 then 1 else if b = 0xC5 ∧ rest.head? = some 0xBF then 2 else 0

/-- The text starts with the protocol token: `http` in any letter-casing,
together with the `s` that follows it, if any; the length of the token. -/
def httpLen (rest : Text) : Option Nat :=
  if (rest.take 4).map toLowerByte = bytes "http" then some (4 + sLen (rest.drop 4)) else none

/-- The cursor after `k` single-byte steps. -/
def Cursor.skip (c : Cursor) : Nat → Cursor
  | 0 => c
  | k + 1 => (c.advance 1).skip k

/-- The text starts with one byte of each class in turn. -/
def startsWithClasses : List (List Nat) → Text → Bool
  | [], _ => true
  | _ :: _, [] => false
  | cl :: cls, b :: rest => cl.contains b && startsWithClasses cls rest

/-- The classes of an expression that is a plain sequence of one-byte ASCII
classes, `none` for any other expression. -/
def Re.byteClasses : Re → Option (List (List Nat))
  | .eps => some []
  | .cls ranges =>
    if ranges.all (fun lh => decide (lh.1 = lh.2) && decide (lh.1 < 0x80)) then
      some [ranges.map Prod.fst]
    else none
  | .seq a b =>
    match a.byteClasses, b.byteClasses with
    | some ca, some cb => some (ca ++ cb)
    | _, _ => none
  | _ => none

/-- A fresh record of the text `a <<Match=.+>> b <<match=.*>>`. -/
def wildcardExample : NormalizationData :=
  newRecord (bytes "a <<Match=.+>> b <<match=.*>>")

/-- No protocol token of the text is directly followed by a further `s` (in any
of the forms `s`, `S`, U+017F): after each occurrence of `http` with its
optional `s`, in any letter-casing, the next character is not an `s`. -/
def noFurtherS : Text → Bool
  | [] => true
  | b :: rest =>
    (match httpLen (b :: rest) with
      | some l => sLen ((b :: rest).drop l) == 0
      | none => true) && noFurtherS rest

/-- The span from offset `i` to offset `j`, both included, is a tag that is to
be removed: it opens with `<`, closes with `>`, has no `<` or `>` in between,
the text after the `<` does not begin with `http`, and the `>` is not directly
followed by another `>`. -/
def isTagSpan (text : Text) (i j : Nat) : Bool :=
  text[i]? == some 60 && text[j]? == some 62 && decide (i < j) &&
  (List.range j).all (fun k => decide (k ≤ i) || (text[k]? != some 60 && text[k]? != some 62)) &&
  !(HasPrefix (text.drop (i + 1)) (bytes "http")) &&
  text[j + 1]? != some 62

/-- The initialized record of the text `a <b> <http://x> <<c>> d`. -/
def tagExample : NormalizationData :=
  initializeRecord (newRecord (bytes "a <b> <http://x> <<c>> d"))

/-- Somewhere in the text an occurrence starts: `len` gives a match length at
some position. -/
def hasOccurrence (len : Text → Option Nat) : Text → Bool
  | [] => false
  | b :: rest => (len (b :: rest)).isSome || hasOccurrence len rest

/-- The texts `block` and `s`, compared under `g`, differ at a position that
both have. -/
def clash (g : Nat → Nat) : Text → Text → Bool
  | b :: block, c :: s => g b != c || clash g block s
  | _, _ => false

/-- Every non-empty suffix of `pat` clashes with `block`. -/
def blockFree (g : Nat → Nat) (block : Text) : Text → Bool
  | [] => true
  | c :: pat => clash g block (c :: pat) && blockFree g block pat

/-! ## The pattern that the tag scanner stands for, in the words of the specification -/

/-- The text starts with a match of `<(?!http)[^<>]+>(?!>)`: a `<` not followed
by `http`, then one or more characters other than `<` and `>`, then a `>` not
followed by `>`; the length of the match.  The characters are taken byte by
byte: no byte of a multi-byte character is `<` or `>`. -/
def tagPatternLen : Text → Option Nat
  | [] => none
  | b :: rest =>
    if b = 60 ∧ ¬ HasPrefix rest (bytes "http") = true then
      if 1 ≤ (rest.takeWhile (fun c => c != 60 && c != 62)).length ∧
          (rest.drop (rest.takeWhile (fun c => c != 60 && c != 62)).length).head? = some 62 ∧
          (rest.drop ((rest.takeWhile (fun c => c != 60 && c != 62)).length + 1)).head? ≠
            some 62 then
        some ((rest.takeWhile (fun c => c != 60 && c != 62)).length + 2)
      else none
    else none

/-- One iteration of the scanning loop of lines 372-393, entered with the search
position `next`: `none` is a run-time failure; otherwise `none` when the loop
ends (no further `<`), or the new value of `next` and the match appended in
this iteration, if any. -/
def removeHTMLTagsStep (text : Text) (next : Nat) : Option (Option (Nat × List (List Int))) :=
  match goSliceFrom text (next : Int) with
  | none => none
  | some tail =>
    match indexOfLt tail with
    | none => some none
    | some i0 =>
      let i := next + i0
      let next1 := i + 1
      if text.length > next1 + 4 ∧
          goSlice text (next1 : Int) ((next1 : Int) + 4) = some (bytes "http") then
        some (some (next1, []))
      else
        let j := if text.length > i + 1 then skipContents (text.drop (i + 1)) (i + 1) else i
        if text.length > j ∧ text[j]? = some 62 ∧
            (text.length ≤ j + 1 ∨ text[j + 1]? ≠ some 62) then
          some (some (j + 1, [[(i : Int), ((j + 1 : Nat) : Int)]]))
        else some (some (next1, []))

/-! ## Vocabulary for the order of the offsets -/

/-- The entries of an index map that are offsets: those that are not the
sentinel `-1`. -/
def nonSentinel (m : List Int) : List Int := m.filter (fun x => decide (x ≠ -1))

/-- Every character of the string is a single byte (ASCII). -/
def isAscii (r : Text) : Bool := r.all (fun b => decide (b < 0x80))

/-- The index entries for a replacement of `k` single-byte characters, as the
comment on lines 529-532 describes them: `first` at offset 0, `last` at offset
`k - 1` when that is not offset 0, the sentinel in between. -/
def replacementEntries (first last : Int) (k : Nat) : List Int :=
  (List.range k).map fun c => if c = 0 then first else if c = k - 1 then last else -1

/-- The entries `a` and `b`, in this order, do not break the order of the
offsets: if both are offsets, `a` is at most `b`. -/
def inOrder (a b : Int) : Prop := a ≠ -1 → b ≠ -1 → a ≤ b

/-- The entry `x` is the sentinel or the entry of `L` at a position from `lo`
up to, not including, `hi`. -/
def drawnFrom (L : List Int) (lo hi : Nat) (x : Int) : Prop :=
  x = -1 ∨ ∃ q : Nat, lo ≤ q ∧ q < hi ∧ L[q]? = some x

/-! ## The template validator (`validator.go`) -/

/-- A Go `error` value, as far as the validator tells them apart: an error
returned by a function outside `validator.go`, an error of `NormalizeText`, and
an error that `fmt.Errorf` wraps with `%w`. -/
inductive GoError where
  | external (msg : String) : GoError
  | normalize (e : NormalizeError) : GoError
  | wrapped (msg : String) (inner : GoError) : GoError
  deriving DecidableEq, Repr

/-- What `ValidateSPDXTemplateWithLicenseText` calls outside `validator.go` and
the normalizer: the file system (`os.ReadFile`, `os.WriteFile`, `path.Join`),
the packages `licenses` and `identifier`, the importer's `GetStaticBlocks` and
`WritePreChecksFile`, and `Logger.Errorf`.  A Go `error` result is `none` for
`nil`.  `AddPrimaryPatternAndSource` gives the `PrimaryPatterns` of the license
it filled, `GenerateMatchingPatternFromSourceText` the pattern as the call left
it. -/
structure Collaborators (Pattern Match Blocks : Type) where
  ReadFile : String → Except GoError Text
  WriteFile : String → Text → Option GoError
  Join : String → String → String
  AddPrimaryPatternAndSource : Text → String → Except GoError (List Pattern)
  GenerateMatchingPatternFromSourceText : Pattern → Except GoError Pattern
  FindMatchingPatternInNormalizedData : Pattern → NormalizationData → Except GoError (List Match)
  GetStaticBlocks : NormalizationData → Blocks
  PassedStaticBlocksChecks : Blocks → NormalizationData → Bool
  WritePreChecksFile : Blocks → String → Option GoError
  ErrorfMatches : String → String → List Match → Option GoError
  Errorf : String → String → Option GoError

/-- The skip list of lines 21-23. -/
def initialSkips : List String := ["deprecated_Nokia-Qt-exception-1.1"]

/-- The skip list of lines 55-97. -/
def laterSkips : List String :=
  ["Afmparse", "BlueOak-1.0.0", "CC-BY-3.0", "CC-BY-NC-SA-2.0-FR", "CC-BY-SA-3.0", "CECILL-2.0",
    "CECILL-2.1", "CECILL-B", "CECILL-C", "COIL-1.0", "Community-Spec-1.0", "D-FSL-1.0",
    "EPL-1.0", "EUDatagrid", "EUPL-1.2", "Elastic-2.0", "ErlPL-1.1", "FreeImage", "IBM-pibs",
    "LAL-1.2", "LAL-1.3", "LPL-1.0", "LZMA-SDK-9.11-to-9.20", "LZMA-SDK-9.22",
    "LiLiQ-Rplus-1.1", "MulanPSL-1.0", "Multics", "NCGL-UK-2.0", "NPL-1.1", "OGL-UK-1.0",
    "OSET-PL-2.1", "Parity-7.0.0", "PolyForm-Noncommercial-1.0.0",
    "PolyForm-Small-Business-1.0.0", "SHL-2.0", "SHL-2.1", "SSPL-1.0", "W3C-19980720",
    "copyleft-next-0.3.0", "copyleft-next-0.3.1", "iMatix"]

/-- Lines 114-144: the template is normalized, the static blocks are checked
and the three files are written. -/
def validateAndWrite {Pattern Match Blocks : Type} (env : Env)
    (w : Collaborators Pattern Match Blocks)
    (id templateDestDir preCheckDestDir textDestDir : String) (textBytes templateBytes : Text)
    (normalizedTestData : NormalizationData) : Option (Bool × Option GoError) :=
  match NormalizeText env (newRecord templateBytes) with
  | none => none
  | some (_, some e) => some (false, some (.normalize e))
  | some (normalizedTemplate, none) =>
    if w.PassedStaticBlocksChecks (w.GetStaticBlocks normalizedTemplate) normalizedTestData =
        false then
      some (false, w.Errorf "%v failed testing against static blocks" id)
    else
      match w.WritePreChecksFile (w.GetStaticBlocks normalizedTemplate)
          (w.Join preCheckDestDir (id ++ ".json")) with
      | some err => some (false, some err)
      | none =>
        match w.WriteFile (w.Join templateDestDir (id ++ ".template.txt")) templateBytes with
        | some err => some (false, some (.wrapped ("error writing template for " ++ id) err))
        | none =>
          match w.WriteFile (w.Join textDestDir (id ++ ".txt")) textBytes with
          | some err => some (false, some (.wrapped ("error writing testdata for " ++ id) err))
          | none => some (true, none)

/-- Go `ValidateSPDXTemplateWithLicenseText` (lines 17-145): `none` is a
run-time failure (of `NormalizeText`, or of `l.PrimaryPatterns[0]` on an empty
slice), otherwise the returned pair. -/
def ValidateSPDXTemplateWithLicenseText {Pattern Match Blocks : Type} (env : Env)
    (w : Collaborators Pattern Match Blocks)
    (id templateFile textFile templateDestDir preCheckDestDir textDestDir : String) :
    Option (Bool × Option GoError) :=
  if id ∈ initialSkips then some (false, none)
  else
    match w.ReadFile textFile with
    | .error err => some (false, some err)
    | .ok textBytes =>
      match NormalizeText env (newRecord textBytes) with
      | none => none
      | some (_, some e) => some (false, some (.normalize e))
      | some (normalizedTestData, none) =>
        match w.ReadFile templateFile with
        | .error err => some (false, some err)
        | .ok templateBytes =>
          match w.AddPrimaryPatternAndSource templateBytes templateFile with
          | .error err => some (false, some err)
          | .ok primaryPatterns =>
            match primaryPatterns[0]? with
            | none => none
            | some pattern =>
              match w.GenerateMatchingPatternFromSourceText pattern with
              | .error err => some (false, some err)
              | .ok pattern' =>
                match w.FindMatchingPatternInNormalizedData pattern' normalizedTestData with
                | .error err => some (false, some err)
                | .ok matched =>
                  if matched.length ≠ 1 then
                    if id ∈ laterSkips then some (false, none)
                    else some (false, w.ErrorfMatches "expected 1 match for %v got: %v" id matched)
                  else
                    validateAndWrite env w id templateDestDir preCheckDestDir textDestDir
                      textBytes templateBytes normalizedTestData

/-- Every step of the validation succeeded, in the words of the specification:
the id is not in the initial skip list, both files were read, the example text
and the template normalized without error, the pattern was added and
generated, it found exactly one match in the normalized example, the
static-blocks check passed and the three files were written. -/
def EveryStepSucceeded {Pattern Match Blocks : Type} (env : Env)
    (w : Collaborators Pattern Match Blocks)
    (id templateFile textFile templateDestDir preCheckDestDir textDestDir : String) : Prop :=
  id ∉ initialSkips ∧
  ∃ (textBytes templateBytes : Text) (normalizedTestData normalizedTemplate : NormalizationData)
    (pattern pattern' : Pattern) (others : List Pattern) (found : Match),
    w.ReadFile textFile = .ok textBytes ∧
    w.ReadFile templateFile = .ok templateBytes ∧
    NormalizeText env (newRecord textBytes) = some (normalizedTestData, none) ∧
    NormalizeText env (newRecord templateBytes) = some (normalizedTemplate, none) ∧
    w.AddPrimaryPatternAndSource templateBytes templateFile = .ok (pattern :: others) ∧
    w.GenerateMatchingPatternFromSourceText pattern = .ok pattern' ∧
    w.FindMatchingPatternInNormalizedData pattern' normalizedTestData = .ok [found] ∧
    w.PassedStaticBlocksChecks (w.GetStaticBlocks normalizedTemplate) normalizedTestData = true ∧
    w.WritePreChecksFile (w.GetStaticBlocks normalizedTemplate)
      (w.Join preCheckDestDir (id ++ ".json")) = none ∧
    w.WriteFile (w.Join templateDestDir (id ++ ".template.txt")) templateBytes = none ∧
    w.WriteFile (w.Join textDestDir (id ++ ".txt")) textBytes = none

/-- A world in which every call succeeds: both files hold the text `mit`, one
pattern is added and finds one match. -/
def sampleWorld : Collaborators Unit Unit Unit :=
  { ReadFile := fun _ => .ok (bytes "mit"),
    WriteFile := fun _ _ => none,
    Join := fun dir file => dir ++ "/" ++ file,
    AddPrimaryPatternAndSource := fun _ _ => .ok [()],
    GenerateMatchingPatternFromSourceText := fun p => .ok p,
    FindMatchingPatternInNormalizedData := fun _ _ => .ok [()],
    GetStaticBlocks := fun _ => (),
    PassedStaticBlocksChecks := fun _ _ => true,
    WritePreChecksFile := fun _ _ => none,
    ErrorfMatches := fun msg _ _ => some (.external msg),
    Errorf := fun msg _ => some (.external msg) }

/-! ## The word table, modelled -/

/-- The characters of the record, each with its index entry. -/
def pairsOf (n : NormalizationData) : List (Nat × Int) := n.NormalizedText.zip n.IndexMap

/-- The record with the characters and index entries of `Z`. -/
def withPairs (n : NormalizationData) (Z : List (Nat × Int)) : NormalizationData :=
  { n with NormalizedText := Z.map Prod.fst, IndexMap := Z.map Prod.snd }

theorem goSlice_of_le {α : Type} (l : List α) (a b : Nat) (hab : a ≤ b) (hb : b ≤ l.length) :
    goSlice l (a : Int) (b : Int) = some ((l.drop a).take (b - a)) := by
  unfold goSlice
  rw [if_pos (by omega)]
  simp

theorem goSliceFrom_of_le {α : Type} (l : List α) (a : Nat) (ha : a ≤ l.length) :
    goSliceFrom l (a : Int) = some (l.drop a) := by
  unfold goSliceFrom
  rw [if_pos (by omega)]
  simp

theorem goIndex_of_lt {α : Type} (l : List α) (a : Nat) (ha : a < l.length) :
    goIndex l (a : Int) = some (l.get ⟨a, ha⟩) := by
  unfold goIndex
  simp [ha]

theorem goIndex_mem {α : Type} (l : List α) (i : Int) (v : α) (h : goIndex l i = some v) :
    v ∈ l := by
  unfold goIndex at h
  split at h
  · exact List.getElem?_mem h
  · cases h

theorem fillReplacementIndex_length (IndexMap : List Int) (f l : Int) (len : Nat) :
    ∀ (cs : List Nat) (acc r : List Int),
      fillReplacementIndex IndexMap f l len cs acc = some r → r.length = acc.length := by
  intro cs
  induction cs with
  | nil => intro acc r h; simp [fillReplacementIndex] at h; rw [← h]
  | cons c cs ih =>
    intro acc r h
    unfold fillReplacementIndex at h
    split at h
    · split at h
      · rw [ih _ _ h]; simp
      · cases h
    · split at h
      · split at h
        · rw [ih _ _ h]; simp
        · cases h
      · rw [ih _ _ h]; simp

theorem fillReplacementIndex_some (IndexMap : List Int) (f l : Int) (len : Nat)
    (hf : ∃ v, goIndex IndexMap f = some v) (hl : ∃ v, goIndex IndexMap (l - 1) = some v) :
    ∀ (cs : List Nat) (acc : List Int),
      ∃ r, fillReplacementIndex IndexMap f l len cs acc = some r := by
  obtain ⟨vf, hvf⟩ := hf
  obtain ⟨vl, hvl⟩ := hl
  intro cs
  induction cs with
  | nil => intro acc; exact ⟨acc, rfl⟩
  | cons c cs ih =>
    intro acc
    unfold fillReplacementIndex
    by_cases h0 : c = 0
    · rw [if_pos h0, hvf]; exact ih _
    · rw [if_neg h0]
      by_cases h1 : c = len - 1
      · rw [if_pos h1, hvl]; exact ih _
      · rw [if_neg h1]; exact ih _

theorem fillReplacementIndex_mem (IndexMap : List Int) (f l : Int) (len : Nat) :
    ∀ (cs : List Nat) (acc r : List Int),
      fillReplacementIndex IndexMap f l len cs acc = some r →
      ∀ x ∈ r, x ∈ acc ∨ x ∈ IndexMap ∨ x = -1 := by
  intro cs
  induction cs with
  | nil => intro acc r h x hx; simp [fillReplacementIndex] at h; subst h; exact Or.inl hx
  | cons c cs ih =>
    intro acc r h x hx
    unfold fillReplacementIndex at h
    split at h
    · split at h
      · rename_i v hv
        rcases ih _ _ h x hx with h1 | h1 | h1
        · rcases List.mem_or_eq_of_mem_set h1 with h2 | h2
          · exact Or.inl h2
          · exact Or.inr (Or.inl (h2 ▸ goIndex_mem _ _ _ hv))
        · exact Or.inr (Or.inl h1)
        · exact Or.inr (Or.inr h1)
      · cases h
    · split at h
      · split at h
        · rename_i v hv
          rcases ih _ _ h x hx with h1 | h1 | h1
          · rcases List.mem_or_eq_of_mem_set h1 with h2 | h2
            · exact Or.inl h2
            · exact Or.inr (Or.inl (h2 ▸ goIndex_mem _ _ _ hv))
          · exact Or.inr (Or.inl h1)
          · exact Or.inr (Or.inr h1)
        · cases h
      · rcases ih _ _ h x hx with h1 | h1 | h1
        · rcases List.mem_or_eq_of_mem_set h1 with h2 | h2
          · exact Or.inl h2
          · exact Or.inr (Or.inr h2)
        · exact Or.inr (Or.inl h1)
        · exact Or.inr (Or.inr h1)

theorem replacementIndex_length (IndexMap : List Int) (f l : Int) (r : Text) (ri : List Int)
    (h : replacementIndex IndexMap f l r = some ri) : ri.length = r.length := by
  unfold replacementIndex at h
  rw [fillReplacementIndex_length _ _ _ _ _ _ _ h]
  simp

theorem replacementIndex_mem (IndexMap : List Int) (f l : Int) (r : Text) (ri : List Int)
    (h : replacementIndex IndexMap f l r = some ri) :
    ∀ x ∈ ri, x = 0 ∨ x ∈ IndexMap ∨ x = -1 := by
  intro x hx
  unfold replacementIndex at h
  rcases fillReplacementIndex_mem _ _ _ _ _ _ _ h x hx with h1 | h1 | h1
  · exact Or.inl (List.eq_of_mem_replicate h1)
  · exact Or.inr (Or.inl h1)
  · exact Or.inr (Or.inr h1)

/-! ## The rewrite loop on a well-formed match list -/

theorem validMatches_cons_elim (len p : Nat) (m : List Int) (ms : List (List Int))
    (h : validMatches len (p : Int) (m :: ms) = true) :
    ∃ s e : Nat, m[0]? = some (s : Int) ∧ m[1]? = some (e : Int) ∧ p ≤ s ∧ s < e ∧ e ≤ len ∧
      validMatches len (e : Int) ms = true := by
  unfold validMatches at h
  split at h
  · rename_i s e hs he
    simp only [Bool.and_eq_true, decide_eq_true_eq] at h
    obtain ⟨⟨⟨h1, h2⟩, h3⟩, h4⟩ := h
    refine ⟨s.toNat, e.toNat, ?_, ?_, ?_, ?_, ?_, ?_⟩
    · rw [hs]; congr 1; omega
    · rw [he]; congr 1; omega
    · omega
    · omega
    · omega
    · have : ((e.toNat : Nat) : Int) = e := by omega
      rw [this]; exact h4
  · cases h

theorem spanOf_eq (m : List Int) (s e : Nat) (hs : m[0]? = some (s : Int))
    (he : m[1]? = some (e : Int)) : spanOf m = (s, e) := by
  unfold spanOf
  simp [List.getD_eq_getElem?_getD, hs, he]

theorem blockOf_valid (idx : List Int) (len : Nat) (hi : idx.length = len) (m : List Int)
    (s e : Nat) (hs : m[0]? = some (s : Int)) (he : m[1]? = some (e : Int))
    (hse : s < e) (hel : e ≤ len) (r : Text) :
    (blockOf idx m r).length = r.length ∧
      (r.length > 0 → replacementIndex idx (s : Int) (e : Int) r = some (blockOf idx m r)) := by
  unfold blockOf
  by_cases hr : r.length > 0
  · rw [if_pos hr]
    have hget0 : m.getD 0 0 = (s : Int) := by simp [List.getD_eq_getElem?_getD, hs]
    have hget1 : m.getD 1 0 = (e : Int) := by simp [List.getD_eq_getElem?_getD, he]
    rw [hget0, hget1]
    have hf : ∃ v, goIndex idx (s : Int) = some v :=
      ⟨_, goIndex_of_lt idx s (by omega)⟩
    have hl : ∃ v, goIndex idx ((e : Int) - 1) = some v := by
      have : ((e : Int) - 1) = ((e - 1 : Nat) : Int) := by omega
      rw [this]
      exact ⟨_, goIndex_of_lt idx (e - 1) (by omega)⟩
    obtain ⟨ri, hri⟩ := fillReplacementIndex_some idx (s : Int) (e : Int) r.length hf hl
      ((rangeRunes r).map Prod.fst) (List.replicate r.length 0)
    have hri2 : replacementIndex idx (s : Int) (e : Int) r = some ri := hri
    rw [hri2]
    exact ⟨replacementIndex_length _ _ _ _ _ hri2, fun _ => rfl⟩
  · rw [if_neg hr]
    have : r.length = 0 := by omega
    exact ⟨by simp [this], fun h => absurd h hr⟩

theorem replaceStep_valid (text : Text) (idx : List Int) (len : Nat)
    (ht : text.length = len) (hi : idx.length = len) (m : List Int) (p s e : Nat)
    (hs : m[0]? = some (s : Int)) (he : m[1]? = some (e : Int))
    (hps : p ≤ s) (hse : s < e) (hel : e ≤ len) (r : Text) (accT : Text) (accI : List Int) :
    replaceStep text idx (s : Int) (e : Int) r (p : Int) accT accI =
      some (accT ++ ((text.drop p).take (s - p) ++ r),
            accI ++ ((idx.drop p).take (s - p) ++ blockOf idx m r)) := by
  have hblock := blockOf_valid idx len hi m s e hs he hse hel r
  unfold replaceStep
  by_cases hlt : (s : Int) > (p : Int)
  · simp only [hlt, if_true]
    rw [goSlice_of_le text p s hps (by omega), goSlice_of_le idx p s hps (by omega)]
    by_cases hr : r.length > 0
    · simp only [hr, if_true]
      rw [hblock.2 hr]
      simp
    · simp only [hr, if_false]
      have hr0 : r = [] := by
        cases r with
        | nil => rfl
        | cons a t => simp at hr
      subst hr0
      simp [blockOf]
  · simp only [hlt, if_false]
    have hsp : s - p = 0 := by omega
    rw [hsp]
    by_cases hr : r.length > 0
    · simp only [hr, if_true]
      rw [hblock.2 hr]
      simp
    · simp only [hr, if_false]
      have hr0 : r = [] := by
        cases r with
        | nil => rfl
        | cons a t => simp at hr
      subst hr0
      simp [blockOf]

theorem replaceLoop_valid (text : Text) (idx : List Int) (len : Nat)
    (ht : text.length = len) (hi : idx.length = len) :
    ∀ (ms : List (List Int)) (rs : List Text) (p : Nat) (accT : Text) (accI : List Int),
      validMatches len (p : Int) ms = true → rs.length = ms.length → p ≤ len →
      ∃ (q : Nat) (tB : Text) (iB : List Int),
        replaceLoop text idx ms rs (p : Int) accT accI = some ((q : Int), accT ++ tB, accI ++ iB) ∧
        q ≤ len ∧
        tB ++ text.drop q = splice text p ((ms.map spanOf).zip rs) ∧
        iB ++ idx.drop q = splice idx p ((ms.map spanOf).zip (List.zipWith (blockOf idx) ms rs)) := by
  intro ms
  induction ms with
  | nil =>
    intro rs p accT accI _ _ hp
    exact ⟨p, [], [], by simp [replaceLoop], hp, by simp [splice], by simp [splice]⟩
  | cons m ms ih =>
    intro rs p accT accI hv hlen hp
    obtain ⟨s, e, hs, he, hps, hse, hel, hv'⟩ := validMatches_cons_elim len p m ms hv
    cases rs with
    | nil => simp at hlen
    | cons r rs =>
      have hlen' : rs.length = ms.length := by simpa using hlen
      have hstep := replaceStep_valid text idx len ht hi m p s e hs he hps hse hel r accT accI
      obtain ⟨q, tB, iB, hloop, hq, htB, hiB⟩ :=
        ih rs e (accT ++ ((text.drop p).take (s - p) ++ r))
          (accI ++ ((idx.drop p).take (s - p) ++ blockOf idx m r)) hv' hlen' hel
      refine ⟨q, ((text.drop p).take (s - p) ++ r) ++ tB,
        ((idx.drop p).take (s - p) ++ blockOf idx m r) ++ iB, ?_, hq, ?_, ?_⟩
      · unfold replaceLoop
        simp only [hs, he, hstep]
        rw [hloop]
        simp
      · have htB' : tB ++ List.drop q text =
            splice text e (List.zipWith Prod.mk (List.map spanOf ms) rs) := htB
        simp only [List.map_cons, List.zip_cons_cons, splice, spanOf_eq m s e hs he]
        rw [← htB']; simp
      · have hiB' : iB ++ List.drop q idx = splice idx e (List.zipWith Prod.mk
            (List.map spanOf ms) (List.zipWith (blockOf idx) ms rs)) := hiB
        simp only [List.map_cons, List.zip_cons_cons, List.zipWith_cons_cons, splice,
          spanOf_eq m s e hs he]
        rw [← hiB']; simp

theorem blockOf_length_valid (idx : List Int) (len : Nat) (hi : idx.length = len) :
    ∀ (ms : List (List Int)) (rs : List Text) (p : Nat),
      validMatches len (p : Int) ms = true →
      List.Forall₂ (fun (b : List Int) (r : Text) => b.length = r.length)
        (List.zipWith (blockOf idx) ms rs) (rs.take ms.length) := by
  intro ms
  induction ms with
  | nil => intro rs p _; simp
  | cons m ms ih =>
    intro rs p hv
    obtain ⟨s, e, hs, he, hps, hse, hel, hv'⟩ := validMatches_cons_elim len p m ms hv
    cases rs with
    | nil => simp
    | cons r rs =>
      simp only [List.zipWith_cons_cons, List.length_cons, List.take_succ_cons]
      refine List.Forall₂.cons ?_ (ih rs e hv')
      exact (blockOf_valid idx len hi m s e hs he hse hel r).1

/-! ## The rewrite as a whole -/

theorem replaceMatches_valid (n : NormalizationData) (ms : List (List Int)) (rs : List Text)
    (hal : n.IndexMap.length = n.NormalizedText.length)
    (hv : validMatches n.NormalizedText.length 0 ms = true) (hr : rs.length = ms.length) :
    replaceMatchesWithStringsAndUpdateIndexMap n (some ms) rs =
      some { n with
        NormalizedText := splice n.NormalizedText 0 ((ms.map spanOf).zip rs),
        IndexMap := splice n.IndexMap 0
          ((ms.map spanOf).zip (List.zipWith (blockOf n.IndexMap) ms rs)) } := by
  obtain ⟨q, tB, iB, hloop, hq, htB, hiB⟩ :=
    replaceLoop_valid n.NormalizedText n.IndexMap n.NormalizedText.length rfl hal ms rs 0 [] []
      hv hr (Nat.zero_le _)
  unfold replaceMatchesWithStringsAndUpdateIndexMap
  simp only [Nat.cast_zero] at hloop
  simp only [hloop, List.nil_append]
  by_cases hlt : (q : Int) < (n.IndexMap.length : Int)
  · rw [if_pos hlt, goSliceFrom_of_le _ q hq, goSliceFrom_of_le _ q (by omega)]
    simp only [htB, hiB]
  · rw [if_neg hlt]
    have h1 : List.drop q n.NormalizedText = [] := List.drop_eq_nil_of_le (by omega)
    have h2 : List.drop q n.IndexMap = [] := List.drop_eq_nil_of_le (by omega)
    rw [h1, List.append_nil] at htB
    rw [h2, List.append_nil] at hiB
    simp only [htB, hiB]

theorem splice_length_congr {α β : Type} (l1 : List α) (l2 : List β)
    (hl : l1.length = l2.length) :
    ∀ (spans : List (Nat × Nat)) (b1 : List (List α)) (b2 : List (List β)) (p : Nat),
      List.Forall₂ (fun x y => x.length = y.length) b1 b2 →
      (splice l1 p (spans.zip b1)).length = (splice l2 p (spans.zip b2)).length := by
  intro spans
  induction spans with
  | nil => intro b1 b2 p _; simp [splice, hl]
  | cons se spans ih =>
    intro b1 b2 p h
    cases h with
    | nil => simp [splice, hl]
    | cons hxy hrest =>
      rename_i x y t1 t2
      have h3 : (splice l1 se.2 (List.zipWith Prod.mk spans t1)).length =
          (splice l2 se.2 (List.zipWith Prod.mk spans t2)).length := ih t1 t2 se.2 hrest
      simp only [List.zip_cons_cons, splice, List.length_append, List.length_take,
        List.length_drop]
      rw [h3, hxy, hl]

theorem replaceMatches_valid_aligned (n : NormalizationData) (ms : List (List Int))
    (rs : List Text) (hal : n.IndexMap.length = n.NormalizedText.length)
    (hv : validMatches n.NormalizedText.length 0 ms = true) (hr : rs.length = ms.length) :
    (splice n.IndexMap 0
        ((ms.map spanOf).zip (List.zipWith (blockOf n.IndexMap) ms rs))).length =
      (splice n.NormalizedText 0 ((ms.map spanOf).zip rs)).length := by
  apply splice_length_congr _ _ hal
  have h := blockOf_length_valid n.IndexMap n.NormalizedText.length hal ms rs 0 hv
  rwa [← hr, List.take_length] at h

/-! ## Pure deletion -/

theorem zipWith_blockOf_nil (idx : List Int) :
    ∀ (ms : List (List Int)),
      List.zipWith (blockOf idx) ms (List.replicate ms.length ([] : Text)) =
        List.replicate ms.length ([] : List Int) := by
  intro ms
  induction ms with
  | nil => rfl
  | cons m ms ih =>
    simp only [List.length_cons, List.replicate_succ, List.zipWith_cons_cons, ih]
    simp [blockOf]

theorem covered_cons (se : Nat × Nat) (spans : List (Nat × Nat)) (i : Nat) :
    covered (se :: spans) i = ((decide (se.1 ≤ i) && decide (i < se.2)) || covered spans i) := by
  simp [covered]

theorem covered_false_of_lt (len : Nat) :
    ∀ (ms : List (List Int)) (p i : Nat), validMatches len (p : Int) ms = true → i < p →
      covered (ms.map spanOf) i = false := by
  intro ms
  induction ms with
  | nil => intro p i _ _; rfl
  | cons m ms ih =>
    intro p i hv hi
    obtain ⟨s, e, hs, he, hps, hse, _, hv'⟩ := validMatches_cons_elim len p m ms hv
    rw [List.map_cons, covered_cons, spanOf_eq m s e hs he, ih e i hv' (by omega)]
    simp
    omega

theorem removeCoveredFrom_append {α : Type} (spans : List (Nat × Nat)) :
    ∀ (xs ys : List α) (i : Nat),
      removeCoveredFrom spans i (xs ++ ys) =
        removeCoveredFrom spans i xs ++ removeCoveredFrom spans (i + xs.length) ys := by
  intro xs
  induction xs with
  | nil => intro ys i; simp [removeCoveredFrom]
  | cons x xs ih =>
    intro ys i
    have harith : i + (xs.length + 1) = i + 1 + xs.length := by omega
    simp only [List.cons_append, removeCoveredFrom, List.length_cons, harith]
    split
    · exact ih ys (i + 1)
    · have := ih ys (i + 1)
      simp only [List.append_eq, List.cons_append] at this ⊢
      rw [this]

theorem removeCoveredFrom_none {α : Type} (spans : List (Nat × Nat)) :
    ∀ (xs : List α) (i : Nat), (∀ k, i ≤ k → k < i + xs.length → covered spans k = false) →
      removeCoveredFrom spans i xs = xs := by
  intro xs
  induction xs with
  | nil => intro i _; rfl
  | cons x xs ih =>
    intro i h
    have h0 : covered spans i = false := h i (Nat.le_refl _) (by simp)
    simp only [removeCoveredFrom, h0, Bool.false_eq_true, if_false]
    rw [ih (i + 1) (fun k hk1 hk2 => h k (by omega) (by simp; omega))]

theorem removeCoveredFrom_all {α : Type} (spans : List (Nat × Nat)) :
    ∀ (xs : List α) (i : Nat), (∀ k, i ≤ k → k < i + xs.length → covered spans k = true) →
      removeCoveredFrom spans i xs = [] := by
  intro xs
  induction xs with
  | nil => intro i _; rfl
  | cons x xs ih =>
    intro i h
    have h0 : covered spans i = true := h i (Nat.le_refl _) (by simp)
    simp only [removeCoveredFrom, h0, if_true]
    exact ih (i + 1) (fun k hk1 hk2 => h k (by omega) (by simp; omega))

theorem removeCoveredFrom_cons_of_le {α : Type} (se : Nat × Nat) (spans : List (Nat × Nat)) :
    ∀ (xs : List α) (i : Nat), se.2 ≤ i →
      removeCoveredFrom (se :: spans) i xs = removeCoveredFrom spans i xs := by
  intro xs
  induction xs with
  | nil => intro i _; rfl
  | cons x xs ih =>
    intro i h
    have hc : covered (se :: spans) i = covered spans i := by
      rw [covered_cons]
      have : decide (i < se.2) = false := by simp; omega
      simp [this]
    simp only [removeCoveredFrom, hc, ih (i + 1) (by omega)]

theorem drop_split {α : Type} (l : List α) (p s : Nat) (hps : p ≤ s) :
    l.drop p = (l.drop p).take (s - p) ++ l.drop s := by
  have h : l.drop s = (l.drop p).drop (s - p) := by
    rw [List.drop_drop]; congr 1; omega
  rw [h, List.take_append_drop]

theorem splice_nil_eq_removeCovered {α : Type} (l : List α) (len : Nat) (hl : l.length = len) :
    ∀ (ms : List (List Int)) (p : Nat), validMatches len (p : Int) ms = true → p ≤ len →
      splice l p ((ms.map spanOf).zip (List.replicate ms.length ([] : List α))) =
        removeCoveredFrom (ms.map spanOf) p (l.drop p) := by
  intro ms
  induction ms with
  | nil => intro p _ _; simp [splice, removeCoveredFrom_none, covered]
  | cons m ms ih =>
    intro p hv hp
    have hv0 := hv
    obtain ⟨s, e, hs, he, hps, hse, hel, hv'⟩ := validMatches_cons_elim len p m ms hv
    have ih' : splice l e (List.zipWith Prod.mk (ms.map spanOf)
        (List.replicate ms.length ([] : List α))) =
        removeCoveredFrom (ms.map spanOf) e (l.drop e) := ih e hv' hel
    simp only [List.map_cons, List.length_cons, List.replicate_succ, List.zip_cons_cons, splice,
      spanOf_eq m s e hs he, List.append_nil, ih']
    have hA : ((l.drop p).take (s - p)).length = s - p := by
      rw [List.length_take, List.length_drop]; omega
    have hB : ((l.drop s).take (e - s)).length = e - s := by
      rw [List.length_take, List.length_drop]; omega
    conv_rhs => rw [drop_split l p s hps, drop_split l s e (by omega)]
    rw [removeCoveredFrom_append, removeCoveredFrom_append, hA, hB]
    have h1 : removeCoveredFrom ((s, e) :: ms.map spanOf) p ((l.drop p).take (s - p)) =
        (l.drop p).take (s - p) := by
      apply removeCoveredFrom_none
      intro k hk1 hk2
      rw [hA] at hk2
      have := covered_false_of_lt len (m :: ms) (k + 1) k ?_ (by omega)
      · rwa [List.map_cons, spanOf_eq m s e hs he] at this
      · unfold validMatches
        simp only [hs, he, Bool.and_eq_true, decide_eq_true_eq]
        exact ⟨⟨⟨by omega, by omega⟩, by omega⟩, hv'⟩
    have h2 : removeCoveredFrom ((s, e) :: ms.map spanOf) (p + (s - p))
        ((l.drop s).take (e - s)) = [] := by
      apply removeCoveredFrom_all
      intro k hk1 hk2
      rw [hB] at hk2
      rw [covered_cons]
      have : (decide (s ≤ k) && decide (k < e)) = true := by simp; omega
      simp [this]
    have h3 : p + (s - p) + (e - s) = e := by omega
    rw [h1, h2, h3, removeCoveredFrom_cons_of_le (s, e) _ _ e (Nat.le_refl _)]
    simp

theorem removeCoveredFrom_forall₂ {α β : Type} (R : α → β → Prop) (spans : List (Nat × Nat)) :
    ∀ (xs : List α) (ys : List β) (i : Nat), List.Forall₂ R xs ys →
      List.Forall₂ R (removeCoveredFrom spans i xs) (removeCoveredFrom spans i ys) := by
  intro xs ys i h
  induction h generalizing i with
  | nil => exact List.Forall₂.nil
  | cons hxy _ ih =>
    simp only [removeCoveredFrom]
    split
    · exact ih (i + 1)
    · exact List.Forall₂.cons hxy (ih (i + 1))

theorem provenance_iff_forall₂ (n : NormalizationData)
    (hal : n.IndexMap.length = n.NormalizedText.length) :
    Provenance n ↔
      List.Forall₂ (fun (c : Nat) (j : Int) => goIndex n.OriginalText j = some c)
        n.NormalizedText n.IndexMap := by
  rw [List.forall₂_iff_get]
  constructor
  · intro h
    refine ⟨hal.symm, fun i h1 h2 => ?_⟩
    have := h i h1
    unfold provenanceAt at this
    rw [List.getElem?_eq_getElem h1, List.getElem?_eq_getElem h2] at this
    simpa using this
  · rintro ⟨_, h⟩ i hi
    have hi2 : i < n.IndexMap.length := by omega
    have := h i hi hi2
    unfold provenanceAt
    rw [List.getElem?_eq_getElem hi, List.getElem?_eq_getElem hi2]
    simpa using this

/-! ## Where the entries of the new index map come from -/

theorem goSlice_mem {α : Type} (l r : List α) (a b : Int) (h : goSlice l a b = some r) :
    ∀ x ∈ r, x ∈ l := by
  unfold goSlice at h
  split at h
  · cases h
    intro x hx
    exact List.mem_of_mem_drop (List.mem_of_mem_take hx)
  · cases h

theorem goSliceFrom_mem {α : Type} (l r : List α) (a : Int) (h : goSliceFrom l a = some r) :
    ∀ x ∈ r, x ∈ l := by
  unfold goSliceFrom at h
  split at h
  · cases h
    intro x hx
    exact List.mem_of_mem_drop hx
  · cases h

theorem replaceStep_mem (text : Text) (idx : List Int) (f l : Int) (r : Text) (prev : Int)
    (accT t : Text) (accI ix : List Int)
    (h : replaceStep text idx f l r prev accT accI = some (t, ix)) :
    ∀ x ∈ ix, x ∈ accI ∨ x ∈ idx ∨ x = 0 ∨ x = -1 := by
  unfold replaceStep at h
  have hcopy : ∀ (c : Option (Text × List Int)),
      c = (if f > prev then
        match goSlice text prev f, goSlice idx prev f with
        | some t, some ix => some (accT ++ t, accI ++ ix)
        | _, _ => none
      else some (accT, accI)) →
      ∀ t1 ix1, c = some (t1, ix1) → ∀ x ∈ ix1, x ∈ accI ∨ x ∈ idx := by
    intro c hc t1 ix1 hc1 x hx
    rw [hc1] at hc
    split at hc
    · split at hc
      · rename_i ts is _ his
        cases hc
        rcases List.mem_append.mp hx with h1 | h1
        · exact Or.inl h1
        · exact Or.inr (goSlice_mem _ _ _ _ his x h1)
      · cases hc
    · cases hc
      exact Or.inl hx
  generalize hc : (if f > prev then
        match goSlice text prev f, goSlice idx prev f with
        | some t, some ix => some (accT ++ t, accI ++ ix)
        | _, _ => none
      else some (accT, accI)) = c at h
  have hcopy' := hcopy c hc.symm
  cases c with
  | none => cases h
  | some p =>
    obtain ⟨t1, ix1⟩ := p
    have hm := hcopy' t1 ix1 rfl
    simp only at h
    split at h
    · split at h
      · rename_i ri hri
        cases h
        intro x hx
        rcases List.mem_append.mp hx with h1 | h1
        · rcases hm x h1 with h2 | h2
          · exact Or.inl h2
          · exact Or.inr (Or.inl h2)
        · rcases replacementIndex_mem _ _ _ _ _ hri x h1 with h2 | h2 | h2
          · exact Or.inr (Or.inr (Or.inl h2))
          · exact Or.inr (Or.inl h2)
          · exact Or.inr (Or.inr (Or.inr h2))
      · cases h
    · cases h
      intro x hx
      rcases hm x hx with h2 | h2
      · exact Or.inl h2
      · exact Or.inr (Or.inl h2)

theorem replaceLoop_mem (text : Text) (idx : List Int) :
    ∀ (ms : List (List Int)) (rs : List Text) (prev : Int) (accT : Text) (accI : List Int)
      (q : Int) (t : Text) (ix : List Int),
      replaceLoop text idx ms rs prev accT accI = some (q, t, ix) →
      ∀ x ∈ ix, x ∈ accI ∨ x ∈ idx ∨ x = 0 ∨ x = -1 := by
  intro ms
  induction ms with
  | nil =>
    intro rs prev accT accI q t ix h x hx
    simp only [replaceLoop, Option.some.injEq, Prod.mk.injEq] at h
    obtain ⟨_, _, h3⟩ := h
    subst h3
    exact Or.inl hx
  | cons m ms ih =>
    intro rs prev accT accI q t ix h x hx
    unfold replaceLoop at h
    split at h
    · split at h
      · rename_i t1 ix1 hstep
        rcases ih _ _ _ _ _ _ _ h x hx with h1 | h1
        · exact replaceStep_mem _ _ _ _ _ _ _ _ _ _ hstep x h1
        · exact Or.inr h1
      · cases h
    · cases h

theorem replaceMatches_mem (n n' : NormalizationData) (all : Option (List (List Int)))
    (rs : List Text) (h : replaceMatchesWithStringsAndUpdateIndexMap n all rs = some n') :
    n'.OriginalText = n.OriginalText ∧
      ∀ x ∈ n'.IndexMap, x ∈ n.IndexMap ∨ x = 0 ∨ x = -1 := by
  unfold replaceMatchesWithStringsAndUpdateIndexMap at h
  split at h
  · cases h
    exact ⟨rfl, fun x hx => Or.inl hx⟩
  · split at h
    · cases h
    · rename_i prev newText newIndex hloop
      have hm := replaceLoop_mem _ _ _ _ _ _ _ _ _ _ hloop
      split at h
      · split at h
        · rename_i t ix _ hix
          cases h
          refine ⟨rfl, fun x hx => ?_⟩
          rcases List.mem_append.mp hx with h1 | h1
          · rcases hm x h1 with h2 | h2 | h2
            · cases h2
            · exact Or.inl h2
            · exact Or.inr h2
          · exact Or.inl (goSliceFrom_mem _ _ _ hix x h1)
        · cases h
      · cases h
        refine ⟨rfl, fun x hx => ?_⟩
        rcases hm x hx with h2 | h2 | h2
        · cases h2
        · exact Or.inl h2
        · exact Or.inr h2

/-! ## Decoding and the search for a single class -/

theorem decodeRune_width_le (l : Text) : (decodeRune l).2 ≤ l.length := by
  unfold decodeRune
  repeat' split
  all_goals first
    | (simp; done)
    | (simp only [Bool.and_eq_true, decide_eq_true_eq]; split <;> simp)

theorem decodeRune_width_pos (b : Nat) (rest : Text) : 1 ≤ (decodeRune (b :: rest)).2 := by
  unfold decodeRune
  simp only
  repeat' split
  all_goals simp

theorem rangeRunesAux_snd (l : Text) :
    ∀ (k pos pos' : Nat),
      (rangeRunesAux k pos l).map Prod.snd = (rangeRunesAux k pos' l).map Prod.snd := by
  induction l with
  | nil => intro k pos pos'; cases k <;> rfl
  | cons b rest ih =>
    intro k pos pos'
    cases k with
    | zero => simp only [rangeRunesAux, List.map_cons]; rw [ih _ (pos + 1) (pos' + 1)]
    | succ k => simp only [rangeRunesAux]; exact ih k (pos + 1) (pos' + 1)

theorem rangeRunesAux_skip (l : Text) :
    ∀ (k pos : Nat), k ≤ l.length →
      (rangeRunesAux k pos l).map Prod.snd = (rangeRunesAux 0 0 (l.drop k)).map Prod.snd := by
  induction l with
  | nil => intro k pos _; cases k <;> rfl
  | cons b rest ih =>
    intro k pos hk
    cases k with
    | zero => exact rangeRunesAux_snd _ 0 pos 0
    | succ k =>
      simp only [rangeRunesAux, List.drop_succ_cons]
      exact ih k (pos + 1) (by simpa using hk)

theorem runes_cons (b : Nat) (rest : Text) :
    runes (b :: rest) =
      (decodeRune (b :: rest)).1 :: runes ((b :: rest).drop (decodeRune (b :: rest)).2) := by
  have hpos := decodeRune_width_pos b rest
  have hle := decodeRune_width_le (b :: rest)
  unfold runes rangeRunes
  simp only [rangeRunesAux, List.map_cons]
  congr 1
  rw [rangeRunesAux_skip rest _ 1 (by simp at hle; omega)]
  congr 2
  obtain ⟨w, hw⟩ : ∃ w, (decodeRune (b :: rest)).2 = w + 1 := ⟨_, (Nat.sub_add_cancel hpos).symm⟩
  rw [hw]
  simp

theorem searchFrom_cls (ranges : List (Nat × Nat)) (ncap : Nat) :
    ∀ (fuel : Nat) (c : Cursor), c.rest.length < fuel →
      (searchFrom ⟨.cls ranges, ncap⟩ fuel c).isSome =
        (runes c.rest).any (fun r => ranges.any (fun lh => decide (lh.1 ≤ r) && decide (r ≤ lh.2))) := by
  intro fuel
  induction fuel with
  | zero => intro c h; omega
  | succ fuel ih =>
    intro c h
    unfold searchFrom
    simp only [Re.run]
    cases hrest : c.rest with
    | nil => simp [decodeRune, runes, rangeRunes, rangeRunesAux]
    | cons b t =>
      have hpos := decodeRune_width_pos b t
      have hne : (decodeRune (b :: t)).2 ≠ 0 := by omega
      rw [runes_cons, List.any_cons]
      by_cases hin : (ranges.any (fun lh => decide (lh.1 ≤ (decodeRune (b :: t)).1) &&
          decide ((decodeRune (b :: t)).1 ≤ lh.2))) = true
      · simp [hne, hin]
      · have hin' : (ranges.any (fun lh => decide (lh.1 ≤ (decodeRune (b :: t)).1) &&
          decide ((decodeRune (b :: t)).1 ≤ lh.2))) = false := by simpa using hin
        simp only [hne, hin', ne_eq, not_false_eq_true, decide_True, Bool.and_false,
          Bool.false_eq_true, if_false, Bool.false_or]
        have hadv : (c.advance (decodeRune (b :: t)).2).rest =
            (b :: t).drop (decodeRune (b :: t)).2 := by
          simp [Cursor.advance, hrest]
        rw [ih (c.advance (decodeRune (b :: t)).2) ?_, hadv]
        rw [hadv, List.length_drop]
        rw [hrest] at h
        simp only [List.length_cons] at h ⊢
        omega

theorem matchString_controlCharacters (s : Text) :
    MatchString ControlCharactersRE s = (runes s).any isForbiddenControl := by
  unfold MatchString execute
  have h := searchFrom_cls [(0x0, 0x7), (0xE, 0x1B)] 0 (s.length - 0 + 1) (Cursor.at s 0)
    (by simp [Cursor.at])
  have hre : ControlCharactersRE = ⟨.cls [(0x0, 0x7), (0xE, 0x1B)], 0⟩ := rfl
  rw [hre, h]
  simp only [Cursor.at, List.drop_zero]
  congr 1
  funext r
  simp [isForbiddenControl]

/-! ## Passes that find nothing -/

theorem initializeRecord_of_nonempty (n : NormalizationData) (ht : n.NormalizedText ≠ [])
    (hi : n.IndexMap ≠ []) : initializeRecord n = n := by
  unfold initializeRecord
  have h1 : ¬ n.NormalizedText.length = 0 := fun h => ht (List.length_eq_zero.mp h)
  have h2 : ¬ n.IndexMap.length = 0 := fun h => hi (List.length_eq_zero.mp h)
  simp [h1, h2]

theorem regexpReplace_no_match (n : NormalizationData) (re : Regexp) (replacement : Text)
    (ht : n.NormalizedText ≠ []) (hi : n.IndexMap ≠ [])
    (hnone : FindAllStringSubmatchIndex re n.NormalizedText n.NormalizedText.length = none) :
    regexpReplacePatternAndUpdateIndexMap n re replacement = some (n, []) := by
  unfold regexpReplacePatternAndUpdateIndexMap
  rw [initializeRecord_of_nonempty n ht hi, hnone]
  rfl

theorem replaceVarietalWordSpellings_no_match (n : NormalizationData)
    (ht : n.NormalizedText ≠ []) (hi : n.IndexMap ≠ []) :
    ∀ (table : List (Text × Regexp)),
      (∀ entry ∈ table,
        FindAllStringSubmatchIndex entry.2 n.NormalizedText n.NormalizedText.length = none) →
      replaceVarietalWordSpellings n table = some n := by
  intro table
  induction table with
  | nil => intro _; rfl
  | cons entry rest ih =>
    intro h
    obtain ⟨replacement, re⟩ := entry
    have h1 := regexpReplace_no_match n re replacement ht hi
      (h (replacement, re) (List.mem_cons_self _ _))
    simp only [replaceVarietalWordSpellings, replacePass, h1, Option.map_some']
    exact ih (fun e he => h e (List.mem_cons_of_mem _ he))

/-! ## What the matcher returns -/

theorem Cursor.After.trans {c c1 c2 : Cursor} {d1 d2 : Nat} (h1 : Cursor.After c c1 d1)
    (h2 : Cursor.After c1 c2 d2) : Cursor.After c c2 (d1 + d2) := by
  obtain ⟨hp1, hr1, hl1⟩ := h1
  obtain ⟨hp2, hr2, hl2⟩ := h2
  refine ⟨by omega, ?_, ?_⟩
  · rw [hr2, hr1, List.drop_drop]
  · rw [hr1, List.length_drop] at hl2; omega

theorem starLoop_after (body : Cursor → Caps → Cont → Option (Nat × Caps)) (greedy : Bool)
    (hbody : ∀ c caps k r, body c caps k = some r →
      ∃ c' caps' d, Cursor.After c c' d ∧ k c' caps' = some r) :
    ∀ (fuel : Nat) (c : Cursor) (caps : Caps) (k : Cont) (r : Nat × Caps),
      starLoop body greedy fuel c caps k = some r →
      ∃ c' caps' d, Cursor.After c c' d ∧ k c' caps' = some r := by
  intro fuel
  induction fuel with
  | zero =>
    intro c caps k r h
    exact ⟨c, caps, 0, ⟨rfl, rfl, Nat.zero_le _⟩, h⟩
  | succ fuel ih =>
    intro c caps k r h
    have hmore : ∀ r', body c caps (fun c' caps' =>
        if c.pos < c'.pos then starLoop body greedy fuel c' caps' k else none) = some r' →
        ∃ c' caps' d, Cursor.After c c' d ∧ k c' caps' = some r' := by
      intro r' hb
      obtain ⟨c1, caps1, d1, ha1, hk1⟩ := hbody _ _ _ _ hb
      split at hk1
      · obtain ⟨c2, caps2, d2, ha2, hk2⟩ := ih _ _ _ _ hk1
        exact ⟨c2, caps2, d1 + d2, ha1.trans ha2, hk2⟩
      · cases hk1
    have hstop : ∀ r', k c caps = some r' →
        ∃ c' caps' d, Cursor.After c c' d ∧ k c' caps' = some r' :=
      fun r' hk => ⟨c, caps, 0, ⟨rfl, rfl, Nat.zero_le _⟩, hk⟩
    unfold starLoop at h
    split at h
    · split at h
      · rename_i r1 hb
        cases h
        exact hmore _ hb
      · exact hstop _ h
    · split at h
      · rename_i r1 hk
        cases h
        exact hstop _ hk
      · exact hmore _ h

theorem Re.run_after (re : Re) :
    ∀ (c : Cursor) (caps : Caps) (k : Cont) (r : Nat × Caps), re.run c caps k = some r →
      ∃ c' caps' d, Cursor.After c c' d ∧ (re.consumes = true → 1 ≤ d) ∧
        k c' caps' = some r := by
  induction re with
  | eps =>
    intro c caps k r h
    exact ⟨c, caps, 0, ⟨rfl, rfl, Nat.zero_le _⟩, by simp [Re.consumes], h⟩
  | cls ranges =>
    intro c caps k r h
    simp only [Re.run] at h
    split at h
    · rename_i hc
      simp only [Bool.and_eq_true, bne_iff_ne, ne_eq, decide_eq_true_eq] at hc
      have hw : (decodeRune c.rest).2 ≠ 0 := by
        intro h0; simp [h0] at hc
      refine ⟨_, caps, (decodeRune c.rest).2, ⟨rfl, rfl, decodeRune_width_le _⟩, fun _ => ?_, h⟩
      omega
    · cases h
  | seq a b iha ihb =>
    intro c caps k r h
    simp only [Re.run] at h
    obtain ⟨c1, caps1, d1, ha1, hc1, hk1⟩ := iha _ _ _ _ h
    obtain ⟨c2, caps2, d2, ha2, hc2, hk2⟩ := ihb _ _ _ _ hk1
    refine ⟨c2, caps2, d1 + d2, ha1.trans ha2, fun hcons => ?_, hk2⟩
    simp only [Re.consumes, Bool.or_eq_true] at hcons
    rcases hcons with h' | h'
    · have := hc1 h'; omega
    · have := hc2 h'; omega
  | alt a b iha ihb =>
    intro c caps k r h
    simp only [Re.run] at h
    split at h
    · rename_i r1 hr1
      cases h
      obtain ⟨c1, caps1, d1, ha1, hc1, hk1⟩ := iha _ _ _ _ hr1
      refine ⟨c1, caps1, d1, ha1, fun hcons => ?_, hk1⟩
      simp only [Re.consumes, Bool.and_eq_true] at hcons
      exact hc1 hcons.1
    · obtain ⟨c1, caps1, d1, ha1, hc1, hk1⟩ := ihb _ _ _ _ h
      refine ⟨c1, caps1, d1, ha1, fun hcons => ?_, hk1⟩
      simp only [Re.consumes, Bool.and_eq_true] at hcons
      exact hc1 hcons.2
  | star a greedy iha =>
    intro c caps k r h
    simp only [Re.run] at h
    obtain ⟨c1, caps1, d1, ha1, hk1⟩ := starLoop_after a.run greedy
      (fun c caps k r hb => by
        obtain ⟨c', caps', d, h1, _, h3⟩ := iha c caps k r hb
        exact ⟨c', caps', d, h1, h3⟩) _ _ _ _ _ h
    exact ⟨c1, caps1, d1, ha1, by simp [Re.consumes], hk1⟩
  | group i a iha =>
    intro c caps k r h
    simp only [Re.run] at h
    obtain ⟨c1, caps1, d1, ha1, hc1, hk1⟩ := iha _ _ _ _ h
    exact ⟨c1, _, d1, ha1, fun hcons => hc1 (by simpa [Re.consumes] using hcons), hk1⟩
  | beginText =>
    intro c caps k r h
    simp only [Re.run] at h
    split at h
    · exact ⟨c, caps, 0, ⟨rfl, rfl, Nat.zero_le _⟩, by simp [Re.consumes], h⟩
    · cases h
  | endText =>
    intro c caps k r h
    simp only [Re.run] at h
    split at h
    · exact ⟨c, caps, 0, ⟨rfl, rfl, Nat.zero_le _⟩, by simp [Re.consumes], h⟩
    · cases h
  | beginLine =>
    intro c caps k r h
    simp only [Re.run] at h
    split at h
    · exact ⟨c, caps, 0, ⟨rfl, rfl, Nat.zero_le _⟩, by simp [Re.consumes], h⟩
    · cases h
  | endLine =>
    intro c caps k r h
    simp only [Re.run] at h
    split at h
    · exact ⟨c, caps, 0, ⟨rfl, rfl, Nat.zero_le _⟩, by simp [Re.consumes], h⟩
    · cases h
  | wordBoundary =>
    intro c caps k r h
    simp only [Re.run] at h
    split at h
    · exact ⟨c, caps, 0, ⟨rfl, rfl, Nat.zero_le _⟩, by simp [Re.consumes], h⟩
    · cases h

theorem searchFrom_bounds (r : Regexp) :
    ∀ (fuel : Nat) (c : Cursor) (s e : Nat) (caps : Caps),
      searchFrom r fuel c = some (s, e, caps) →
      c.pos ≤ s ∧ s ≤ e ∧ e ≤ c.pos + c.rest.length ∧ (r.re.consumes = true → s < e) := by
  intro fuel
  induction fuel with
  | zero => intro c s e caps h; simp [searchFrom] at h
  | succ fuel ih =>
    intro c s e caps h
    unfold searchFrom at h
    split at h
    · rename_i e1 caps1 hrun
      cases h
      obtain ⟨c', caps', d, ⟨hp, _, hl⟩, hcons, hk⟩ := Re.run_after r.re _ _ _ _ hrun
      simp only [Option.some.injEq, Prod.mk.injEq] at hk
      obtain ⟨hk1, _⟩ := hk
      refine ⟨le_refl _, by omega, by omega, fun hc => ?_⟩
      have := hcons hc
      omega
    · split at h
      · cases h
      · have hle := decodeRune_width_le c.rest
        obtain ⟨h1, h2, h3, h4⟩ := ih _ _ _ _ h
        simp only [Cursor.advance, List.length_drop] at h1 h3
        exact ⟨by omega, h2, by omega, h4⟩

theorem execute_bounds (r : Regexp) (text : Text) (pos s e : Nat) (caps : Caps)
    (hpos : pos ≤ text.length) (h : execute r text pos = some (s, e, caps)) :
    pos ≤ s ∧ s ≤ e ∧ e ≤ text.length ∧ (r.re.consumes = true → s < e) := by
  unfold execute at h
  obtain ⟨h1, h2, h3, h4⟩ := searchFrom_bounds r _ _ _ _ _ h
  simp only [Cursor.at, List.length_drop] at h1 h3
  exact ⟨h1, h2, by omega, h4⟩

theorem matchIndex_zero (s e : Nat) (caps : Caps) : (matchIndex s e caps)[0]? = some (s : Int) := by
  simp [matchIndex]

theorem matchIndex_one (s e : Nat) (caps : Caps) : (matchIndex s e caps)[1]? = some (e : Int) := by
  simp [matchIndex]

theorem allMatches_valid (r : Regexp) (text : Text) (hcons : r.re.consumes = true) :
    ∀ (fuel pos : Nat) (prevMatchEnd : Int) (n : Nat), pos ≤ text.length →
      validMatches text.length (pos : Int) (allMatches r text fuel pos prevMatchEnd n) = true := by
  intro fuel
  induction fuel with
  | zero => intro pos p n _; rfl
  | succ fuel ih =>
    intro pos p n hpos
    unfold allMatches
    split
    · rfl
    · split
      · rfl
      · rename_i s e caps hex
        obtain ⟨h1, h2, h3, h4⟩ := execute_bounds r text pos s e caps hpos hex
        have hse := h4 hcons
        have hne : ¬ e = pos := by omega
        simp only [hne, if_false]
        unfold validMatches
        simp only [matchIndex_zero, matchIndex_one, Bool.and_eq_true, decide_eq_true_eq]
        exact ⟨⟨⟨by omega, by omega⟩, by omega⟩, ih e (e : Int) (n - 1) h3⟩

theorem findAll_valid (r : Regexp) (text : Text) (n : Nat) (hcons : r.re.consumes = true) :
    validMatches text.length 0 ((FindAllStringSubmatchIndex r text n).getD []) = true := by
  have h := allMatches_valid r text hcons (text.length + 2) 0 (-1) n (Nat.zero_le _)
  unfold FindAllStringSubmatchIndex
  split
  · rfl
  · rename_i ms _
    simpa using h

/-! ## The capture pass -/

theorem hasSuffix_singleton (x : Text) (c : Nat) :
    HasSuffix x [c] = true ↔ x.getLast? = some c := by
  unfold HasSuffix
  simp only [List.isSuffixOf_iff_suffix]
  constructor
  · rintro ⟨t, rfl⟩
    simp
  · intro h
    obtain ⟨t, ht⟩ := List.getLast?_eq_some_iff.mp h
    exact ⟨t, ht.symm⟩

theorem hasPrefix_singleton (x : Text) (c : Nat) :
    HasPrefix x [c] = true ↔ x.head? = some c := by
  unfold HasPrefix
  cases x with
  | nil => simp
  | cons a t =>
    simp only [List.isPrefixOf, List.head?_cons, Option.some.injEq, Bool.and_true,
      beq_iff_eq]
    exact eq_comm

theorem trimQuotes_spec (x y : Text) (h : trimQuotes x = some y) : IsStripped x y := by
  unfold trimQuotes at h
  have hq : bytes "\"" = [34] := by decide
  rw [hq] at h
  split at h
  · rename_i hc
    simp only [Bool.and_eq_true, hasPrefix_singleton, hasSuffix_singleton] at hc
    obtain ⟨hh, hl⟩ := hc
    left
    unfold goSlice at h
    split at h
    · rename_i hb
      cases h
      obtain ⟨t, ht⟩ := List.getLast?_eq_some_iff.mp hl
      cases t with
      | nil =>
        subst ht
        simp at hb
      | cons a t =>
        subst ht
        simp only [List.cons_append, List.head?_cons, Option.some.injEq] at hh
        subst hh
        refine ⟨t, by simp, ?_⟩
        simp
    · cases h
  · rename_i hc
    simp only [Bool.and_eq_true, hasPrefix_singleton, hasSuffix_singleton] at hc
    cases h
    exact Or.inr ⟨hc, rfl⟩

theorem makeLazy_spec (x : Text) : IsMadeLazy x (makeLazy x) := by
  unfold makeLazy IsMadeLazy
  have h1 : bytes "+" = [43] := by decide
  have h2 : bytes "*" = [42] := by decide
  have h3 : bytes "\x7d" = [125] := by decide
  have h4 : bytes "?" = [63] := by decide
  rw [h1, h2, h3, h4]
  by_cases hc : x.getLast? = some 43 ∨ x.getLast? = some 42 ∨ x.getLast? = some 125
  · left
    refine ⟨hc, ?_⟩
    have : (HasSuffix x [43] || HasSuffix x [42] || HasSuffix x [125]) = true := by
      simp only [Bool.or_eq_true, hasSuffix_singleton]
      tauto
    rw [if_pos this]
  · right
    refine ⟨hc, ?_⟩
    have : ¬ (HasSuffix x [43] || HasSuffix x [42] || HasSuffix x [125]) = true := by
      simp only [Bool.or_eq_true, hasSuffix_singleton]
      tauto
    rw [if_neg this]

theorem limitRange_spec (x y : Text) (h : limitRange x = some y) : IsCapped x y := by
  unfold limitRange at h
  unfold IsCapped
  split at h
  · rename_i hc
    left
    unfold HasSuffix at hc
    simp only [List.isSuffixOf_iff_suffix] at hc
    obtain ⟨p, hp⟩ := hc
    refine ⟨p, hp.symm, ?_⟩
    subst hp
    split at h
    · rename_i hd hg
      cases h
      unfold goSlice at hg
      split at hg
      · cases hg
        simp
      · cases hg
    · cases h
  · rename_i hc
    cases h
    right
    refine ⟨?_, rfl⟩
    rintro ⟨p, hp⟩
    apply hc
    unfold HasSuffix
    simp only [List.isSuffixOf_iff_suffix]
    exact ⟨p, hp.symm⟩

theorem adjustRegex_spec (x y : Text) (h : adjustRegex x = some y) : IsAdjusted x y := by
  unfold adjustRegex at h
  split at h
  · rename_i t ht
    exact ⟨t, makeLazy t, trimQuotes_spec x t ht, makeLazy_spec t, limitRange_spec _ _ h⟩
  · cases h

theorem captureLoop_spec (text : Text) :
    ∀ (ms : List (List Int)) (reps reps' : List Text) (groups groups' : List CaptureGroup),
      captureLoop text ms reps groups = some (reps', groups') →
      ∃ Rs Ms : List Text,
        List.Forall₂ (fun m R => matchExpressionOf text m = some R) ms Rs ∧
        List.Forall₂ IsAdjusted Rs Ms ∧
        reps' = reps ++ Ms.map (fun M => bytes "<<" ++ M ++ bytes ">>") ∧
        groups'.map (fun g => g.Matches) = groups.map (fun g => g.Matches) ++ Ms := by
  intro ms
  induction ms with
  | nil =>
    intro reps reps' groups groups' h
    simp only [captureLoop, Option.some.injEq, Prod.mk.injEq] at h
    obtain ⟨h1, h2⟩ := h
    subst h1 h2
    exact ⟨[], [], List.Forall₂.nil, List.Forall₂.nil, by simp, by simp⟩
  | cons m ms ih =>
    intro reps reps' groups groups' h
    unfold captureLoop at h
    split at h
    · cases h
    · rename_i submatches hsub
      split at h
      · rename_i name original regex h0 h1 h2
        split at h
        · cases h
        · rename_i regex' hadj
          obtain ⟨Rs, Ms, hR, hA, hreps, hgroups⟩ := ih _ _ _ _ h
          refine ⟨regex :: Rs, regex' :: Ms, List.Forall₂.cons ?_ hR,
            List.Forall₂.cons (adjustRegex_spec _ _ hadj) hA, ?_, ?_⟩
          · unfold matchExpressionOf
            rw [hsub]
            exact h2
          · rw [hreps]; simp
          · rw [hgroups]; simp
      · cases h

theorem initializeRecord_captureGroups (n : NormalizationData) :
    (initializeRecord n).CaptureGroups = n.CaptureGroups := by
  unfold initializeRecord
  simp only
  split <;> split <;> rfl

theorem replaceMatches_captureGroups (n n' : NormalizationData)
    (all : Option (List (List Int))) (rs : List Text)
    (h : replaceMatchesWithStringsAndUpdateIndexMap n all rs = some n') :
    n'.CaptureGroups = n.CaptureGroups := by
  unfold replaceMatchesWithStringsAndUpdateIndexMap at h
  split at h
  · cases h; rfl
  · split at h
    · cases h
    · split at h
      · split at h
        · cases h; rfl
        · cases h
      · cases h; rfl

/-! ## The capture groups in detail -/

theorem submatchStrings_getElem (text : Text) :
    ∀ (k : Nat) (l : List Int) (subs : List Text) (x : Text),
      submatchStrings text l = some subs → subs[k]? = some x →
      (match l[2 * k]?, l[2 * k + 1]? with
        | some lo, some hi => if lo < 0 ∨ hi < 0 then some [] else goSlice text lo hi
        | _, _ => none) = some x := by
  intro k
  induction k with
  | zero =>
    intro l subs x h hx
    match l, h with
    | [], h => simp [submatchStrings] at h; subst h; simp at hx
    | [_], h => simp [submatchStrings] at h; subst h; simp at hx
    | lo :: hi :: rest, h =>
      unfold submatchStrings at h
      split at h
      · rename_i sub subs' hsub _
        cases h
        simp only [List.getElem?_cons_zero, Option.some.injEq] at hx
        subst hx
        simpa using hsub
      · cases h
  | succ k ih =>
    intro l subs x h hx
    match l, h with
    | [], h => simp [submatchStrings] at h; subst h; simp at hx
    | [_], h => simp [submatchStrings] at h; subst h; simp at hx
    | lo :: hi :: rest, h =>
      unfold submatchStrings at h
      split at h
      · rename_i sub subs' _ hrest
        cases h
        simp only [List.getElem?_cons_succ] at hx
        have := ih rest subs' x hrest hx
        have e1 : 2 * (k + 1) = 2 * k + 1 + 1 := by omega
        have e2 : 2 * (k + 1) + 1 = 2 * k + 1 + 1 + 1 := by omega
        simpa [e1, e2] using this
      · cases h

theorem markerField_of_submatchStrings (text : Text) (m : List Int) (subs : List Text)
    (k : Nat) (x : Text) (h : submatchStrings text (m.drop 2) = some subs)
    (hx : subs[k]? = some x) : markerField text m k = some x := by
  have := submatchStrings_getElem text k (m.drop 2) subs x h hx
  have e1 : (m.drop 2)[2 * k]? = m[2 * k + 2]? := by
    rw [List.getElem?_drop]; congr 1; omega
  have e2 : (m.drop 2)[2 * k + 1]? = m[2 * k + 3]? := by
    rw [List.getElem?_drop]; congr 1; omega
  rw [e1, e2] at this
  exact this

theorem captureLoop_groups (text : Text) :
    ∀ (ms : List (List Int)) (reps reps' : List Text) (groups groups' : List CaptureGroup),
      captureLoop text ms reps groups = some (reps', groups') →
      ∃ news : List CaptureGroup,
        groups' = groups ++ news ∧ reps' = reps ++ news.map markerOf ∧
        List.Forall₂ (fun m g => markerField text m 0 = some g.Name ∧
          markerField text m 1 = some g.Original) ms news ∧
        news.map (fun g => g.GroupNumber) =
          (List.range news.length).map (fun i => ((groups.length + i : Nat) : Int) + 1) := by
  intro ms
  induction ms with
  | nil =>
    intro reps reps' groups groups' h
    simp only [captureLoop, Option.some.injEq, Prod.mk.injEq] at h
    obtain ⟨h1, h2⟩ := h
    subst h1 h2
    exact ⟨[], by simp, by simp, List.Forall₂.nil, by simp⟩
  | cons m ms ih =>
    intro reps reps' groups groups' h
    unfold captureLoop at h
    split at h
    · cases h
    · rename_i submatches hsub
      split at h
      · rename_i name original regex h0 h1 h2
        split at h
        · cases h
        · rename_i regex' hadj
          obtain ⟨news, hg, hr, hF, hnum⟩ := ih _ _ _ _ h
          refine ⟨CaptureGroup.mk ((groups.length : Int) + 1) name original regex' :: news,
            by rw [hg]; simp, by rw [hr]; simp [markerOf],
            List.Forall₂.cons ⟨?_, ?_⟩ hF, ?_⟩
          · exact markerField_of_submatchStrings text m submatches 0 name hsub h0
          · exact markerField_of_submatchStrings text m submatches 1 original hsub h1
          · simp only [List.length_append, List.length_singleton, List.length_cons,
              List.length_nil] at hnum
            rw [List.length_cons, List.range_succ_eq_map, List.map_cons, List.map_cons,
              List.map_map, hnum]
            congr 1
            apply List.map_congr_left
            intro i _
            simp only [Function.comp]
            push_cast
            omega
      · cases h

theorem splice_containsInOrder (l : Text) :
    ∀ (spans : List (Nat × Nat)) (blocks : List Text) (p : Nat), blocks.length ≤ spans.length →
      ContainsInOrder (splice l p (spans.zip blocks)) blocks := by
  intro spans
  induction spans with
  | nil =>
    intro blocks p h
    have : blocks = [] := List.length_eq_zero.mp (by simpa using h)
    subst this
    trivial
  | cons se spans ih =>
    intro blocks p h
    cases blocks with
    | nil => trivial
    | cons b blocks =>
      have ih' : ContainsInOrder (splice l se.2 (List.zipWith Prod.mk spans blocks)) blocks :=
        ih blocks se.2 (by simpa using h)
      simp only [List.zip_cons_cons, splice]
      exact ⟨_, _, rfl, ih'⟩

theorem capture_result (n n' : NormalizationData)
    (h : captureReplaceableTextSections n = some n') :
    ∃ news : List CaptureGroup,
      n'.CaptureGroups = n.CaptureGroups ++ news ∧
      List.Forall₂ (fun m g => markerField (initializeRecord n).NormalizedText m 0 = some g.Name ∧
          markerField (initializeRecord n).NormalizedText m 1 = some g.Original)
        ((FindAllStringSubmatchIndex ReplaceableTextPatternRE (initializeRecord n).NormalizedText
          (initializeRecord n).NormalizedText.length).getD []) news ∧
      news.map (fun g => g.GroupNumber) =
        (List.range news.length).map (fun i => ((n.CaptureGroups.length + i : Nat) : Int) + 1) ∧
      ((initializeRecord n).IndexMap.length = (initializeRecord n).NormalizedText.length →
        n'.NormalizedText = splice (initializeRecord n).NormalizedText 0
          ((((FindAllStringSubmatchIndex ReplaceableTextPatternRE
              (initializeRecord n).NormalizedText
              (initializeRecord n).NormalizedText.length).getD []).map spanOf).zip
            (news.map markerOf))) := by
  have hvalid := findAll_valid ReplaceableTextPatternRE (initializeRecord n).NormalizedText
    (initializeRecord n).NormalizedText.length (by decide)
  unfold captureReplaceableTextSections captureWith at h
  generalize hall : FindAllStringSubmatchIndex ReplaceableTextPatternRE
    (initializeRecord n).NormalizedText (initializeRecord n).NormalizedText.length = all at h hvalid
  split at h
  · cases h
  · rename_i replacements groups hloop
    obtain ⟨news, hg, hreps, hF, hnum⟩ := captureLoop_groups _ _ _ _ _ _ hloop
    rw [initializeRecord_captureGroups] at hg hnum
    simp only [List.nil_append] at hreps
    have hcg : n'.CaptureGroups = groups := replaceMatches_captureGroups _ _ _ _ h
    refine ⟨news, by rw [hcg, hg], hF, hnum, ?_⟩
    intro hal
    cases all with
    | none =>
      simp only [replaceMatchesWithStringsAndUpdateIndexMap, Option.some.injEq] at h
      rw [← h]
      simp [splice]
    | some ms =>
      simp only [Option.getD_some] at hvalid hF ⊢
      have hlen : replacements.length = ms.length := by
        rw [hreps, List.length_map, ← hF.length_eq]
      have := replaceMatches_valid { initializeRecord n with CaptureGroups := groups } ms
        replacements hal hvalid hlen
      rw [this] at h
      simp only [Option.some.injEq] at h
      rw [← h, hreps]

/-! ## `NormalizeText` on an ASCII text, step by step -/

theorem decodeRune_ascii (b : Nat) (t : Text) (h : b < 0x80) : decodeRune (b :: t) = (b, 1) := by
  unfold decodeRune
  simp [h]

theorem decodeRune_nonascii (b : Nat) (t : Text) (h : 0x80 ≤ b) :
    0x80 ≤ (decodeRune (b :: t)).1 := by
  unfold decodeRune
  simp only
  repeat' split
  all_goals simp_all [RuneError, isCont]
  all_goals omega

theorem decodeRune_continuation (l : Text) (i : Nat) (h1 : 1 ≤ i) (h2 : i < (decodeRune l).2) :
    ∃ b, l[i]? = some b ∧ 0x80 ≤ b := by
  unfold decodeRune at h2
  repeat' split at h2
  all_goals simp_all [isCont]
  all_goals (try split at h2)
  all_goals (try simp only at h2)
  all_goals (try omega)
  all_goals (interval_cases i <;> simp_all)
  all_goals omega

theorem firstMatch_skip (f : Text → Option Nat) :
    ∀ (w : Nat) (l : Text) (pos : Nat), w ≤ l.length → (∀ i, i < w → f (l.drop i) = none) →
      firstMatch f pos l = firstMatch f (pos + w) (l.drop w) := by
  intro w
  induction w with
  | zero => intro l pos _ _; simp
  | succ w ih =>
    intro l pos hw hnone
    cases l with
    | nil => simp at hw
    | cons b rest =>
      have h0 : f (b :: rest) = none := hnone 0 (Nat.succ_pos _)
      have h1 := ih rest (pos + 1) (by simpa using hw) (fun i hi => by
        have := hnone (i + 1) (by omega)
        simpa using this)
      simp only [firstMatch, h0, List.drop_succ_cons]
      rw [h1]
      congr 1
      omega

theorem searchFrom_eq_firstMatch (r : Regexp) (f : Text → Option Nat) (hsub : r.numSubexp = 0)
    (H1 : ∀ c : Cursor, r.re.run c [] (fun c' caps => some (c'.pos, caps)) =
      (f c.rest).map (fun l => (c.pos + l, [])))
    (H2 : ∀ rest l, f rest = some l → 1 ≤ l ∧ ∃ b t, rest = b :: t ∧ b < 0x80) :
    ∀ (fuel : Nat) (c : Cursor), c.rest.length < fuel →
      searchFrom r fuel c = (firstMatch f c.pos c.rest).map (fun se => (se.1, se.2, [])) := by
  intro fuel
  induction fuel with
  | zero => intro c h; omega
  | succ fuel ih =>
    intro c hfuel
    unfold searchFrom
    rw [hsub]
    simp only [List.replicate_zero]
    rw [H1 c]
    cases hrest : c.rest with
    | nil =>
      have hnone : f [] = none := by
        cases hf : f [] with
        | none => rfl
        | some l =>
          obtain ⟨_, b, t, hbt, _⟩ := H2 _ _ hf
          cases hbt
      simp [hnone, decodeRune, firstMatch]
    | cons b t =>
      cases hf : f (b :: t) with
      | some l => simp [firstMatch, hf]
      | none =>
        have hw := decodeRune_width_pos b t
        have hwle := decodeRune_width_le (b :: t)
        have hne : ¬ (decodeRune (b :: t)).2 = 0 := by omega
        simp only [Option.map_none', hne, if_false]
        rw [ih (c.advance (decodeRune (b :: t)).2) (by
          simp only [Cursor.advance, hrest, List.length_drop]
          rw [hrest] at hfuel
          simp only [List.length_cons] at hfuel hwle ⊢
          omega)]
        simp only [Cursor.advance, hrest]
        rw [firstMatch_skip f (decodeRune (b :: t)).2 (b :: t) c.pos hwle]
        intro i hi
        by_cases hi0 : i = 0
        · subst hi0; simpa using hf
        · obtain ⟨b', hb', hge⟩ := decodeRune_continuation (b :: t) i (by omega) hi
          cases hfi : f ((b :: t).drop i) with
          | none => rfl
          | some l =>
            obtain ⟨_, b2, t2, hbt, hlt⟩ := H2 _ _ hfi
            have : ((b :: t).drop i)[0]? = some b2 := by rw [hbt]; simp
            rw [List.getElem?_drop] at this
            simp only [Nat.add_zero] at this
            rw [hb'] at this
            cases this
            omega

theorem matchSpansAux_skip (f : Text → Option Nat) :
    ∀ (l : Text) (k pos : Nat),
      matchSpansAux f k pos l = matchSpansAux f 0 (pos + k) (l.drop k) := by
  intro l
  induction l with
  | nil => intro k pos; simp [matchSpansAux]
  | cons b rest ih =>
    intro k pos
    cases k with
    | zero => simp
    | succ k =>
      simp only [matchSpansAux, List.drop_succ_cons]
      rw [ih k (pos + 1)]
      congr 1
      omega

theorem rewriteEveryAux_skip (f : Text → Option Nat) (repl : Text) :
    ∀ (l : Text) (k : Nat), rewriteEveryAux f repl k l = rewriteEveryAux f repl 0 (l.drop k) := by
  intro l
  induction l with
  | nil => intro k; simp [rewriteEveryAux]
  | cons b rest ih =>
    intro k
    cases k with
    | zero => simp
    | succ k =>
      simp only [rewriteEveryAux, List.drop_succ_cons]
      exact ih k

theorem firstMatch_le (f : Text → Option Nat) :
    ∀ (l : Text) (pos : Nat) (se : Nat × Nat), firstMatch f pos l = some se →
      pos ≤ se.1 ∧ se.1 ≤ se.2 := by
  intro l
  induction l with
  | nil => intro pos se h; simp [firstMatch] at h
  | cons b rest ih =>
    intro pos se h
    unfold firstMatch at h
    split at h
    · cases h
      exact ⟨le_refl _, Nat.le_add_right _ _⟩
    · obtain ⟨h1, h2⟩ := ih _ _ h
      exact ⟨by omega, h2⟩

theorem matchSpans_of_firstMatch (f : Text → Option Nat)
    (H2 : ∀ rest l, f rest = some l → 1 ≤ l ∧ ∃ b t, rest = b :: t ∧ b < 0x80) :
    ∀ (l : Text) (pos : Nat),
      matchSpansAux f 0 pos l =
        match firstMatch f pos l with
        | none => []
        | some se => se :: matchSpansAux f 0 se.2 (l.drop (se.2 - pos)) := by
  intro l
  induction l with
  | nil => intro pos; simp [matchSpansAux, firstMatch]
  | cons b rest ih =>
    intro pos
    cases hf : f (b :: rest) with
    | none =>
      simp only [matchSpansAux, firstMatch, hf]
      rw [ih (pos + 1)]
      cases hfm : firstMatch f (pos + 1) rest with
      | none => rfl
      | some se =>
        have hge : pos + 1 ≤ se.2 := by
          obtain ⟨h1, h2⟩ := firstMatch_le f _ _ _ hfm
          omega
        simp only
        have : se.2 - pos = (se.2 - (pos + 1)) + 1 := by omega
        rw [this, List.drop_succ_cons]
    | some len =>
      obtain ⟨hlen, _⟩ := H2 _ _ hf
      simp only [matchSpansAux, firstMatch, hf]
      rw [matchSpansAux_skip f rest (len - 1) (pos + 1)]
      have e1 : pos + 1 + (len - 1) = pos + len := by omega
      have e2 : pos + len - pos = (len - 1) + 1 := by omega
      rw [e1, e2, List.drop_succ_cons]

theorem allMatches_eq_spans (r : Regexp) (f : Text → Option Nat) (hsub : r.numSubexp = 0)
    (hcons : r.re.consumes = true)
    (H1 : ∀ c : Cursor, r.re.run c [] (fun c' caps => some (c'.pos, caps)) =
      (f c.rest).map (fun l => (c.pos + l, [])))
    (H2 : ∀ rest l, f rest = some l → 1 ≤ l ∧ ∃ b t, rest = b :: t ∧ b < 0x80) (text : Text) :
    ∀ (fuel pos : Nat) (prevMatchEnd : Int) (n : Nat), pos ≤ text.length →
      text.length - pos < fuel → text.length - pos ≤ n →
      allMatches r text fuel pos prevMatchEnd n =
        (matchSpansAux f 0 pos (text.drop pos)).map (fun se => [(se.1 : Int), (se.2 : Int)]) := by
  intro fuel
  induction fuel with
  | zero => intro pos p n _ h; omega
  | succ fuel ih =>
    intro pos p n hpos hfuel hn
    have hex : execute r text pos =
        (firstMatch f pos (text.drop pos)).map (fun se => (se.1, se.2, [])) := by
      unfold execute
      rw [searchFrom_eq_firstMatch r f hsub H1 H2 _ _ (by simp [Cursor.at])]
      simp [Cursor.at]
    rw [matchSpans_of_firstMatch f H2]
    unfold allMatches
    by_cases hn0 : n = 0
    · have hp : pos = text.length := by omega
      subst hp
      simp [hn0, firstMatch]
    · have hlt : ¬ text.length < pos := by omega
      simp only [hn0, hlt, decide_False, Bool.or_self, Bool.false_eq_true, if_false]
      cases hfm : firstMatch f pos (text.drop pos) with
      | none => simp [hex, hfm]
      | some se =>
        obtain ⟨s, e⟩ := se
        have hex2 : execute r text pos = some (s, e, []) := by rw [hex, hfm]; rfl
        obtain ⟨h1, h2, h3, h4⟩ := execute_bounds r text pos s e [] hpos hex2
        have hse := h4 hcons
        have hne : ¬ e = pos := by omega
        simp only [hex2, hne, if_false, List.map_cons, List.drop_drop]
        have hd : pos + (e - pos) = e := by omega
        rw [ih e (e : Int) (n - 1) h3 (by omega) (by omega), hd]
        simp [matchIndex]

theorem matchSpansAux_ge (f : Text → Option Nat) :
    ∀ (l : Text) (k pos : Nat) (se : Nat × Nat), se ∈ matchSpansAux f k pos l → pos + k ≤ se.1 := by
  intro l
  induction l with
  | nil => intro k pos se h; simp [matchSpansAux] at h
  | cons b rest ih =>
    intro k pos se h
    cases k with
    | succ k =>
      simp only [matchSpansAux] at h
      have := ih _ _ _ h
      omega
    | zero =>
      simp only [matchSpansAux] at h
      split at h
      · rcases List.mem_cons.mp h with h | h
        · subst h; simp
        · have := ih _ _ _ h
          omega
      · have := ih _ _ _ h
        omega

theorem splice_shift {α : Type} (l : List α) (p q : Nat) (hpq : p ≤ q) :
    ∀ (spans : List ((Nat × Nat) × List α)), (∀ x ∈ spans, q ≤ x.1.1) →
      splice l p spans = (l.drop p).take (q - p) ++ splice l q spans := by
  intro spans h
  cases spans with
  | nil =>
    simp only [splice]
    exact drop_split l p q hpq
  | cons x rest =>
    obtain ⟨se, b⟩ := x
    have hq : q ≤ se.1 := h (se, b) (List.mem_cons_self _ _)
    simp only [splice]
    rw [← List.append_assoc, ← List.append_assoc]
    congr 2
    have e : se.1 - p = (q - p) + (se.1 - q) := by omega
    rw [e, List.take_add, List.drop_drop]
    congr 3
    omega

theorem splice_eq_rewriteEvery (f : Text → Option Nat) (repl : Text)
    (H2 : ∀ rest l, f rest = some l → 1 ≤ l ∧ ∃ b t, rest = b :: t ∧ b < 0x80) :
    ∀ (l pre : Text) (k : Nat),
      splice (pre ++ l) (pre.length + k)
          ((matchSpansAux f k pre.length l).map (fun se => (se, repl))) =
        rewriteEveryAux f repl k l := by
  intro l
  induction l with
  | nil =>
    intro pre k
    simp [matchSpansAux, rewriteEveryAux, splice]
  | cons b rest ih =>
    intro pre k
    have hpre : pre ++ b :: rest = (pre ++ [b]) ++ rest := by simp
    have hlen : (pre ++ [b]).length = pre.length + 1 := by simp
    cases k with
    | succ k =>
      simp only [matchSpansAux, rewriteEveryAux]
      rw [← ih (pre ++ [b]) k, hpre, hlen]
      congr 1
      omega
    | zero =>
      simp only [matchSpansAux, rewriteEveryAux]
      cases hf : f (b :: rest) with
      | none =>
        simp only
        rw [← ih (pre ++ [b]) 0, hlen, ← hpre]
        rw [splice_shift (pre ++ b :: rest) (pre.length + 0) (pre.length + 1 + 0) (by omega)]
        · simp
        · intro x hx
          obtain ⟨se, hse, rfl⟩ := List.mem_map.mp hx
          have := matchSpansAux_ge f _ _ _ _ hse
          simpa using this
      | some len =>
        obtain ⟨hl1, _⟩ := H2 _ _ hf
        simp only [List.map_cons, splice]
        rw [← ih (pre ++ [b]) (len - 1), hlen, ← hpre]
        have e : pre.length + 1 + (len - 1) = pre.length + len := by omega
        rw [e]
        simp

theorem collectSubmatches_pairs (text : Text) :
    ∀ (spans : List (Nat × Nat)) (acc : List Text),
      collectSubmatches text (spans.map (fun se => [(se.1 : Int), (se.2 : Int)])) acc = some acc := by
  intro spans
  induction spans with
  | nil => intro acc; rfl
  | cons se rest ih =>
    intro acc
    simp only [List.map_cons, collectSubmatches, List.drop_succ_cons, List.drop_zero,
      collectSubmatchesOf]
    exact ih acc

theorem findAll_eq_spans (r : Regexp) (f : Text → Option Nat) (hsub : r.numSubexp = 0)
    (hcons : r.re.consumes = true)
    (H1 : ∀ c : Cursor, r.re.run c [] (fun c' caps => some (c'.pos, caps)) =
      (f c.rest).map (fun l => (c.pos + l, [])))
    (H2 : ∀ rest l, f rest = some l → 1 ≤ l ∧ ∃ b t, rest = b :: t ∧ b < 0x80) (text : Text) :
    (FindAllStringSubmatchIndex r text text.length).getD [] =
      (matchSpansAux f 0 0 text).map (fun se => [(se.1 : Int), (se.2 : Int)]) := by
  have h := allMatches_eq_spans r f hsub hcons H1 H2 text (text.length + 2) 0 (-1) text.length
    (Nat.zero_le _) (by omega) (by omega)
  simp only [List.drop_zero] at h
  unfold FindAllStringSubmatchIndex
  rw [h]
  split
  · rename_i heq
    rw [heq]; rfl
  · rfl

theorem initializeRecord_fix (n : NormalizationData)
    (h1 : n.NormalizedText = [] → n.OriginalText = [])
    (h2 : n.IndexMap = [] → n.NormalizedText = []) : initializeRecord n = n := by
  unfold initializeRecord
  by_cases ht : n.NormalizedText = []
  · have ho := h1 ht
    have e : ({ n with NormalizedText := n.OriginalText } : NormalizationData) = n := by
      cases n
      simp only at ht ho
      simp [ht, ho]
    simp only [ht, List.length_nil, if_true, e]
    split
    · cases n
      simp only at ht
      simp_all
    · rfl
  · have hl : ¬ n.NormalizedText.length = 0 := fun h => ht (List.length_eq_zero.mp h)
    have hi : ¬ n.IndexMap.length = 0 := fun h => ht (h2 (List.length_eq_zero.mp h))
    simp [hl, hi]

theorem initializeRecord_fields (n : NormalizationData) :
    (initializeRecord n).OriginalText = n.OriginalText ∧
    (initializeRecord n).CaptureGroups = n.CaptureGroups ∧
    (initializeRecord n).Hash = n.Hash ∧
    ((initializeRecord n).NormalizedText = [] → n.OriginalText = []) ∧
    ((initializeRecord n).IndexMap = [] → (initializeRecord n).NormalizedText = []) := by
  unfold initializeRecord
  by_cases ht : n.NormalizedText.length = 0 <;> by_cases hi : n.IndexMap.length = 0 <;>
    simp only [ht, hi, if_true, if_false, true_and]
  · simp only [List.map_eq_nil_iff, List.range_eq_nil, List.length_eq_zero, imp_self, and_self]
  · refine ⟨fun h => h, fun h => ?_⟩
    exact absurd (List.length_eq_zero.mpr h) hi
  · refine ⟨fun h => absurd (List.length_eq_zero.mpr h) ht, ?_⟩
    simp only [List.map_eq_nil_iff, List.range_eq_nil, List.length_eq_zero, imp_self]
  · refine ⟨fun h => absurd (List.length_eq_zero.mpr h) ht, fun h => ?_⟩
    exact absurd (List.length_eq_zero.mpr h) hi

theorem rewriteEvery_ne_nil (f : Text → Option Nat) (repl x : Text) (hx : x ≠ [])
    (hr : repl ≠ []) : rewriteEvery f repl x ≠ [] := by
  cases x with
  | nil => exact absurd rfl hx
  | cons b rest =>
    unfold rewriteEvery rewriteEveryAux
    split
    · intro h
      exact hr (List.append_eq_nil.mp h).1
    · simp

theorem replaceMatches_rewriteEvery (r : Regexp) (f : Text → Option Nat) (repl : Text)
    (hsub : r.numSubexp = 0) (hcons : r.re.consumes = true)
    (H1 : ∀ c : Cursor, r.re.run c [] (fun c' caps => some (c'.pos, caps)) =
      (f c.rest).map (fun l => (c.pos + l, [])))
    (H2 : ∀ rest l, f rest = some l → 1 ≤ l ∧ ∃ b t, rest = b :: t ∧ b < 0x80)
    (n : NormalizationData) (hal : n.IndexMap.length = n.NormalizedText.length) :
    ∃ n', (replaceMatchesWithStringAndUpdateIndexMap n
        (FindAllStringSubmatchIndex r n.NormalizedText n.NormalizedText.length) repl).map
          Prod.fst = some n' ∧
      n'.NormalizedText = rewriteEvery f repl n.NormalizedText ∧
      n'.IndexMap.length = n'.NormalizedText.length ∧
      n'.OriginalText = n.OriginalText ∧ n'.CaptureGroups = n.CaptureGroups ∧
      n'.Hash = n.Hash := by
  have hspl := splice_eq_rewriteEvery f repl H2 n.NormalizedText [] 0
  simp only [List.nil_append, List.length_nil, Nat.add_zero] at hspl
  have hfa := findAll_eq_spans r f hsub hcons H1 H2 n.NormalizedText
  have hv := findAll_valid r n.NormalizedText n.NormalizedText.length hcons
  cases hfind : FindAllStringSubmatchIndex r n.NormalizedText n.NormalizedText.length with
  | none =>
    rw [hfind] at hfa
    simp only [Option.getD_none] at hfa
    have hnil : matchSpansAux f 0 0 n.NormalizedText = [] := by
      cases hm : matchSpansAux f 0 0 n.NormalizedText with
      | nil => rfl
      | cons a b => rw [hm] at hfa; simp at hfa
    rw [hnil] at hspl
    refine ⟨n, rfl, ?_, hal, rfl, rfl, rfl⟩
    unfold rewriteEvery
    rw [← hspl]
    simp [splice]
  | some ms =>
    rw [hfind] at hfa hv
    simp only [Option.getD_some] at hfa hv
    have hne : ms.length ≠ 0 := by
      intro h0
      have hms : ms = [] := List.length_eq_zero.mp h0
      subst hms
      unfold FindAllStringSubmatchIndex at hfind
      split at hfind
      · cases hfind
      · rename_i hx
        simp only [Option.some.injEq] at hfind
        exact hx hfind
    have hrv := replaceMatches_valid n ms (List.replicate ms.length repl) hal hv (by simp)
    have hra := replaceMatches_valid_aligned n ms (List.replicate ms.length repl) hal hv (by simp)
    unfold replaceMatchesWithStringAndUpdateIndexMap
    simp only [hne, if_false]
    have hcol : collectSubmatches n.NormalizedText ms [] = some [] := by
      rw [hfa]; exact collectSubmatches_pairs _ _ _
    rw [hcol]
    simp only [hrv, Option.map_some']
    refine ⟨_, rfl, ?_, hra, rfl, rfl, rfl⟩
    simp only
    unfold rewriteEvery
    rw [← hspl]
    congr 1
    rw [hfa]
    simp only [List.map_map, List.length_map]
    generalize matchSpansAux f 0 0 n.NormalizedText = spans
    induction spans with
    | nil => rfl
    | cons se rest ih =>
      simp only [List.map_cons, List.length_cons, List.replicate_succ, List.zip_cons_cons, ih]
      congr 1

theorem replacePass_rewriteEvery (r : Regexp) (f : Text → Option Nat) (repl : Text)
    (hsub : r.numSubexp = 0) (hcons : r.re.consumes = true)
    (H1 : ∀ c : Cursor, r.re.run c [] (fun c' caps => some (c'.pos, caps)) =
      (f c.rest).map (fun l => (c.pos + l, [])))
    (H2 : ∀ rest l, f rest = some l → 1 ≤ l ∧ ∃ b t, rest = b :: t ∧ b < 0x80)
    (n : NormalizationData)
    (hal : (initializeRecord n).IndexMap.length = (initializeRecord n).NormalizedText.length) :
    ∃ n', replacePass r repl n = some n' ∧
      n'.NormalizedText = rewriteEvery f repl (initializeRecord n).NormalizedText ∧
      n'.IndexMap.length = n'.NormalizedText.length ∧
      n'.OriginalText = n.OriginalText ∧ n'.CaptureGroups = n.CaptureGroups ∧
      n'.Hash = n.Hash ∧ (repl ≠ [] → initializeRecord n' = n') := by
  obtain ⟨n', h, ht, hal', ho, hc, hh⟩ :=
    replaceMatches_rewriteEvery r f repl hsub hcons H1 H2 (initializeRecord n) hal
  obtain ⟨fo, fc, fh, fe, _⟩ := initializeRecord_fields n
  refine ⟨n', h, ht, hal', ho.trans fo, hc.trans fc, hh.trans fh, fun hr => ?_⟩
  apply initializeRecord_fix
  · intro hnil
    rw [ht] at hnil
    rw [ho, fo]
    apply fe
    by_contra hne
    exact rewriteEvery_ne_nil f repl _ hne hr hnil
  · intro hnil
    rw [hnil] at hal'
    exact List.length_eq_zero.mp hal'.symm

/-! ## Patterns that are a sequence of one-byte classes -/

theorem Cursor.skip_pos (n : Nat) : ∀ (c : Cursor), (c.skip n).pos = c.pos + n := by
  induction n with
  | zero => intro c; rfl
  | succ n ih =>
    intro c
    simp only [Cursor.skip, ih, Cursor.advance]
    omega

theorem Cursor.skip_rest (n : Nat) : ∀ (c : Cursor), (c.skip n).rest = c.rest.drop n := by
  induction n with
  | zero => intro c; rfl
  | succ n ih =>
    intro c
    simp only [Cursor.skip, ih, Cursor.advance, List.drop_drop]
    congr 1
    omega

theorem Cursor.skip_add (a : Nat) : ∀ (c : Cursor) (b : Nat), (c.skip a).skip b = c.skip (a + b) := by
  induction a with
  | zero => intro c b; simp [Cursor.skip]
  | succ a ih =>
    intro c b
    have e : a + 1 + b = (a + b) + 1 := by omega
    rw [e]
    simp only [Cursor.skip, ih]

theorem startsWithClasses_append (ca cb : List (List Nat)) :
    ∀ (rest : Text), startsWithClasses (ca ++ cb) rest =
      (startsWithClasses ca rest && startsWithClasses cb (rest.drop ca.length)) := by
  induction ca with
  | nil => intro rest; simp [startsWithClasses]
  | cons cl cls ih =>
    intro rest
    cases rest with
    | nil => simp [startsWithClasses]
    | cons b t => simp [startsWithClasses, ih, Bool.and_assoc]

theorem contains_nat (l : List Nat) (b : Nat) : l.contains b = true ↔ b ∈ l := by
  simp

theorem run_byteClasses (re : Re) :
    ∀ (cs : List (List Nat)), re.byteClasses = some cs →
      ∀ (c : Cursor) (caps : Caps) (k : Cont),
        re.run c caps k = if startsWithClasses cs c.rest then k (c.skip cs.length) caps else none := by
  induction re with
  | eps =>
    intro cs h c caps k
    simp only [Re.byteClasses, Option.some.injEq] at h
    subst h
    simp [Re.run, startsWithClasses, Cursor.skip]
  | cls ranges =>
    intro cs h c caps k
    simp only [Re.byteClasses] at h
    split at h
    · rename_i hall
      simp only [Option.some.injEq] at h
      subst h
      simp only [Re.run, List.length_singleton]
      cases hrest : c.rest with
      | nil => simp [decodeRune, startsWithClasses]
      | cons b t =>
        by_cases hb : b < 0x80
        · rw [decodeRune_ascii b t hb]
          have hany : (ranges.any fun lh => decide (lh.1 ≤ b) && decide (b ≤ lh.2)) =
              (ranges.map Prod.fst).contains b := by
            rw [Bool.eq_iff_iff]
            simp only [List.any_eq_true, Bool.and_eq_true, decide_eq_true_eq, contains_nat,
              List.mem_map]
            simp only [List.all_eq_true, Bool.and_eq_true, decide_eq_true_eq] at hall
            constructor
            · rintro ⟨lh, hmem, h1, h2⟩
              have := hall lh hmem
              exact ⟨lh, hmem, by omega⟩
            · rintro ⟨lh, hmem, h1⟩
              have := hall lh hmem
              exact ⟨lh, hmem, by omega, by omega⟩
          simp only [startsWithClasses, Bool.and_true]
          rw [← hany]
          simp only [Cursor.skip]
          have h10 : decide (¬ (1 : Nat) = 0) = true := by decide
          simp only [ne_eq, h10, Bool.true_and]
        · have hge := decodeRune_nonascii b t (by omega)
          have hw := decodeRune_width_pos b t
          simp only [List.all_eq_true, Bool.and_eq_true, decide_eq_true_eq] at hall
          have hany : (ranges.any fun lh => decide (lh.1 ≤ (decodeRune (b :: t)).1) &&
              decide ((decodeRune (b :: t)).1 ≤ lh.2)) = false := by
            rw [List.any_eq_false]
            intro lh hmem
            have := hall lh hmem
            simp only [Bool.and_eq_true, decide_eq_true_eq, not_and]
            intro _
            omega
          have hcon : (ranges.map Prod.fst).contains b = false := by
            rw [Bool.eq_false_iff]
            simp only [ne_eq, contains_nat, List.mem_map, not_exists, not_and]
            intro lh hmem
            have := hall lh hmem
            omega
          simp only [hany, startsWithClasses, hcon]
          simp
    · cases h
  | seq a b iha ihb =>
    intro cs h c caps k
    simp only [Re.byteClasses] at h
    split at h
    · rename_i ca cb ha hb
      simp only [Option.some.injEq] at h
      subst h
      simp only [Re.run]
      rw [iha ca ha, startsWithClasses_append]
      by_cases h1 : startsWithClasses ca c.rest = true
      · simp only [h1, if_true, Bool.true_and]
        rw [ihb cb hb, Cursor.skip_rest, Cursor.skip_add, List.length_append]
      · simp [h1]
    · cases h
  | alt a b _ _ => intro cs h; simp [Re.byteClasses] at h
  | star a g _ => intro cs h; simp [Re.byteClasses] at h
  | group i a _ => intro cs h; simp [Re.byteClasses] at h
  | beginText => intro cs h; simp [Re.byteClasses] at h
  | endText => intro cs h; simp [Re.byteClasses] at h
  | beginLine => intro cs h; simp [Re.byteClasses] at h
  | endLine => intro cs h; simp [Re.byteClasses] at h
  | wordBoundary => intro cs h; simp [Re.byteClasses] at h

theorem startsWithClasses_map (g : Nat → Nat) :
    ∀ (cs : List (List Nat)) (target : Text),
      List.Forall₂ (fun cl t => ∀ b, cl.contains b = decide (g b = t)) cs target →
      ∀ (rest : Text), startsWithClasses cs rest =
        decide ((rest.take cs.length).map g = target) := by
  intro cs target h
  induction h with
  | nil => intro rest; simp [startsWithClasses]
  | cons hcl _ ih =>
    intro rest
    cases rest with
    | nil => simp [startsWithClasses]
    | cons b t =>
      simp only [startsWithClasses, hcl b, ih t, List.length_cons, List.take_succ_cons,
        List.map_cons, List.cons.injEq]
      rw [Bool.eq_iff_iff]
      simp

theorem class_letter (t : Nat) (h1 : 97 ≤ t) (h2 : t ≤ 122) (b : Nat) :
    [t, t - 32].contains b = decide (toLowerByte b = t) := by
  rw [Bool.eq_iff_iff]
  simp only [contains_nat, List.mem_cons, List.mem_singleton, List.not_mem_nil, or_false,
    decide_eq_true_eq, toLowerByte]
  split <;> omega

theorem class_other (t : Nat) (h : t < 65 ∨ (90 < t ∧ t < 97) ∨ 122 < t) (b : Nat) :
    [t].contains b = decide (toLowerByte b = t) := by
  rw [Bool.eq_iff_iff]
  simp only [contains_nat, List.mem_cons, List.mem_singleton, List.not_mem_nil, or_false,
    decide_eq_true_eq, toLowerByte]
  split <;> omega

theorem class_exact (t : Nat) (b : Nat) : [t].contains b = decide (id b = t) := by
  rw [Bool.eq_iff_iff]
  simp

theorem wildcard_byteClasses :
    WildcardMatchingPatternRE.re.byteClasses =
      some [[60], [60], [109, 77], [97, 65], [116, 84], [99, 67], [104, 72], [61], [46], [43],
        [62], [62]] := by
  decide

theorem optionalWildcard_byteClasses :
    OptionalWildcardMatchingPatternRE.re.byteClasses =
      some [[60], [60], [109], [97], [116], [99], [104], [61], [46], [42], [62], [62]] := by
  decide

theorem wildcard_run (c : Cursor) :
    WildcardMatchingPatternRE.re.run c [] (fun c' caps => some (c'.pos, caps)) =
      (wildcardLen c.rest).map (fun l => (c.pos + l, [])) := by
  rw [run_byteClasses _ _ wildcard_byteClasses]
  rw [startsWithClasses_map toLowerByte _ (bytes "<<match=.+>>")]
  · simp only [wildcardLen, List.length_cons, List.length_nil, decide_eq_true_eq, Cursor.skip_pos]
    split <;> rfl
  · have e : bytes "<<match=.+>>" = [60, 60, 109, 97, 116, 99, 104, 61, 46, 43, 62, 62] := by
      decide
    rw [e]
    refine .cons (class_other 60 (by omega)) (.cons (class_other 60 (by omega))
      (.cons (class_letter 109 (by omega) (by omega)) (.cons (class_letter 97 (by omega) (by omega))
      (.cons (class_letter 116 (by omega) (by omega)) (.cons (class_letter 99 (by omega) (by omega))
      (.cons (class_letter 104 (by omega) (by omega)) (.cons (class_other 61 (by omega))
      (.cons (class_other 46 (by omega)) (.cons (class_other 43 (by omega))
      (.cons (class_other 62 (by omega)) (.cons (class_other 62 (by omega)) .nil)))))))))))

theorem optionalWildcard_run (c : Cursor) :
    OptionalWildcardMatchingPatternRE.re.run c [] (fun c' caps => some (c'.pos, caps)) =
      (optionalWildcardLen c.rest).map (fun l => (c.pos + l, [])) := by
  rw [run_byteClasses _ _ optionalWildcard_byteClasses]
  rw [startsWithClasses_map id _ (bytes "<<match=.*>>")]
  · simp only [optionalWildcardLen, List.length_cons, List.length_nil, decide_eq_true_eq,
      Cursor.skip_pos, List.map_id]
    split <;> rfl
  · have e : bytes "<<match=.*>>" = [60, 60, 109, 97, 116, 99, 104, 61, 46, 42, 62, 62] := by
      decide
    rw [e]
    refine .cons (class_exact 60) (.cons (class_exact 60)
      (.cons (class_exact 109) (.cons (class_exact 97)
      (.cons (class_exact 116) (.cons (class_exact 99)
      (.cons (class_exact 104) (.cons (class_exact 61)
      (.cons (class_exact 46) (.cons (class_exact 42)
      (.cons (class_exact 62) (.cons (class_exact 62) .nil)))))))))))

theorem lower_head_ascii (rest target : Text) (m : Nat) (t0 : Nat) (tl : Text)
    (ht : target = t0 :: tl) (ht0 : t0 < 0x80) (hm : 1 ≤ m)
    (h : (rest.take m).map toLowerByte = target) : ∃ b t, rest = b :: t ∧ b < 0x80 := by
  subst ht
  cases rest with
  | nil => simp at h
  | cons b t =>
    refine ⟨b, t, rfl, ?_⟩
    obtain ⟨m', rfl⟩ : ∃ m', m = m' + 1 := ⟨m - 1, by omega⟩
    simp only [List.take_succ_cons, List.map_cons, List.cons.injEq, toLowerByte] at h
    obtain ⟨h0, _⟩ := h
    split at h0 <;> omega

theorem wildcardLen_spec (rest : Text) (l : Nat) (h : wildcardLen rest = some l) :
    1 ≤ l ∧ ∃ b t, rest = b :: t ∧ b < 0x80 := by
  unfold wildcardLen at h
  split at h
  · rename_i heq
    cases h
    refine ⟨by omega, lower_head_ascii rest _ 12 60
      [60, 109, 97, 116, 99, 104, 61, 46, 43, 62, 62] ?_ (by omega) (by omega) heq⟩
    decide
  · cases h

theorem optionalWildcardLen_spec (rest : Text) (l : Nat) (h : optionalWildcardLen rest = some l) :
    1 ≤ l ∧ ∃ b t, rest = b :: t ∧ b < 0x80 := by
  unfold optionalWildcardLen at h
  split at h
  · rename_i heq
    cases h
    refine ⟨by omega, ?_⟩
    cases rest with
    | nil =>
      exfalso
      revert heq
      decide
    | cons b t =>
      refine ⟨b, t, rfl, ?_⟩
      have e : bytes "<<match=.*>>" = [60, 60, 109, 97, 116, 99, 104, 61, 46, 42, 62, 62] := by
        decide
      rw [e] at heq
      simp only [List.take_succ_cons, List.cons.injEq] at heq
      omega
  · cases h

/-! ## The protocol token -/

theorem decodeRune_long_s (b : Nat) (t : Text) (h : (decodeRune (b :: t)).1 = 0x17F) :
    b = 0xC5 ∧ t.head? = some 0xBF := by
  unfold decodeRune at h
  repeat' split at h
  all_goals simp_all [RuneError, isCont]
  all_goals (try split at h)
  all_goals (try simp only at h)
  all_goals (try omega)

theorem decodeRune_of_long_s (t : Text) (h : t.head? = some 0xBF) :
    decodeRune (0xC5 :: t) = (0x17F, 2) := by
  cases t with
  | nil => simp at h
  | cons b1 t1 =>
    simp only [List.head?_cons, Option.some.injEq] at h
    subst h
    simp [decodeRune, isCont]

theorem optS_run (c : Cursor) :
    (Re.opt (Re.chrI 115)).run c [] (fun c' caps => some (c'.pos, caps)) =
      some (c.pos + sLen c.rest, []) := by
  have hcls : Re.chrI 115 = .cls [(115, 115), (83, 83), (0x17F, 0x17F)] := by
    simp [Re.chrI, Re.oneOf, foldOrbit]
  rw [Re.opt, hcls]
  simp only [Re.run]
  cases hrest : c.rest with
  | nil => simp [decodeRune, sLen]
  | cons b t =>
    by_cases hb : b < 0x80
    · rw [decodeRune_ascii b t hb]
      simp only [sLen, Cursor.advance]
      by_cases hs : b = 115 ∨ b = 83
      · have : ([(115, 115), (83, 83), (0x17F, 0x17F)].any
            fun (lh : Nat × Nat) => decide (lh.1 ≤ b) && decide (b ≤ lh.2)) = true := by
          rcases hs with rfl | rfl <;> decide
        simp [this, hs]
      · have : ([(115, 115), (83, 83), (0x17F, 0x17F)].any
            fun (lh : Nat × Nat) => decide (lh.1 ≤ b) && decide (b ≤ lh.2)) = false := by
          simp only [List.any_cons, List.any_nil, Bool.or_false, Bool.or_eq_false_iff,
            Bool.and_eq_false_imp, decide_eq_true_eq, decide_eq_false_iff_not]
          omega
        have hc5 : ¬ b = 0xC5 := by omega
        simp [this, hs, hc5]
    · have hge := decodeRune_nonascii b t (by omega)
      have hns : ¬ (b = 115 ∨ b = 83) := by omega
      by_cases hl : b = 0xC5 ∧ t.head? = some 0xBF
      · obtain ⟨rfl, hh⟩ := hl
        rw [decodeRune_of_long_s t hh]
        simp [sLen, hh, Cursor.advance]
      · have hne : ¬ (decodeRune (b :: t)).1 = 0x17F := fun h => hl (decodeRune_long_s b t h)
        have : ([(115, 115), (83, 83), (0x17F, 0x17F)].any
            fun (lh : Nat × Nat) => decide (lh.1 ≤ (decodeRune (b :: t)).1) &&
              decide ((decodeRune (b :: t)).1 ≤ lh.2)) = false := by
          simp only [List.any_cons, List.any_nil, Bool.or_false, Bool.or_eq_false_iff,
            Bool.and_eq_false_imp, decide_eq_true_eq, decide_eq_false_iff_not]
          omega
        simp only [this, Bool.and_false, Bool.false_eq_true, if_false, sLen, hns]
        simp only [hl, if_false, Nat.add_zero]

theorem http_byteClasses :
    (Re.litI "http").byteClasses = some [[104, 72], [116, 84], [116, 84], [112, 80]] := by
  decide

theorem http_run (c : Cursor) :
    HTTPPatternRE.re.run c [] (fun c' caps => some (c'.pos, caps)) =
      (httpLen c.rest).map (fun l => (c.pos + l, [])) := by
  have hre : HTTPPatternRE.re = .seq (Re.litI "http") (Re.opt (Re.chrI 115)) := rfl
  rw [hre]
  show (Re.litI "http").run c [] (fun c1 caps1 =>
    (Re.opt (Re.chrI 115)).run c1 caps1 (fun c' caps => some (c'.pos, caps))) = _
  rw [run_byteClasses _ _ http_byteClasses]
  rw [startsWithClasses_map toLowerByte _ (bytes "http")]
  · simp only [httpLen, List.length_cons, List.length_nil, decide_eq_true_eq, optS_run,
      Cursor.skip_pos, Cursor.skip_rest]
    split
    · simp only [Option.map_some', Option.some.injEq, Prod.mk.injEq, and_true, Nat.zero_add,
        Nat.reduceAdd]
      omega
    · rfl
  · have e : bytes "http" = [104, 116, 116, 112] := by decide
    rw [e]
    exact .cons (class_letter 104 (by omega) (by omega))
      (.cons (class_letter 116 (by omega) (by omega))
      (.cons (class_letter 116 (by omega) (by omega))
      (.cons (class_letter 112 (by omega) (by omega)) .nil)))

theorem httpLen_spec (rest : Text) (l : Nat) (h : httpLen rest = some l) :
    1 ≤ l ∧ ∃ b t, rest = b :: t ∧ b < 0x80 := by
  unfold httpLen at h
  split at h
  · rename_i heq
    simp only [Option.some.injEq] at h
    refine ⟨by omega, lower_head_ascii rest _ 4 104 [116, 116, 112] ?_ (by omega) (by omega) heq⟩
    decide
  · cases h

theorem standardizeToHTTP_rewriteEvery (n : NormalizationData)
    (hal : (initializeRecord n).IndexMap.length = (initializeRecord n).NormalizedText.length) :
    ∃ n', standardizeToHTTP n = some n' ∧
      n'.NormalizedText = rewriteEvery httpLen (bytes "http") (initializeRecord n).NormalizedText ∧
      n'.IndexMap.length = n'.NormalizedText.length ∧ initializeRecord n' = n' := by
  obtain ⟨n', h, ht, hal', _, _, _, hfix⟩ := replacePass_rewriteEvery HTTPPatternRE httpLen
    (bytes "http") rfl (by decide) http_run httpLen_spec n hal
  exact ⟨n', h, ht, hal', hfix (by decide)⟩

theorem rewriteEveryAux_congr (f : Text → Option Nat) (repl X1 X2 : Text)
    (hP : ∀ s' : Text, s' ≠ [] → f (s' ++ X1) = f (s' ++ X2) ∧
      ∀ l, f (s' ++ X1) = some l → l ≤ s'.length)
    (hX : rewriteEveryAux f repl 0 X1 = rewriteEveryAux f repl 0 X2) :
    ∀ (s : Text) (k : Nat), k ≤ s.length →
      rewriteEveryAux f repl k (s ++ X1) = rewriteEveryAux f repl k (s ++ X2) := by
  intro s
  induction s with
  | nil =>
    intro k hk
    simp only [List.length_nil, Nat.le_zero] at hk
    subst hk
    simpa using hX
  | cons b s ih =>
    intro k hk
    cases k with
    | succ k =>
      simp only [List.cons_append, rewriteEveryAux]
      exact ih k (by simpa using hk)
    | zero =>
      obtain ⟨h1, h2⟩ := hP (b :: s) (by simp)
      simp only [List.cons_append] at h1 h2 ⊢
      simp only [rewriteEveryAux]
      rw [← h1]
      cases hf : f (b :: (s ++ X1)) with
      | none =>
        simp only
        rw [ih 0 (Nat.zero_le _)]
      | some l =>
        have := h2 l hf
        simp only [List.length_cons] at this
        simp only
        rw [ih (l - 1) (by omega)]

theorem toLowerByte_letter (b t : Nat) (h : toLowerByte b = t) (h1 : 97 ≤ t) (h2 : t ≤ 122) :
    b = t ∨ b = t - 32 := by
  unfold toLowerByte at h
  split at h <;> omega

theorem httpLen_congr (a1 b1 c1 a2 b2 c2 : Nat) (r1 r2 : Text)
    (ha1 : toLowerByte a1 = 104) (hb1 : toLowerByte b1 = 116) (hc1 : toLowerByte c1 = 116)
    (ha2 : toLowerByte a2 = 104) (hb2 : toLowerByte b2 = 116) (hc2 : toLowerByte c2 = 116)
    (s' : Text) (hs : s' ≠ []) :
    httpLen (s' ++ a1 :: b1 :: c1 :: r1) = httpLen (s' ++ a2 :: b2 :: c2 :: r2) ∧
      ∀ l, httpLen (s' ++ a1 :: b1 :: c1 :: r1) = some l → l ≤ s'.length := by
  have e : bytes "http" = [104, 116, 116, 112] := by decide
  have ha1' := toLowerByte_letter a1 104 ha1 (by omega) (by omega)
  have ha2' := toLowerByte_letter a2 104 ha2 (by omega) (by omega)
  rcases s' with _ | ⟨x, _ | ⟨y, _ | ⟨z, _ | ⟨w, _ | ⟨v, _ | ⟨u, rest⟩⟩⟩⟩⟩⟩
  · exact absurd rfl hs
  · simp [httpLen, e, ha1, ha2, hb1, hb2, hc1, hc2]
  · simp [httpLen, e, ha1, ha2, hb1, hb2, hc1, hc2]
  · simp [httpLen, e, ha1, ha2, hb1, hb2, hc1, hc2]
  · have s1 : sLen (a1 :: b1 :: c1 :: r1) = 0 := by
      simp only [sLen]; split <;> [omega; (split <;> [omega; rfl])]
    have s2 : sLen (a2 :: b2 :: c2 :: r2) = 0 := by
      simp only [sLen]; split <;> [omega; (split <;> [omega; rfl])]
    simp only [httpLen, e, List.cons_append, List.nil_append, List.take_succ_cons, List.take_zero,
      List.drop_succ_cons, List.drop_zero, s1, s2, List.length_cons, List.length_nil]
    refine ⟨trivial, fun l hl => ?_⟩
    split at hl
    · simp only [Option.some.injEq] at hl; omega
    · cases hl
  · have s1 : sLen (v :: a1 :: b1 :: c1 :: r1) = sLen (v :: a2 :: b2 :: c2 :: r2) := by
      simp only [sLen, List.head?_cons, Option.some.injEq]
      have n1 : ¬ a1 = 191 := by omega
      have n2 : ¬ a2 = 191 := by omega
      simp only [n1, n2]
    have s3 : sLen (v :: a1 :: b1 :: c1 :: r1) ≤ 1 := by
      simp only [sLen, List.head?_cons, Option.some.injEq]
      have n1 : ¬ a1 = 191 := by omega
      simp only [n1, and_false, if_false]
      split <;> omega
    simp only [httpLen, e, List.cons_append, List.nil_append, List.take_succ_cons, List.take_zero,
      List.drop_succ_cons, List.drop_zero, s1, List.length_cons, List.length_nil]
    refine ⟨trivial, fun l hl => ?_⟩
    split at hl
    · simp only [Option.some.injEq] at hl; rw [← s1] at hl; omega
    · cases hl
  · have s3 : ∀ X : Text, sLen (v :: u :: (rest ++ X)) = sLen [v, u] := by
      intro X
      simp only [sLen, List.head?_cons]
    have s4 : sLen [v, u] ≤ 2 := by
      simp only [sLen]
      split <;> [omega; (split <;> omega)]
    simp only [httpLen, e, List.cons_append, List.take_succ_cons, List.take_zero,
      List.drop_succ_cons, List.drop_zero, s3, List.length_cons]
    refine ⟨trivial, fun l hl => ?_⟩
    split at hl
    · simp only [Option.some.injEq] at hl; omega
    · cases hl

theorem rewriteEvery_protocol (s t tok1 tok2 : Text)
    (h1 : tok1.map toLowerByte = bytes "https") (h2 : tok2.map toLowerByte = bytes "http") :
    rewriteEvery httpLen (bytes "http") (s ++ tok1 ++ bytes "://" ++ t) =
      rewriteEvery httpLen (bytes "http") (s ++ tok2 ++ bytes "://" ++ t) := by
  have e1 : bytes "https" = [104, 116, 116, 112, 115] := by decide
  have e2 : bytes "http" = [104, 116, 116, 112] := by decide
  have e3 : bytes "://" = [58, 47, 47] := by decide
  rw [e1] at h1
  rw [e2] at h2
  rcases tok1 with _ | ⟨a1, _ | ⟨b1, _ | ⟨c1, _ | ⟨d1, _ | ⟨g1, _ | ⟨x1, y1⟩⟩⟩⟩⟩⟩ <;>
    simp only [List.map_cons, List.map_nil, List.cons.injEq, and_true, reduceCtorEq, and_false]
      at h1
  rcases tok2 with _ | ⟨a2, _ | ⟨b2, _ | ⟨c2, _ | ⟨d2, _ | ⟨x2, y2⟩⟩⟩⟩⟩ <;>
    simp only [List.map_cons, List.map_nil, List.cons.injEq, and_true, reduceCtorEq, and_false]
      at h2
  obtain ⟨ha1, hb1, hc1, hd1, hg1⟩ := h1
  obtain ⟨ha2, hb2, hc2, hd2⟩ := h2
  have hg := toLowerByte_letter g1 115 hg1 (by omega) (by omega)
  unfold rewriteEvery
  rw [e3]
  simp only [List.append_assoc, List.cons_append, List.nil_append]
  apply rewriteEveryAux_congr httpLen _ _ _ _ _ s 0 (Nat.zero_le _)
  · intro s' hs
    exact httpLen_congr a1 b1 c1 a2 b2 c2 _ _ ha1 hb1 hc1 ha2 hb2 hc2 s' hs
  · have s1 : sLen (g1 :: 58 :: 47 :: 47 :: t) = 1 := by
      simp only [sLen]
      split <;> [rfl; omega]
    have s2 : sLen (58 :: 47 :: 47 :: t) = 0 := by
      simp [sLen]
    simp only [rewriteEveryAux, httpLen, e2, List.take_succ_cons, List.take_zero, List.map_cons,
      List.map_nil, ha1, hb1, hc1, hd1, ha2, hb2, hc2, hd2, if_true, List.drop_succ_cons,
      List.drop_zero, s1, s2, Nat.add_zero, Nat.reduceAdd, Nat.add_one_sub_one, Nat.reduceSub]

theorem prefix_of_rewritten (g : Nat → Nat) (hg : g 104 = 104) :
    ∀ (pat z : Text), 104 ∉ pat →
      ((rewriteEvery httpLen (bytes "http") z).take pat.length).map g = pat →
      (z.take pat.length).map g = pat := by
  have e : bytes "http" = [104, 116, 116, 112] := by decide
  intro pat
  induction pat with
  | nil => intro z _ _; simp
  | cons c pat ih =>
    intro z hmem h
    have hc : c ≠ 104 := fun hc => hmem (by simp [hc])
    have hmem' : 104 ∉ pat := fun hp => hmem (List.mem_cons_of_mem _ hp)
    cases z with
    | nil => simp [rewriteEvery, rewriteEveryAux] at h
    | cons b rest =>
      unfold rewriteEvery at h
      simp only [rewriteEveryAux] at h
      split at h
      · rw [e] at h
        simp only [List.cons_append, List.length_cons, List.take_succ_cons, List.map_cons,
          List.cons.injEq, hg] at h
        exact absurd h.1.symm hc
      · simp only [List.length_cons, List.take_succ_cons, List.map_cons, List.cons.injEq] at h
        simp only [List.length_cons, List.take_succ_cons, List.map_cons, List.cons.injEq]
        exact ⟨h.1, ih rest hmem' h.2⟩

theorem head_of_rewritten (z : Text) (c : Nat) (hc : c ≠ 104)
    (h : (rewriteEvery httpLen (bytes "http") z).head? = some c) : z.head? = some c := by
  have h1 := prefix_of_rewritten id rfl [c] z (by simpa using hc.symm) (by
    cases hy : rewriteEvery httpLen (bytes "http") z with
    | nil => rw [hy] at h; simp at h
    | cons y ys => rw [hy] at h; simp at h; simp [h])
  cases z with
  | nil => simp at h1
  | cons b rest => simp at h1; simp [h1]

theorem sLen_rewritten (z : Text) (h : sLen z = 0) :
    sLen (rewriteEvery httpLen (bytes "http") z) = 0 := by
  have e : bytes "http" = [104, 116, 116, 112] := by decide
  cases z with
  | nil => rfl
  | cons b rest =>
    unfold rewriteEvery
    simp only [rewriteEveryAux]
    split
    · rw [e]
      simp [sLen]
    · simp only [sLen] at h ⊢
      split at h
      · omega
      · rename_i hb
        split at h
        · omega
        · rename_i hl
          simp only [hb, if_false]
          split
          · rename_i hl2
            exfalso
            apply hl
            refine ⟨hl2.1, ?_⟩
            exact head_of_rewritten rest 0xBF (by omega) hl2.2
          · rfl

theorem httpLen_cons_rewritten (b : Nat) (rest : Text) (h : httpLen (b :: rest) = none) :
    httpLen (b :: rewriteEvery httpLen (bytes "http") rest) = none := by
  have e : bytes "http" = [104, 116, 116, 112] := by decide
  unfold httpLen at h ⊢
  rw [e] at h ⊢
  split at h
  · cases h
  · rename_i hne
    rw [if_neg]
    intro hh
    apply hne
    simp only [List.take_succ_cons, List.map_cons, List.cons.injEq] at hh ⊢
    refine ⟨hh.1, ?_⟩
    exact prefix_of_rewritten toLowerByte (by decide) [116, 116, 112] rest (by decide) hh.2

theorem noFurtherS_drop : ∀ (k : Nat) (z : Text), noFurtherS z = true →
    noFurtherS (z.drop k) = true := by
  intro k
  induction k with
  | zero => intro z h; simpa using h
  | succ k ih =>
    intro z h
    cases z with
    | nil => simpa using h
    | cons b rest =>
      simp only [noFurtherS, Bool.and_eq_true] at h
      simpa using ih rest h.2

theorem rewriteEvery_http_idem : ∀ (m : Nat) (x : Text), x.length ≤ m →
    noFurtherS x = true →
    rewriteEvery httpLen (bytes "http") (rewriteEvery httpLen (bytes "http") x) =
      rewriteEvery httpLen (bytes "http") x := by
  have e : bytes "http" = [104, 116, 116, 112] := by decide
  intro m
  induction m with
  | zero =>
    intro x hx _
    have : x = [] := List.length_eq_zero.mp (by omega)
    subst this
    rfl
  | succ m ih =>
    intro x hx hs
    cases x with
    | nil => rfl
    | cons b rest =>
      simp only [noFurtherS, Bool.and_eq_true] at hs
      obtain ⟨hs1, hs2⟩ := hs
      simp only [List.length_cons] at hx
      cases hf : httpLen (b :: rest) with
      | none =>
        have hx1 : rewriteEvery httpLen (bytes "http") (b :: rest) =
            b :: rewriteEvery httpLen (bytes "http") rest := by
          simp only [rewriteEvery, rewriteEveryAux, hf]
        have hx2 : rewriteEvery httpLen (bytes "http")
              (b :: rewriteEvery httpLen (bytes "http") rest) =
            b :: rewriteEvery httpLen (bytes "http") (rewriteEvery httpLen (bytes "http") rest) := by
          have := httpLen_cons_rewritten b rest hf
          simp only [rewriteEvery, rewriteEveryAux] at this ⊢
          simp only [this]
        rw [hx1, hx2, ih rest (by omega) hs2]
      | some l =>
        obtain ⟨hl1, _⟩ := httpLen_spec _ _ hf
        rw [hf] at hs1
        simp only [beq_iff_eq] at hs1
        have hx1 : rewriteEvery httpLen (bytes "http") (b :: rest) =
            bytes "http" ++ rewriteEvery httpLen (bytes "http") ((b :: rest).drop l) := by
          simp only [rewriteEvery, rewriteEveryAux, hf]
          rw [rewriteEveryAux_skip]
          obtain ⟨l', rfl⟩ : ∃ l', l = l' + 1 := ⟨l - 1, by omega⟩
          simp
        have hz := sLen_rewritten _ hs1
        have hzs : noFurtherS ((b :: rest).drop l) = true := by
          apply noFurtherS_drop
          simp only [noFurtherS, Bool.and_eq_true, hf, hs1, hs2, beq_self_eq_true, and_self]
        have hlen : ((b :: rest).drop l).length ≤ m := by
          simp only [List.length_drop, List.length_cons]
          omega
        have hx2 : ∀ y : Text, sLen y = 0 → rewriteEvery httpLen (bytes "http") (bytes "http" ++ y) =
            bytes "http" ++ rewriteEvery httpLen (bytes "http") y := by
          intro y hy
          rw [e]
          simp only [rewriteEvery, List.cons_append, List.nil_append, rewriteEveryAux, httpLen, e,
            List.take_succ_cons, List.take_zero, List.map_cons, List.map_nil, List.drop_succ_cons,
            List.drop_zero, hy]
          simp [toLowerByte, rewriteEveryAux, hy]
        rw [hx1, hx2 _ hz, ih _ hlen hzs]

/-! ## The scan for HTML tags -/

theorem isTagSpan_iff (text : Text) (i j : Nat) :
    isTagSpan text i j = true ↔
      text[i]? = some 60 ∧ text[j]? = some 62 ∧ i < j ∧
      (∀ k : Nat, i < k → k < j → text[k]? ≠ some 60 ∧ text[k]? ≠ some 62) ∧
      (text.drop (i + 1)).take 4 ≠ bytes "http" ∧ text[j + 1]? ≠ some 62 := by
  have e : bytes "http" = [104, 116, 116, 112] := by decide
  have hp : HasPrefix (text.drop (i + 1)) (bytes "http") = true ↔
      (text.drop (i + 1)).take 4 = bytes "http" := by
    unfold HasPrefix
    rw [List.isPrefixOf_iff_prefix, List.prefix_iff_eq_take, e]
    simp only [List.length_cons, List.length_nil]
    exact eq_comm
  unfold isTagSpan
  simp only [Bool.and_eq_true, beq_iff_eq, decide_eq_true_eq, List.all_eq_true, List.mem_range,
    Bool.or_eq_true, bne_iff_ne, ne_eq, Bool.not_eq_true', ← Bool.not_eq_true, hp]
  constructor
  · rintro ⟨⟨⟨⟨⟨h1, h2⟩, h3⟩, h4⟩, h5⟩, h6⟩
    refine ⟨h1, h2, h3, fun k hik hkj => ?_, h5, h6⟩
    rcases h4 k hkj with h | h
    · omega
    · exact h
  · rintro ⟨h1, h2, h3, h4, h5, h6⟩
    refine ⟨⟨⟨⟨⟨h1, h2⟩, h3⟩, fun k hkj => ?_⟩, h5⟩, h6⟩
    by_cases hk : k ≤ i
    · exact Or.inl hk
    · exact Or.inr (h4 k (by omega) hkj)

theorem indexOfLt_none : ∀ (l : Text), indexOfLt l = none → ∀ k : Nat, l[k]? ≠ some 60 := by
  intro l
  induction l with
  | nil => intro _ k; simp
  | cons b rest ih =>
    intro h k
    unfold indexOfLt at h
    split at h
    · cases h
    · rename_i hb
      simp only [Option.map_eq_none'] at h
      cases k with
      | zero => simpa using hb
      | succ k => simpa using ih h k

theorem indexOfLt_some : ∀ (l : Text) (i0 : Nat), indexOfLt l = some i0 →
    l[i0]? = some 60 ∧ ∀ k : Nat, k < i0 → l[k]? ≠ some 60 := by
  intro l
  induction l with
  | nil => intro i0 h; simp [indexOfLt] at h
  | cons b rest ih =>
    intro i0 h
    unfold indexOfLt at h
    split at h
    · rename_i hb
      simp only [Option.some.injEq] at h
      subst h
      exact ⟨by simp [hb], fun k hk => by omega⟩
    · rename_i hb
      simp only [Option.map_eq_some'] at h
      obtain ⟨i1, hi1, rfl⟩ := h
      obtain ⟨h1, h2⟩ := ih i1 hi1
      refine ⟨by simpa using h1, fun k hk => ?_⟩
      cases k with
      | zero => simpa using hb
      | succ k => simpa using h2 k (by omega)

theorem skipContents_spec : ∀ (l : Text) (j0 : Nat), ∃ d, skipContents l j0 = j0 + d ∧
    d ≤ l.length ∧ (∀ k : Nat, k < d → l[k]? ≠ some 60 ∧ l[k]? ≠ some 62) ∧
    (d < l.length → l[d]? = some 60 ∨ l[d]? = some 62) := by
  intro l
  induction l with
  | nil => intro j0; exact ⟨0, rfl, le_refl _, fun k hk => by omega, fun h => by simp at h⟩
  | cons b rest ih =>
    intro j0
    unfold skipContents
    split
    · rename_i hb
      obtain ⟨d, h1, h2, h3, h4⟩ := ih (j0 + 1)
      refine ⟨d + 1, by rw [h1]; omega, by simpa using h2, fun k hk => ?_, fun hd => ?_⟩
      · cases k with
        | zero => simpa using hb
        | succ k => simpa using h3 k (by omega)
      · simpa using h4 (by simpa using hd)
    · rename_i hb
      refine ⟨0, rfl, Nat.zero_le _, fun k hk => by omega, fun _ => ?_⟩
      simp only [List.getElem?_cons_zero, Option.some.injEq]
      by_contra hcon
      exact hb ⟨fun h => hcon (Or.inl h), fun h => hcon (Or.inr h)⟩

theorem skip_props (text : Text) (i : Nat) (hlen : text.length > i + 1) :
    i < skipContents (text.drop (i + 1)) (i + 1) ∧
    skipContents (text.drop (i + 1)) (i + 1) ≤ text.length ∧
    (∀ k : Nat, i < k → k < skipContents (text.drop (i + 1)) (i + 1) →
      text[k]? ≠ some 60 ∧ text[k]? ≠ some 62) ∧
    (skipContents (text.drop (i + 1)) (i + 1) < text.length →
      text[skipContents (text.drop (i + 1)) (i + 1)]? = some 60 ∨
      text[skipContents (text.drop (i + 1)) (i + 1)]? = some 62) := by
  obtain ⟨d, h1, h2, h3, h4⟩ := skipContents_spec (text.drop (i + 1)) (i + 1)
  rw [h1]
  simp only [List.length_drop] at h2 h4
  refine ⟨by omega, by omega, fun k hik hkd => ?_, fun hd => ?_⟩
  · have := h3 (k - (i + 1)) (by omega)
    rw [List.getElem?_drop] at this
    have e : i + 1 + (k - (i + 1)) = k := by omega
    rwa [e] at this
  · have := h4 (by omega)
    rwa [List.getElem?_drop] at this

theorem skip_unique (text : Text) (i j : Nat) (hij : i < j) (hj : text[j]? = some 62)
    (hno : ∀ k : Nat, i < k → k < j → text[k]? ≠ some 60 ∧ text[k]? ≠ some 62) :
    text.length > i + 1 ∧ skipContents (text.drop (i + 1)) (i + 1) = j := by
  have hjl : j < text.length := by
    by_contra hcon
    rw [List.getElem?_eq_none (by omega)] at hj
    cases hj
  have hlen : text.length > i + 1 := by omega
  obtain ⟨h1, h2, h3, h4⟩ := skip_props text i hlen
  refine ⟨hlen, ?_⟩
  rcases Nat.lt_trichotomy (skipContents (text.drop (i + 1)) (i + 1)) j with h | h | h
  · exfalso
    have h5 := h4 (by omega)
    have h6 := hno _ h1 h
    rcases h5 with h5 | h5
    · exact h6.1 h5
    · exact h6.2 h5
  · exact h
  · exfalso
    exact (h3 j hij h).2 hj

theorem tag_guard (text : Text) (i : Nat)
    (hg : text.length > i + 1 + 4 ∧
      goSlice text ((i + 1 : Nat) : Int) (((i + 1 : Nat) : Int) + 4) = some (bytes "http")) :
    ∀ j, isTagSpan text i j = false := by
  intro j
  obtain ⟨h1, h2⟩ := hg
  have e : (((i + 1 : Nat) : Int) + 4) = ((i + 1 + 4 : Nat) : Int) := by push_cast; ring
  rw [e, goSlice_of_le text (i + 1) (i + 1 + 4) (by omega) (by omega)] at h2
  simp only [Option.some.injEq, Nat.add_sub_cancel_left] at h2
  rw [Bool.eq_false_iff]
  intro h
  rw [isTagSpan_iff] at h
  exact h.2.2.2.2.1 h2

theorem tag_found (text : Text) (i j : Nat) (hi : text[i]? = some 60)
    (hng : ¬ (text.length > i + 1 + 4 ∧
      goSlice text ((i + 1 : Nat) : Int) (((i + 1 : Nat) : Int) + 4) = some (bytes "http")))
    (hj : j = if text.length > i + 1 then skipContents (text.drop (i + 1)) (i + 1) else i)
    (hc : text.length > j ∧ text[j]? = some 62 ∧ (text.length ≤ j + 1 ∨ text[j + 1]? ≠ some 62)) :
    i < j ∧ j < text.length ∧ isTagSpan text i j = true ∧
    (∀ j', isTagSpan text i j' = true → j' = j) ∧
    (∀ k : Nat, i < k → k ≤ j → text[k]? ≠ some 60) := by
  obtain ⟨hc1, hc2, hc3⟩ := hc
  have hlen : text.length > i + 1 := by
    by_contra hcon
    rw [if_neg hcon] at hj
    subst hj
    rw [hi] at hc2
    cases hc2
  rw [if_pos hlen] at hj
  obtain ⟨h1, h2, h3, h4⟩ := skip_props text i hlen
  rw [← hj] at h1 h2 h3 h4
  have hnext : text[j + 1]? ≠ some 62 := by
    rcases hc3 with h | h
    · rw [List.getElem?_eq_none h]; simp
    · exact h
  have hhttp : (text.drop (i + 1)).take 4 ≠ bytes "http" := by
    intro hcon
    have e : bytes "http" = [104, 116, 116, 112] := by decide
    rw [e] at hcon
    have hk : ∀ k : Nat, k < 4 → text[i + 1 + k]? ≠ some 62 := by
      intro k hk
      have h5 : ((text.drop (i + 1)).take 4)[k]? = text[i + 1 + k]? := by
        rw [List.getElem?_take_of_lt hk, List.getElem?_drop]
      rw [← h5, hcon]
      rcases k with _ | _ | _ | _ | k
      · simp
      · simp
      · simp
      · simp
      · omega
    have hl4 : ((text.drop (i + 1)).take 4).length = 4 := by rw [hcon]; rfl
    simp only [List.length_take, List.length_drop] at hl4
    have hj5 : i + 5 ≤ j := by
      by_contra hlt
      exact hk (j - (i + 1)) (by omega) (by
        have e2 : i + 1 + (j - (i + 1)) = j := by omega
        rw [e2]; exact hc2)
    apply hng
    refine ⟨by omega, ?_⟩
    have e3 : (((i + 1 : Nat) : Int) + 4) = ((i + 1 + 4 : Nat) : Int) := by push_cast; ring
    rw [e3, goSlice_of_le text (i + 1) (i + 1 + 4) (by omega) (by omega)]
    simp only [Nat.add_sub_cancel_left, hcon, e]
  refine ⟨h1, hc1, ?_, fun j' hj' => ?_, fun k hik hkj => ?_⟩
  · rw [isTagSpan_iff]
    exact ⟨hi, hc2, h1, h3, hhttp, hnext⟩
  · rw [isTagSpan_iff] at hj'
    obtain ⟨_, g2, g3, g4, _, _⟩ := hj'
    have := (skip_unique text i j' g3 g2 g4).2
    rw [← this, hj]
  · rcases Nat.lt_or_ge k j with h | h
    · exact (h3 k hik h).1
    · have : k = j := by omega
      subst this
      rw [hc2]
      simp

theorem tag_missing (text : Text) (i j : Nat)
    (hj : j = if text.length > i + 1 then skipContents (text.drop (i + 1)) (i + 1) else i)
    (hnc : ¬ (text.length > j ∧ text[j]? = some 62 ∧
      (text.length ≤ j + 1 ∨ text[j + 1]? ≠ some 62))) :
    ∀ j', isTagSpan text i j' = false := by
  intro j'
  rw [Bool.eq_false_iff]
  intro h
  rw [isTagSpan_iff] at h
  obtain ⟨_, g2, g3, g4, _, g6⟩ := h
  obtain ⟨hlen, hs⟩ := skip_unique text i j' g3 g2 g4
  rw [if_pos hlen, hs] at hj
  subst hj
  apply hnc
  refine ⟨?_, g2, Or.inr g6⟩
  by_contra hcon
  rw [List.getElem?_eq_none (by omega)] at g2
  cases g2

theorem validMatches_mono (len : Nat) (ms : List (List Int)) (p q : Int) (hqp : q ≤ p)
    (h : validMatches len p ms = true) : validMatches len q ms = true := by
  cases ms with
  | nil => rfl
  | cons m ms =>
    unfold validMatches at h ⊢
    split at h
    · rename_i s e hs he
      simp only [Bool.and_eq_true, decide_eq_true_eq] at h ⊢
      exact ⟨⟨⟨by omega, h.1.1.2⟩, h.1.2⟩, h.2⟩
    · cases h

theorem removeHTMLTagsLoop_spec (text : Text) :
    ∀ (fuel next : Nat) (acc : List (List Int)), next ≤ text.length →
      text.length - next < fuel →
      ∃ res, removeHTMLTagsLoop text fuel next acc = some (acc ++ res) ∧
        (∀ m ∈ res, ∃ i j : Nat, m = [(i : Int), ((j + 1 : Nat) : Int)] ∧ next ≤ i ∧
          isTagSpan text i j = true) ∧
        (∀ i j : Nat, next ≤ i → isTagSpan text i j = true →
          [(i : Int), ((j + 1 : Nat) : Int)] ∈ res) ∧
        validMatches text.length (next : Int) res = true := by
  intro fuel
  induction fuel with
  | zero => intro next acc _ h; omega
  | succ fuel ih =>
    intro next acc hnext hfuel
    unfold removeHTMLTagsLoop
    rw [goSliceFrom_of_le text next hnext]
    simp only
    cases hidx : indexOfLt (text.drop next) with
    | none =>
      refine ⟨[], by simp, fun m hm => by simp at hm, fun i j hi hspan => ?_, rfl⟩
      exfalso
      rw [isTagSpan_iff] at hspan
      have := indexOfLt_none _ hidx (i - next)
      rw [List.getElem?_drop] at this
      have e : next + (i - next) = i := by omega
      rw [e] at this
      exact this hspan.1
    | some i0 =>
      obtain ⟨h60, hbefore⟩ := indexOfLt_some _ _ hidx
      rw [List.getElem?_drop] at h60
      have hilt : next + i0 < text.length := by
        by_contra hcon
        rw [List.getElem?_eq_none (by omega)] at h60
        cases h60
      have hfirst : ∀ i j : Nat, next ≤ i → isTagSpan text i j = true → next + i0 ≤ i := by
        intro i j hi hspan
        rw [isTagSpan_iff] at hspan
        by_contra hcon
        have := hbefore (i - next) (by omega)
        rw [List.getElem?_drop] at this
        have e : next + (i - next) = i := by omega
        rw [e] at this
        exact this hspan.1
      simp only
      generalize hj : (if text.length > next + i0 + 1 then
        skipContents (text.drop (next + i0 + 1)) (next + i0 + 1) else next + i0) = j
      have skipCase : (∀ j', isTagSpan text (next + i0) j' = false) →
          ∃ res, removeHTMLTagsLoop text fuel (next + i0 + 1) acc = some (acc ++ res) ∧
            (∀ m ∈ res, ∃ i j : Nat, m = [(i : Int), ((j + 1 : Nat) : Int)] ∧ next ≤ i ∧
              isTagSpan text i j = true) ∧
            (∀ i j : Nat, next ≤ i → isTagSpan text i j = true →
              [(i : Int), ((j + 1 : Nat) : Int)] ∈ res) ∧
            validMatches text.length (next : Int) res = true := by
        intro hno
        obtain ⟨res, h1, h2, h3, h4⟩ := ih (next + i0 + 1) acc (by omega) (by omega)
        refine ⟨res, h1, fun m hm => ?_, fun i j hi hspan => ?_, ?_⟩
        · obtain ⟨i, j, e, hle, hs⟩ := h2 m hm
          exact ⟨i, j, e, by omega, hs⟩
        · have hge := hfirst i j hi hspan
          have hne : i ≠ next + i0 := by
            intro e
            subst e
            rw [hno j] at hspan
            cases hspan
          exact h3 i j (by omega) hspan
        · exact validMatches_mono _ _ _ _ (by push_cast; omega) h4
      by_cases hg : text.length > next + i0 + 1 + 4 ∧
          goSlice text ((next + i0 + 1 : Nat) : Int) (((next + i0 + 1 : Nat) : Int) + 4) =
            some (bytes "http")
      · rw [if_pos hg]
        exact skipCase (tag_guard text (next + i0) hg)
      · rw [if_neg hg]
        by_cases hc : text.length > j ∧ text[j]? = some 62 ∧
            (text.length ≤ j + 1 ∨ text[j + 1]? ≠ some 62)
        · rw [if_pos hc]
          obtain ⟨f1, f2, f3, f4, f5⟩ := tag_found text (next + i0) j h60 hg hj.symm hc
          obtain ⟨res, h1, h2, h3, h4⟩ := ih (j + 1) (acc ++ [[((next + i0 : Nat) : Int),
            ((j + 1 : Nat) : Int)]]) (by omega) (by omega)
          refine ⟨[((next + i0 : Nat) : Int), ((j + 1 : Nat) : Int)] :: res, ?_, fun m hm => ?_,
            fun i' j' hi hspan => ?_, ?_⟩
          · rw [h1]
            simp
          · rcases List.mem_cons.mp hm with rfl | hm
            · exact ⟨next + i0, j, rfl, by omega, f3⟩
            · obtain ⟨i', j', e, hle, hs⟩ := h2 m hm
              exact ⟨i', j', e, by omega, hs⟩
          · have hge := hfirst i' j' hi hspan
            by_cases he : i' = next + i0
            · subst he
              have := f4 j' hspan
              subst this
              exact List.mem_cons_self _ _
            · apply List.mem_cons_of_mem
              apply h3 i' j' _ hspan
              by_contra hcon
              have h60' := (isTagSpan_iff text i' j').mp hspan
              exact f5 i' (by omega) (by omega) h60'.1
          · unfold validMatches
            simp only [List.getElem?_cons_zero, List.getElem?_cons_succ, Bool.and_eq_true,
              decide_eq_true_eq]
            exact ⟨⟨⟨by push_cast; omega, by push_cast; omega⟩, by push_cast; omega⟩, h4⟩
        · rw [if_neg hc]
          exact skipCase (tag_missing text (next + i0) j hj.symm hc)

theorem collectSubmatches_of_pairs (text : Text) :
    ∀ (ms : List (List Int)) (acc : List Text), (∀ m ∈ ms, m.drop 2 = []) →
      collectSubmatches text ms acc = some acc := by
  intro ms
  induction ms with
  | nil => intro acc _; rfl
  | cons m ms ih =>
    intro acc h
    simp only [collectSubmatches, h m (List.mem_cons_self _ _), collectSubmatchesOf]
    exact ih acc (fun m' hm' => h m' (List.mem_cons_of_mem _ hm'))

theorem removeHTMLTags_of_loop (n : NormalizationData) (ms : List (List Int))
    (hal : n.IndexMap.length = n.NormalizedText.length)
    (hloop : removeHTMLTagsLoop n.NormalizedText (n.NormalizedText.length + 1) 0 [] = some ms)
    (hpairs : ∀ m ∈ ms, m.drop 2 = [])
    (hv : validMatches n.NormalizedText.length 0 ms = true) :
    ∃ n', removeHTMLTags n = some n' ∧
      n'.NormalizedText = removeCoveredFrom (ms.map spanOf) 0 n.NormalizedText := by
  unfold removeHTMLTags
  rw [hloop]
  simp only
  cases ms with
  | nil =>
    refine ⟨n, rfl, ?_⟩
    rw [removeCoveredFrom_none]
    intro k _ _
    rfl
  | cons m ms =>
    have hT := splice_nil_eq_removeCovered n.NormalizedText n.NormalizedText.length rfl (m :: ms) 0
      hv (Nat.zero_le _)
    rw [List.drop_zero] at hT
    have hrv := replaceMatches_valid n (m :: ms) (List.replicate (m :: ms).length []) hal hv
      (by simp)
    simp only [List.isEmpty_cons, Bool.false_eq_true, if_false,
      replaceMatchesWithStringAndUpdateIndexMap, List.length_cons, Nat.add_one_ne_zero,
      collectSubmatches_of_pairs n.NormalizedText (m :: ms) [] hpairs]
    simp only [List.length_cons] at hrv
    rw [hrv]
    refine ⟨_, rfl, ?_⟩
    simp only
    simp only [List.length_cons] at hT
    exact hT

/-! ## No occurrence is left after the rewrite -/

theorem clash_spec (g : Nat → Nat) :
    ∀ (block s : Text), clash g block s = true →
      ∀ T : Text, ((block ++ T).take s.length).map g ≠ s := by
  intro block
  induction block with
  | nil => intro s h; simp [clash] at h
  | cons b block ih =>
    intro s h T
    cases s with
    | nil => simp [clash] at h
    | cons c s =>
      simp only [clash, Bool.or_eq_true, bne_iff_ne, ne_eq] at h
      simp only [List.cons_append, List.length_cons, List.take_succ_cons, List.map_cons, ne_eq,
        List.cons.injEq, not_and]
      intro hbc
      rcases h with h | h
      · exact absurd hbc h
      · exact ih s h T

theorem prefix_of_rewriteEvery (g : Nat → Nat) (f : Text → Option Nat) (block : Text) :
    ∀ (pat z : Text), blockFree g block pat = true →
      ((rewriteEvery f block z).take pat.length).map g = pat →
      (z.take pat.length).map g = pat := by
  intro pat
  induction pat with
  | nil => intro z _ _; simp
  | cons c pat ih =>
    intro z hfree h
    simp only [blockFree, Bool.and_eq_true] at hfree
    cases z with
    | nil => simp [rewriteEvery, rewriteEveryAux] at h
    | cons b rest =>
      unfold rewriteEvery at h
      simp only [rewriteEveryAux] at h
      split at h
      · exact absurd h (clash_spec g block (c :: pat) hfree.1 _)
      · simp only [List.length_cons, List.take_succ_cons, List.map_cons, List.cons.injEq] at h
        simp only [List.length_cons, List.take_succ_cons, List.map_cons, List.cons.injEq]
        exact ⟨h.1, ih rest hfree.2 h.2⟩

theorem hasOccurrence_append (f : Text → Option Nat) (Y : Text) :
    ∀ (B : Text), (∀ i, i < B.length → f (B.drop i ++ Y) = none) →
      hasOccurrence f Y = false → hasOccurrence f (B ++ Y) = false := by
  intro B
  induction B with
  | nil => intro _ h; simpa using h
  | cons b B ih =>
    intro h hY
    have h0 := h 0 (by simp)
    simp only [List.drop_zero, List.cons_append] at h0
    have h1 := ih (fun i hi => by simpa using h (i + 1) (by simpa using hi)) hY
    show ((f (b :: (B ++ Y))).isSome || hasOccurrence f (B ++ Y)) = false
    rw [h0, h1]
    rfl

theorem hasOccurrence_false (f : Text → Option Nat) (hnil : f [] = none) :
    ∀ (x : Text), hasOccurrence f x = false → ∀ i, f (x.drop i) = none := by
  intro x
  induction x with
  | nil => intro _ i; simpa using hnil
  | cons b rest ih =>
    intro h i
    simp only [hasOccurrence, Bool.or_eq_false_iff] at h
    cases i with
    | zero =>
      simp only [List.drop_zero]
      cases hf : f (b :: rest) with
      | none => rfl
      | some l => rw [hf] at h; simp at h
    | succ i => simpa using ih h.2 i

theorem noOccurrence_rewritten (g : Nat → Nat) (fa fb : Text → Option Nat) (p0 : Nat)
    (pat block : Text)
    (ha : ∀ z, fa z ≠ none ↔ (z.take (p0 :: pat).length).map g = p0 :: pat)
    (hfree : blockFree g block pat = true)
    (hblock : ∀ i, i < block.length → clash g (block.drop i) (p0 :: pat) = true)
    (hb : ∀ z l, fb z = some l → 1 ≤ l) :
    ∀ (m : Nat) (x : Text), x.length ≤ m →
      (∀ i, fb (x.drop i) = none → fa (x.drop i) = none) →
      hasOccurrence fa (rewriteEvery fb block x) = false := by
  intro m
  induction m with
  | zero =>
    intro x hx _
    have : x = [] := List.length_eq_zero.mp (by omega)
    subst this
    rfl
  | succ m ih =>
    intro x hx hyp
    cases x with
    | nil => rfl
    | cons b rest =>
      simp only [List.length_cons] at hx
      cases hf : fb (b :: rest) with
      | none =>
        have hx1 : rewriteEvery fb block (b :: rest) = b :: rewriteEvery fb block rest := by
          simp only [rewriteEvery, rewriteEveryAux, hf]
        have hrest := ih rest (by omega) (fun i hi => by
          have := hyp (i + 1) (by simpa using hi)
          simpa using this)
        have hnone : fa (b :: rewriteEvery fb block rest) = none := by
          by_contra hcon
          replace hcon := (ha _).mp hcon
          simp only [List.length_cons, List.take_succ_cons, List.map_cons, List.cons.injEq] at hcon
          have h2 := prefix_of_rewriteEvery g fb block pat rest hfree hcon.2
          have h3 : fa (b :: rest) ≠ none := by
            rw [ha]
            simp only [List.length_cons, List.take_succ_cons, List.map_cons, List.cons.injEq]
            exact ⟨hcon.1, h2⟩
          exact h3 (by simpa using hyp 0 (by simpa using hf))
        rw [hx1]
        simp only [hasOccurrence, hnone, Option.isSome_none, Bool.false_or]
        exact hrest
      | some l =>
        have hl := hb _ _ hf
        have hx1 : rewriteEvery fb block (b :: rest) =
            block ++ rewriteEvery fb block ((b :: rest).drop l) := by
          simp only [rewriteEvery, rewriteEveryAux, hf]
          rw [rewriteEveryAux_skip]
          obtain ⟨l', rfl⟩ : ∃ l', l = l' + 1 := ⟨l - 1, by omega⟩
          simp
        rw [hx1]
        apply hasOccurrence_append
        · intro i hi
          by_contra hcon
          exact clash_spec g _ _ (hblock i hi) _ ((ha _).mp hcon)
        · apply ih
          · simp only [List.length_drop, List.length_cons]
            omega
          · intro i hi
            have := hyp (l + i) (by rw [← List.drop_drop]; exact hi)
            rw [← List.drop_drop] at this
            exact this

theorem wildcardLen_window (z : Text) :
    wildcardLen z ≠ none ↔
      (z.take (60 :: [60, 109, 97, 116, 99, 104, 61, 46, 43, 62, 62]).length).map toLowerByte =
        60 :: [60, 109, 97, 116, 99, 104, 61, 46, 43, 62, 62] := by
  have e : bytes "<<match=.+>>" = [60, 60, 109, 97, 116, 99, 104, 61, 46, 43, 62, 62] := by
    decide
  unfold wildcardLen
  rw [e]
  simp only [List.length_cons, List.length_nil, Nat.reduceAdd]
  split <;> simp_all

theorem optionalWildcardLen_window (z : Text) :
    optionalWildcardLen z ≠ none ↔
      (z.take (60 :: [60, 109, 97, 116, 99, 104, 61, 46, 42, 62, 62]).length).map id =
        60 :: [60, 109, 97, 116, 99, 104, 61, 46, 42, 62, 62] := by
  have e : bytes "<<match=.*>>" = [60, 60, 109, 97, 116, 99, 104, 61, 46, 42, 62, 62] := by
    decide
  unfold optionalWildcardLen
  rw [e]
  simp only [List.length_cons, List.length_nil, Nat.reduceAdd, List.map_id]
  split <;> simp_all

theorem wildcard_none_left (x : Text) :
    hasOccurrence wildcardLen (rewriteEvery wildcardLen (bytes "<<.\x7b1,144\x7d>>") x) = false :=
  noOccurrence_rewritten toLowerByte wildcardLen wildcardLen 60 _ _ wildcardLen_window
    (by decide) (by decide) (fun z l h => (wildcardLen_spec z l h).1) x.length x (le_refl _)
    (fun _ h => h)

theorem optionalWildcard_none_left (x : Text) :
    hasOccurrence optionalWildcardLen
      (rewriteEvery optionalWildcardLen (bytes "<<.\x7b0,144\x7d>>") x) = false :=
  noOccurrence_rewritten id optionalWildcardLen optionalWildcardLen 60 _ _
    optionalWildcardLen_window (by decide) (by decide)
    (fun z l h => (optionalWildcardLen_spec z l h).1) x.length x (le_refl _) (fun _ h => h)

theorem wildcard_stays_absent (x : Text) (h : hasOccurrence wildcardLen x = false) :
    hasOccurrence wildcardLen
      (rewriteEvery optionalWildcardLen (bytes "<<.\x7b0,144\x7d>>") x) = false :=
  noOccurrence_rewritten toLowerByte wildcardLen optionalWildcardLen 60 _ _ wildcardLen_window
    (by decide) (by decide) (fun z l h => (optionalWildcardLen_spec z l h).1) x.length x
    (le_refl _) (fun i _ => hasOccurrence_false wildcardLen (by decide) x h i)

/-! ## One iteration of the tag scan -/

theorem removeHTMLTagsLoop_step (text : Text) (fuel next : Nat) (acc : List (List Int)) :
    removeHTMLTagsLoop text (fuel + 1) next acc =
      (removeHTMLTagsStep text next).bind fun r =>
        match r with
        | none => some acc
        | some (next', found) => removeHTMLTagsLoop text fuel next' (acc ++ found) := by
  conv_lhs => rw [removeHTMLTagsLoop]
  unfold removeHTMLTagsStep
  cases goSliceFrom text (next : Int) with
  | none => rfl
  | some tail =>
    simp only
    cases indexOfLt tail with
    | none => rfl
    | some i0 =>
      simp only
      generalize (if text.length > next + i0 + 1 then
        skipContents (text.drop (next + i0 + 1)) (next + i0 + 1) else next + i0) = j
      split
      · simp
      · split
        · simp
        · simp

theorem removeHTMLTagsStep_advances (text : Text) (next : Nat) (hnext : next ≤ text.length) :
    ∃ r, removeHTMLTagsStep text next = some r ∧
      ∀ next' found, r = some (next', found) → next < next' ∧ next' ≤ text.length := by
  unfold removeHTMLTagsStep
  rw [goSliceFrom_of_le text next hnext]
  simp only
  cases hidx : indexOfLt (text.drop next) with
  | none => exact ⟨none, rfl, fun _ _ h => by cases h⟩
  | some i0 =>
    obtain ⟨h60, _⟩ := indexOfLt_some _ _ hidx
    rw [List.getElem?_drop] at h60
    have hilt : next + i0 < text.length := by
      by_contra hcon
      rw [List.getElem?_eq_none (by omega)] at h60
      cases h60
    simp only
    have hge : next + i0 ≤ (if text.length > next + i0 + 1 then
        skipContents (text.drop (next + i0 + 1)) (next + i0 + 1) else next + i0) := by
      split
      · obtain ⟨d, hd, _⟩ := skipContents_spec (text.drop (next + i0 + 1)) (next + i0 + 1)
        rw [hd]
        omega
      · exact le_refl _
    generalize (if text.length > next + i0 + 1 then
      skipContents (text.drop (next + i0 + 1)) (next + i0 + 1) else next + i0) = j at hge
    split
    · refine ⟨_, rfl, fun next' found h => ?_⟩
      simp only [Option.some.injEq, Prod.mk.injEq] at h
      omega
    · split
      · rename_i hc
        refine ⟨_, rfl, fun next' found h => ?_⟩
        simp only [Option.some.injEq, Prod.mk.injEq] at h
        obtain ⟨hc1, _, _⟩ := hc
        omega
      · refine ⟨_, rfl, fun next' found h => ?_⟩
        simp only [Option.some.injEq, Prod.mk.injEq] at h
        omega

/-! ## The order of the offsets -/

theorem rangeRunesAux_ascii :
    ∀ (r : Text) (pos : Nat), isAscii r = true →
      (rangeRunesAux 0 pos r).map Prod.fst = List.range' pos r.length := by
  intro r
  induction r with
  | nil => intro pos _; rfl
  | cons b rest ih =>
    intro pos h
    simp only [isAscii, List.all_cons, Bool.and_eq_true, decide_eq_true_eq] at h
    simp only [rangeRunesAux, decodeRune_ascii b rest h.1, Nat.sub_self, List.map_cons,
      List.length_cons, List.range'_succ]
    rw [ih (pos + 1) (by simpa [isAscii] using h.2)]

theorem fill_eq_foldl (idx : List Int) (f l : Int) (len : Nat) (vf vl : Int)
    (hf : goIndex idx f = some vf) (hl : goIndex idx (l - 1) = some vl) :
    ∀ (cs : List Nat) (acc : List Int),
      fillReplacementIndex idx f l len cs acc =
        some (cs.foldl (fun a c => a.set c (if c = 0 then vf else if c = len - 1 then vl else -1))
          acc) := by
  intro cs
  induction cs with
  | nil => intro acc; rfl
  | cons c cs ih =>
    intro acc
    unfold fillReplacementIndex
    by_cases h0 : c = 0
    · simp only [h0, if_true, hf, List.foldl_cons]
      exact ih _
    · by_cases h1 : c = len - 1
      · rw [if_neg h0, if_pos h1, hl]
        simp only [List.foldl_cons, if_neg h0, if_pos h1]
        exact ih _
      · simp only [h0, if_false, h1, List.foldl_cons]
        exact ih _

theorem foldl_set_range (g : Nat → Int) :
    ∀ (k : Nat) (acc : List Int), k ≤ acc.length →
      (List.range k).foldl (fun a c => a.set c (g c)) acc = (List.range k).map g ++ acc.drop k := by
  intro k
  induction k with
  | zero => intro acc _; simp
  | succ k ih =>
    intro acc hk
    rw [List.range_succ, List.foldl_append, ih acc (by omega)]
    simp only [List.foldl_cons, List.foldl_nil, List.map_append, List.map_cons, List.map_nil]
    rw [List.set_append_right _ _ (by simp)]
    simp only [List.length_map, List.length_range, Nat.sub_self, List.append_assoc]
    congr 1
    have hd : acc.drop (k + 1) = (acc.drop k).drop 1 := by rw [List.drop_drop, Nat.add_comm]
    rw [hd]
    cases hdk : acc.drop k with
    | nil =>
      have := congrArg List.length hdk
      simp only [List.length_drop, List.length_nil] at this
      omega
    | cons x xs => simp

theorem replacementIndex_ascii (idx : List Int) (f l : Int) (r : Text) (vf vl : Int)
    (hf : goIndex idx f = some vf) (hl : goIndex idx (l - 1) = some vl)
    (hr : isAscii r = true) :
    replacementIndex idx f l r = some (replacementEntries vf vl r.length) := by
  unfold replacementIndex rangeRunes
  rw [rangeRunesAux_ascii r 0 hr, fill_eq_foldl idx f l r.length vf vl hf hl]
  rw [← List.range_eq_range', foldl_set_range _ r.length _ (by simp)]
  simp [replacementEntries]

theorem inOrder_of_positions (L : List Int) (hL : L.Pairwise inOrder) (q q' : Nat) (hq : q ≤ q')
    (a b : Int) (ha : L[q]? = some a) (hb : L[q']? = some b) : inOrder a b := by
  rcases Nat.eq_or_lt_of_le hq with h | h
  · subst h
    rw [ha] at hb
    cases hb
    exact fun _ _ => le_refl _
  · obtain ⟨h1, e1⟩ := List.getElem?_eq_some_iff.mp ha
    obtain ⟨h2, e2⟩ := List.getElem?_eq_some_iff.mp hb
    rw [← e1, ← e2]
    exact List.pairwise_iff_getElem.mp hL q q' h1 h2 h

theorem inOrder_of_drawn (L : List Int) (hL : L.Pairwise inOrder) (lo hi lo' hi' : Nat)
    (h : hi ≤ lo' + 1) (a b : Int) (ha : drawnFrom L lo hi a) (hb : drawnFrom L lo' hi' b) :
    inOrder a b := by
  rcases ha with rfl | ⟨q, _, hq, ha⟩
  · exact fun h => absurd rfl h
  · rcases hb with rfl | ⟨q', hq', _, hb⟩
    · exact fun _ h => absurd rfl h
    · exact inOrder_of_positions L hL q q' (by omega) a b ha hb

theorem replacementEntries_pairwise (vf vl : Int) (k : Nat) (h : inOrder vf vl) :
    (replacementEntries vf vl k).Pairwise inOrder := by
  unfold replacementEntries
  rw [List.pairwise_map]
  apply List.Pairwise.imp _ (List.pairwise_lt_range k)
  intro i j hij
  have hj : ¬ j = 0 := by omega
  simp only [hj, if_false]
  unfold inOrder
  split_ifs
  · exact h
  · exact fun _ hb => absurd rfl hb
  · exact fun _ _ => le_refl _
  · exact fun _ hb => absurd rfl hb
  · exact fun ha _ => absurd rfl ha
  · exact fun ha _ => absurd rfl ha

theorem replacementEntries_mem (vf vl : Int) (k : Nat) :
    ∀ x ∈ replacementEntries vf vl k, x = -1 ∨ x = vf ∨ x = vl := by
  intro x hx
  unfold replacementEntries at hx
  obtain ⟨c, _, rfl⟩ := List.mem_map.mp hx
  split_ifs <;> simp

theorem blockOf_ordered (L : List Int) (len : Nat) (hlen : L.length = len)
    (hL : L.Pairwise inOrder) (m : List Int) (s e : Nat) (hs : m[0]? = some (s : Int))
    (he : m[1]? = some (e : Int)) (hse : s < e) (hel : e ≤ len) (r : Text)
    (hr : isAscii r = true) :
    (blockOf L m r).Pairwise inOrder ∧ ∀ x ∈ blockOf L m r, drawnFrom L s e x := by
  by_cases hk : r.length > 0
  · have hget : ∀ a : Nat, a < L.length → ∃ v, goIndex L (a : Int) = some v ∧ L[a]? = some v := by
      intro a ha
      refine ⟨L.get ⟨a, ha⟩, goIndex_of_lt L a ha, ?_⟩
      rw [List.getElem?_eq_getElem ha]; rfl
    obtain ⟨vf, hvf, g1⟩ := hget s (by omega)
    obtain ⟨vl, hvl, g2⟩ := hget (e - 1) (by omega)
    have e1 : ((e - 1 : Nat) : Int) = (e : Int) - 1 := by omega
    rw [e1] at hvl
    have hb := (blockOf_valid L len hlen m s e hs he hse hel r).2 hk
    rw [replacementIndex_ascii L s e r _ _ hvf hvl hr] at hb
    simp only [Option.some.injEq] at hb
    rw [← hb]
    refine ⟨replacementEntries_pairwise _ _ _
      (inOrder_of_positions L hL s (e - 1) (by omega) _ _ g1 g2), fun x hx => ?_⟩
    rcases replacementEntries_mem _ _ _ x hx with h | h | h
    · exact Or.inl h
    · exact Or.inr ⟨s, le_refl _, hse, by rw [h]; exact g1⟩
    · exact Or.inr ⟨e - 1, by omega, by omega, by rw [h]; exact g2⟩
  · have : blockOf L m r = [] := by
      unfold blockOf
      rw [if_neg hk]
    rw [this]
    exact ⟨List.Pairwise.nil, fun x hx => by cases hx⟩

theorem splice_ordered (L : List Int) (len : Nat) (hlen : L.length = len)
    (hL : L.Pairwise inOrder) :
    ∀ (ms : List (List Int)) (rs : List Text) (p : Nat),
      validMatches len (p : Int) ms = true → (∀ r ∈ rs, isAscii r = true) →
      (splice L p ((ms.map spanOf).zip (List.zipWith (blockOf L) ms rs))).Pairwise inOrder ∧
      ∀ x ∈ splice L p ((ms.map spanOf).zip (List.zipWith (blockOf L) ms rs)),
        drawnFrom L p len x := by
  have hdrop : ∀ p : Nat, (L.drop p).Pairwise inOrder ∧ ∀ x ∈ L.drop p, drawnFrom L p len x := by
    intro p
    refine ⟨hL.sublist (List.drop_sublist p L), fun x hx => ?_⟩
    obtain ⟨k, hk⟩ := List.getElem?_of_mem hx
    rw [List.getElem?_drop] at hk
    have hlt : p + k < L.length := by
      by_contra hcon
      rw [List.getElem?_eq_none (by omega)] at hk
      cases hk
    exact Or.inr ⟨p + k, by omega, by omega, hk⟩
  intro ms
  induction ms with
  | nil =>
    intro rs p _ _
    simpa [splice] using hdrop p
  | cons m ms ih =>
    intro rs p hv hr
    cases rs with
    | nil => simpa [splice] using hdrop p
    | cons r rs =>
      obtain ⟨s, e, hs, he, hps, hse, hel, hv'⟩ := validMatches_cons_elim len p m ms hv
      obtain ⟨hC, hCm⟩ := ih rs e hv' (fun r' hr' => hr r' (List.mem_cons_of_mem _ hr'))
      obtain ⟨hB, hBm⟩ := blockOf_ordered L len hlen hL m s e hs he hse hel r
        (hr r (List.mem_cons_self _ _))
      have hA : ((L.drop p).take (s - p)).Pairwise inOrder :=
        hL.sublist ((List.take_sublist _ _).trans (List.drop_sublist p L))
      have hAm : ∀ x ∈ (L.drop p).take (s - p), drawnFrom L p s x := by
        intro x hx
        obtain ⟨k, hk⟩ := List.getElem?_of_mem hx
        have hks : k < s - p := by
          by_contra hcon
          rw [List.getElem?_take_eq_none (by omega)] at hk
          cases hk
        rw [List.getElem?_take_of_lt hks, List.getElem?_drop] at hk
        exact Or.inr ⟨p + k, by omega, by omega, hk⟩
      simp only [List.map_cons, List.zipWith_cons_cons, List.zip_cons_cons, splice,
        spanOf_eq m s e hs he]
      have widen : ∀ (lo hi lo' hi' : Nat) (x : Int), lo' ≤ lo → hi ≤ hi' →
          drawnFrom L lo hi x → drawnFrom L lo' hi' x := by
        intro lo hi lo' hi' x h1 h2 hx
        rcases hx with h | ⟨q, hq1, hq2, hq⟩
        · exact Or.inl h
        · exact Or.inr ⟨q, by omega, by omega, hq⟩
      refine ⟨?_, fun x hx => ?_⟩
      · rw [List.pairwise_append]
        refine ⟨?_, hC, fun a ha c hc => ?_⟩
        · rw [List.pairwise_append]
          exact ⟨hA, hB, fun a ha b hb =>
            inOrder_of_drawn L hL p s s e (by omega) a b (hAm a ha) (hBm b hb)⟩
        · have hc' := hCm c hc
          rcases List.mem_append.mp ha with ha | ha
          · exact inOrder_of_drawn L hL p s e len (by omega) a c (hAm a ha) hc'
          · exact inOrder_of_drawn L hL s e e len (by omega) a c (hBm a ha) hc'
      · rcases List.mem_append.mp hx with hx | hx
        · rcases List.mem_append.mp hx with hx | hx
          · exact widen p s p len x (le_refl _) (by omega) (hAm x hx)
          · exact widen s e p len x hps hel (hBm x hx)
        · exact widen e len p len x (by omega) (le_refl _) (hCm x hx)

/-! ## The template validator -/

theorem validateAndWrite_spec {Pattern Match Blocks : Type} (env : Env)
    (w : Collaborators Pattern Match Blocks)
    (id templateDestDir preCheckDestDir textDestDir : String) (textBytes templateBytes : Text)
    (normalizedTestData : NormalizationData)
    (hTemplate : (NormalizeText env (newRecord templateBytes)).isSome = true) :
    ∃ b e, validateAndWrite env w id templateDestDir preCheckDestDir textDestDir textBytes
        templateBytes normalizedTestData = some (b, e) ∧
      (b = true ↔ ∃ normalizedTemplate,
        NormalizeText env (newRecord templateBytes) = some (normalizedTemplate, none) ∧
        w.PassedStaticBlocksChecks (w.GetStaticBlocks normalizedTemplate) normalizedTestData =
          true ∧
        w.WritePreChecksFile (w.GetStaticBlocks normalizedTemplate)
          (w.Join preCheckDestDir (id ++ ".json")) = none ∧
        w.WriteFile (w.Join templateDestDir (id ++ ".template.txt")) templateBytes = none ∧
        w.WriteFile (w.Join textDestDir (id ++ ".txt")) textBytes = none) ∧
      (b = true → e = none) := by
  unfold validateAndWrite
  cases hn : NormalizeText env (newRecord templateBytes) with
  | none => rw [hn] at hTemplate; cases hTemplate
  | some r =>
    obtain ⟨normalizedTemplate, err⟩ := r
    cases err with
    | some e =>
      refine ⟨false, _, rfl, ⟨(fun h => by cases h), ?_⟩, (fun h => by cases h)⟩
      rintro ⟨nt, h1, _⟩
      cases h1
    | none =>
      simp only
      cases hp : w.PassedStaticBlocksChecks (w.GetStaticBlocks normalizedTemplate)
          normalizedTestData with
      | false =>
        refine ⟨false, _, rfl, ⟨(fun h => by cases h), ?_⟩, (fun h => by cases h)⟩
        rintro ⟨nt, h1, h2, _⟩
        cases h1
        rw [hp] at h2
        cases h2
      | true =>
        simp only [Bool.true_eq_false, if_false]
        cases h3 : w.WritePreChecksFile (w.GetStaticBlocks normalizedTemplate)
            (w.Join preCheckDestDir (id ++ ".json")) with
        | some e3 =>
          refine ⟨false, _, rfl, ⟨(fun h => by cases h), ?_⟩, (fun h => by cases h)⟩
          rintro ⟨nt, h1, _, h, _⟩
          cases h1
          rw [h3] at h
          cases h
        | none =>
          simp only
          cases h4 : w.WriteFile (w.Join templateDestDir (id ++ ".template.txt"))
              templateBytes with
          | some e4 =>
            refine ⟨false, _, rfl, ⟨(fun h => by cases h), ?_⟩, (fun h => by cases h)⟩
            rintro ⟨nt, h1, _, _, h, _⟩
            cases h
          | none =>
            simp only
            cases h5 : w.WriteFile (w.Join textDestDir (id ++ ".txt")) textBytes with
            | some e5 =>
              refine ⟨false, _, rfl, ⟨(fun h => by cases h), ?_⟩, (fun h => by cases h)⟩
              rintro ⟨nt, h1, _, _, _, h⟩
              cases h
            | none =>
              refine ⟨true, none, rfl, ⟨fun _ => ⟨normalizedTemplate, rfl, ?_⟩, fun _ => rfl⟩,
                fun _ => rfl⟩
              simp [hp, h3, h4, h5]

/-! ## Plain words as patterns -/

theorem zip_fst_of_length : ∀ (T : Text) (M : List Int), T.length = M.length →
    (T.zip M).map Prod.fst = T ∧ (T.zip M).map Prod.snd = M := by
  intro T M h
  exact ⟨List.map_fst_zip _ _ (by omega), List.map_snd_zip _ _ (by omega)⟩

theorem withPairs_pairsOf (n : NormalizationData)
    (hal : n.IndexMap.length = n.NormalizedText.length) : withPairs n (pairsOf n) = n := by
  obtain ⟨h1, h2⟩ := zip_fst_of_length n.NormalizedText n.IndexMap hal.symm
  unfold withPairs pairsOf
  rw [h1, h2]

/-- The table must keep clear of the canonical words too.  With the two entries
of `overlappingTable` (`licence` is written `license`; `sub-license` is
written `sublicense`) the text `sub-licence` becomes `sublicense` when the
entries are applied in one order and `sub-license` in the other: the
canonical word `license` completes an occurrence of the second pattern. -/
theorem wordTable_order_matters :
    (replaceVarietalWordSpellings (initializeRecord (newRecord (bytes "sub-licence")))
        overlappingTable).map (fun n => n.NormalizedText) = some (bytes "sublicense") ∧
    (replaceVarietalWordSpellings (initializeRecord (newRecord (bytes "sub-licence")))
        overlappingTable.reverse).map (fun n => n.NormalizedText) = some (bytes "sub-license") := by
  constructor <;> decide

/-! # The claims -/

/-- C1 (the code at a failing input).  For the text made of the Kelvin sign
U+212A (three bytes), which is accepted, `NormalizeText` returns without error with a one-byte
`NormalizedText` and a three-entry `IndexMap`: line 165 lowers the text to `k`
and leaves the index map as it was.  This holds for every environment in which
`unicode.ToLower` maps U+212A to `k` and no word-table pattern matches `k`. -/
theorem normalizeText_kelvin_misaligned (env : Env)
    (hl : env.toLowerRune 0x212A = 0x6B)
    (ht : ∀ entry ∈ env.replacementREs, FindAllStringSubmatchIndex entry.2 [0x6B] 1 = none) :
    ∃ n', NormalizeText env (newRecord kelvinText) = some (n', none) ∧
      n'.NormalizedText = [0x6B] ∧ n'.IndexMap = [0, 1, 2] ∧
      n'.IndexMap.length ≠ n'.NormalizedText.length := by
  have h1 : passesBeforeLower (newRecord kelvinText) = some kelvinInitialized := by decide
  have h2 : lowerText env kelvinInitialized = kelvinLowered := by
    have : ToLower env.toLowerRune kelvinText = encodeRune (env.toLowerRune 0x212A) ++ [] := rfl
    unfold lowerText
    show { kelvinInitialized with
      NormalizedText := ToLower env.toLowerRune kelvinText } = kelvinLowered
    rw [this, hl]
    rfl
  have h3 : passesBeforeWords kelvinLowered = some kelvinLowered := by decide
  have h4 : replaceVarietalWordSpellings kelvinLowered env.replacementREs = some kelvinLowered :=
    replaceVarietalWordSpellings_no_match kelvinLowered (by decide) (by decide) _ ht
  have h5 : passesAfterWords kelvinLowered = some kelvinLowered := by decide
  have hn : NormalizeText env (newRecord kelvinText) = some (addHash env kelvinLowered, none) := by
    unfold NormalizeText
    have hc1 : ¬ (newRecord kelvinText).OriginalText.length < 1 := by decide
    have hc2 : MatchString ControlCharactersRE (newRecord kelvinText).OriginalText = false := by
      decide
    simp only [hc1, hc2, if_false, Bool.false_eq_true]
    unfold normalizePasses passesAfterLower
    simp only [h1, h2, h3, h4, h5, Option.some_bind, Option.map_some']
  refine ⟨_, hn, rfl, rfl, ?_⟩
  show (3 : Nat) ≠ 1
  decide

/-- C1, in a concrete environment. -/
theorem normalizeText_kelvin_misaligned_witness :
    ∃ n', NormalizeText sampleEnv (newRecord kelvinText) = some (n', none) ∧
      n'.NormalizedText = [0x6B] ∧ n'.IndexMap = [0, 1, 2] ∧
      n'.IndexMap.length ≠ n'.NormalizedText.length :=
  normalizeText_kelvin_misaligned sampleEnv (by decide) (by decide)

/-- C2. `replaceMatchesWithStringsAndUpdateIndexMap` is safe and keeps the
record aligned: on a record with `len(IndexMap) == len(NormalizedText)`, for
every match list (nil or not) whose matches are non-empty, within the text,
sorted and non-overlapping, and every list of replacement strings with one
entry per match (of any content), the call completes without a run-time
failure and the new record again has `len(IndexMap) == len(NormalizedText)`. -/
theorem replaceMatches_preserves_alignment (n : NormalizationData)
    (allSubmatchIndex : Option (List (List Int))) (replacements : List Text)
    (hal : n.IndexMap.length = n.NormalizedText.length)
    (hv : validMatches n.NormalizedText.length 0 (allSubmatchIndex.getD []) = true)
    (hr : replacements.length = (allSubmatchIndex.getD []).length) :
    ∃ n', replaceMatchesWithStringsAndUpdateIndexMap n allSubmatchIndex replacements = some n' ∧
      n'.IndexMap.length = n'.NormalizedText.length := by
  cases allSubmatchIndex with
  | none => exact ⟨n, rfl, hal⟩
  | some ms =>
    simp only [Option.getD_some] at hv hr
    exact ⟨_, replaceMatches_valid n ms replacements hal hv hr,
      replaceMatches_valid_aligned n ms replacements hal hv hr⟩

/-- C2, at a concrete input: two matches in `abcdef`, one deleted and one
replaced by the two-byte string `é`. -/
theorem replaceMatches_preserves_alignment_witness :
    ∃ n', replaceMatchesWithStringsAndUpdateIndexMap exampleRecord (some [[1, 3], [4, 5]])
        [[], [0xC3, 0xA9]] = some n' ∧
      n'.IndexMap.length = n'.NormalizedText.length :=
  replaceMatches_preserves_alignment exampleRecord (some [[1, 3], [4, 5]]) [[], [0xC3, 0xA9]]
    (by decide) (by decide) (by decide)

/-- C3 (the code at a failing input).  With the two-byte replacement `é` for the
span `[2,5)` of `abcdef`, the second (last) index entry written is `0`, not the
old `IndexMap[4]`; and in the capture pass the marker `<<match=é>>` after `ab`
is replaced by the six bytes `<<é>>` with the entry for the second byte of `é`,
which lies strictly between the first and the last, equal to `0`, not `-1`. -/
theorem replacementIndex_multibyte_zero :
    (replaceMatchesWithStringsAndUpdateIndexMap exampleRecord (some [[2, 5]])
        [[0xC3, 0xA9]]).map (fun n => (n.NormalizedText, n.IndexMap)) =
      some ([97, 98, 0xC3, 0xA9, 102], [0, 1, 2, 0, 5]) ∧
    (captureReplaceableTextSections (newRecord (bytes "ab<<match=é>>"))).map
        (fun n => (n.NormalizedText, n.IndexMap)) =
      some (bytes "ab<<é>>", [0, 1, 2, -1, -1, 0, -1, 13]) := by
  constructor <;> decide

/-- C4. Copy-through: on an aligned record and a well-formed match list with one
replacement per match, the new text is `seg0 ++ r1 ++ seg1 ++ ... ++ rk ++ segk`
(the stretches of the old text outside the matches, with the replacements in
between), and the new index map is the same splice of the old index map with,
in place of each match, a block as long as its replacement; so the entries
aligned with each `seg_i` are the old index-map slice of that stretch.  When a
pattern has no match, `regexpReplacePatternAndUpdateIndexMap` leaves an
initialized, non-empty record unchanged, and so does
`replaceMatchesWithStringAndUpdateIndexMap` on a nil or empty match list. -/
theorem replaceMatches_copy_through (n : NormalizationData) (ms : List (List Int))
    (rs : List Text) (hal : n.IndexMap.length = n.NormalizedText.length)
    (hv : validMatches n.NormalizedText.length 0 ms = true) (hr : rs.length = ms.length) :
    (∃ (n' : NormalizationData) (blocks : List (List Int)),
      replaceMatchesWithStringsAndUpdateIndexMap n (some ms) rs = some n' ∧
      n'.NormalizedText = splice n.NormalizedText 0 ((ms.map spanOf).zip rs) ∧
      List.Forall₂ (fun (b : List Int) (r : Text) => b.length = r.length) blocks rs ∧
      n'.IndexMap = splice n.IndexMap 0 ((ms.map spanOf).zip blocks)) ∧
    (∀ (re : Regexp) (replacement : Text), n.NormalizedText ≠ [] → n.IndexMap ≠ [] →
      FindAllStringSubmatchIndex re n.NormalizedText n.NormalizedText.length = none →
      regexpReplacePatternAndUpdateIndexMap n re replacement = some (n, [])) ∧
    (∀ replacement : Text,
      replaceMatchesWithStringAndUpdateIndexMap n none replacement = some (n, []) ∧
      replaceMatchesWithStringAndUpdateIndexMap n (some []) replacement = some (n, [])) := by
  refine ⟨⟨_, List.zipWith (blockOf n.IndexMap) ms rs,
    replaceMatches_valid n ms rs hal hv hr, rfl, ?_, rfl⟩, ?_, fun _ => ⟨rfl, rfl⟩⟩
  · have h := blockOf_length_valid n.IndexMap n.NormalizedText.length hal ms rs 0 hv
    rwa [← hr, List.take_length] at h
  · intro re replacement ht hi hnone
    have hinit : initializeRecord n = n := by
      unfold initializeRecord
      have h1 : ¬ n.NormalizedText.length = 0 := by
        intro h; exact ht (List.length_eq_zero.mp h)
      have h2 : ¬ n.IndexMap.length = 0 := by
        intro h; exact hi (List.length_eq_zero.mp h)
      simp [h1, h2]
    unfold regexpReplacePatternAndUpdateIndexMap
    rw [hinit, hnone]
    rfl

/-- C4, at a concrete input: `abcdef` with `[1,3)` deleted and `[4,5)` replaced
by `é`. -/
theorem replaceMatches_copy_through_witness :
    (∃ (n' : NormalizationData) (blocks : List (List Int)),
      replaceMatchesWithStringsAndUpdateIndexMap exampleRecord (some [[1, 3], [4, 5]])
        [[], [0xC3, 0xA9]] = some n' ∧
      n'.NormalizedText = splice exampleRecord.NormalizedText 0
        (([[1, 3], [4, 5]].map spanOf).zip [[], [0xC3, 0xA9]]) ∧
      List.Forall₂ (fun (b : List Int) (r : Text) => b.length = r.length) blocks
        [[], [0xC3, 0xA9]] ∧
      n'.IndexMap = splice exampleRecord.IndexMap 0 (([[1, 3], [4, 5]].map spanOf).zip blocks)) ∧
    (∀ (re : Regexp) (replacement : Text), exampleRecord.NormalizedText ≠ [] →
      exampleRecord.IndexMap ≠ [] →
      FindAllStringSubmatchIndex re exampleRecord.NormalizedText
        exampleRecord.NormalizedText.length = none →
      regexpReplacePatternAndUpdateIndexMap exampleRecord re replacement =
        some (exampleRecord, [])) ∧
    (∀ replacement : Text,
      replaceMatchesWithStringAndUpdateIndexMap exampleRecord none replacement =
        some (exampleRecord, []) ∧
      replaceMatchesWithStringAndUpdateIndexMap exampleRecord (some []) replacement =
        some (exampleRecord, [])) :=
  replaceMatches_copy_through exampleRecord [[1, 3], [4, 5]] [[], [0xC3, 0xA9]]
    (by decide) (by decide) (by decide)

/-- C5. Pure deletion keeps provenance: when every replacement is the empty
string, the call completes, the new text and the new index map are the old
ones without the positions covered by the matches, and if every position of
the old record maps back to the byte it shows
(`OriginalText[IndexMap[i]] == NormalizedText[i]`), so does every position of
the new record. -/
theorem replaceMatches_pure_deletion (n : NormalizationData) (ms : List (List Int))
    (hal : n.IndexMap.length = n.NormalizedText.length)
    (hv : validMatches n.NormalizedText.length 0 ms = true) :
    ∃ n', replaceMatchesWithStringsAndUpdateIndexMap n (some ms)
        (List.replicate ms.length []) = some n' ∧
      n'.NormalizedText = removeCoveredFrom (ms.map spanOf) 0 n.NormalizedText ∧
      n'.IndexMap = removeCoveredFrom (ms.map spanOf) 0 n.IndexMap ∧
      (Provenance n → Provenance n') := by
  have hT := splice_nil_eq_removeCovered n.NormalizedText n.NormalizedText.length rfl ms 0 hv
    (Nat.zero_le _)
  have hI := splice_nil_eq_removeCovered n.IndexMap n.NormalizedText.length hal ms 0 hv
    (Nat.zero_le _)
  rw [List.drop_zero] at hT hI
  refine ⟨_, replaceMatches_valid n ms _ hal hv (by simp), hT, ?_, ?_⟩
  · simp only [zipWith_blockOf_nil]
    exact hI
  · intro hp
    have hal' := replaceMatches_valid_aligned n ms (List.replicate ms.length []) hal hv (by simp)
    rw [provenance_iff_forall₂ _ hal] at hp
    rw [provenance_iff_forall₂ _ hal']
    simp only [zipWith_blockOf_nil, hT, hI]
    exact removeCoveredFrom_forall₂ _ _ _ _ 0 hp

/-- C5, at a concrete input: `[1,3)` and `[4,5)` deleted from `abcdef`. -/
theorem replaceMatches_pure_deletion_witness :
    ∃ n', replaceMatchesWithStringsAndUpdateIndexMap exampleRecord (some [[1, 3], [4, 5]])
        (List.replicate [[1, 3], [4, 5]].length []) = some n' ∧
      n'.NormalizedText = removeCoveredFrom ([[1, 3], [4, 5]].map spanOf) 0
        exampleRecord.NormalizedText ∧
      n'.IndexMap = removeCoveredFrom ([[1, 3], [4, 5]].map spanOf) 0 exampleRecord.IndexMap ∧
      (Provenance exampleRecord → Provenance n') :=
  replaceMatches_pure_deletion exampleRecord [[1, 3], [4, 5]] (by decide) (by decide)

/-- C6. Offsets stay in range: in every record reached from `initialize()` over
a non-empty `OriginalText` by any sequence of completed rewrites, `OriginalText`
is unchanged and every entry of `IndexMap` is the sentinel `-1` or lies in
`[0, len(OriginalText))`. -/
theorem indexMap_offsets_in_range (original : Text) (n : NormalizationData)
    (hne : original ≠ []) (h : Rewritten original n) :
    n.OriginalText = original ∧
      ∀ x ∈ n.IndexMap, x = -1 ∨ (0 ≤ x ∧ x < (original.length : Int)) := by
  have hpos : 0 < original.length := List.length_pos.mpr hne
  induction h with
  | init n0 ho ht hi =>
    have h1 : initializeRecord n0 =
        { n0 with NormalizedText := original,
                  IndexMap := (List.range original.length).map Int.ofNat } := by
      unfold initializeRecord
      simp [ht, hi, ho]
    rw [h1]
    refine ⟨ho, fun x hx => Or.inr ?_⟩
    simp only [List.mem_map, List.mem_range] at hx
    obtain ⟨k, hk, rfl⟩ := hx
    exact ⟨Int.ofNat_nonneg k, Int.ofNat_lt.mpr hk⟩
  | step n1 n2 all rs _ hs ih =>
    obtain ⟨ho, hm⟩ := replaceMatches_mem n1 n2 all rs hs
    refine ⟨ho.trans ih.1, fun x hx => ?_⟩
    rcases hm x hx with h1 | h1 | h1
    · exact ih.2 x h1
    · subst h1; exact Or.inr ⟨le_refl _, by exact_mod_cast hpos⟩
    · exact Or.inl h1

/-- C6, at a concrete input: `abcdef` after one rewrite that replaces `[1,3)` by
the two-byte string `é`. -/
theorem indexMap_offsets_in_range_witness :
    exampleRewritten.OriginalText = bytes "abcdef" ∧
      ∀ x ∈ exampleRewritten.IndexMap,
        x = -1 ∨ (0 ≤ x ∧ x < ((bytes "abcdef").length : Int)) :=
  indexMap_offsets_in_range (bytes "abcdef") exampleRewritten (by decide)
    (Rewritten.step (initializeRecord (newRecord (bytes "abcdef"))) _ (some [[1, 3]])
      [[0xC3, 0xA9]] (Rewritten.init (newRecord (bytes "abcdef")) rfl rfl rfl) (by decide))

/-- C7. `NormalizeText` returns an error if and only if `OriginalText` is empty
or contains a code point in U+0000-U+0007 or U+000E-U+001B; no other text is
rejected, whatever it is made of. -/
theorem normalizeText_error_iff (env : Env) (n : NormalizationData) :
    (∃ n' e, NormalizeText env n = some (n', some e)) ↔
      (n.OriginalText = [] ∨ ∃ r ∈ runes n.OriginalText, isForbiddenControl r = true) := by
  unfold NormalizeText
  rw [matchString_controlCharacters]
  by_cases hlen : n.OriginalText.length < 1
  · have hnil : n.OriginalText = [] := List.length_eq_zero.mp (by omega)
    simp only [hlen, if_true]
    exact ⟨fun _ => Or.inl hnil, fun _ => ⟨_, _, rfl⟩⟩
  · have hne : n.OriginalText ≠ [] := by
      intro h; rw [h] at hlen; simp at hlen
    simp only [hlen, if_false]
    by_cases hc : (runes n.OriginalText).any isForbiddenControl = true
    · simp only [hc, if_true]
      refine ⟨fun _ => Or.inr ?_, fun _ => ⟨_, _, rfl⟩⟩
      exact List.any_eq_true.mp hc
    · simp only [hc, Bool.false_eq_true, if_false]
      constructor
      · rintro ⟨n', e, h⟩
        cases hp : normalizePasses env n with
        | none => rw [hp] at h; cases h
        | some m => rw [hp] at h; cases h
      · rintro (h | h)
        · exact absurd h hne
        · exact absurd (List.any_eq_true.mpr h) hc

/-- C8. Rejection is atomic: when `NormalizeText` returns an error, the record
after the call is the record before it (`NormalizedText`, `IndexMap`,
`CaptureGroups` and `Hash` included). -/
theorem normalizeText_error_leaves_record (env : Env) (n n' : NormalizationData)
    (e : NormalizeError) (h : NormalizeText env n = some (n', some e)) : n' = n := by
  unfold NormalizeText at h
  split at h
  · cases h; rfl
  · split at h
    · cases h; rfl
    · cases hp : normalizePasses env n with
      | none => rw [hp] at h; cases h
      | some m => rw [hp] at h; cases h

/-- C8, at a concrete input: a record that already holds data and whose
`OriginalText` is the control character U+001B is returned as it was. -/
theorem normalizeText_error_leaves_record_witness :
    NormalizeText sampleEnv rejectedRecord = some (rejectedRecord, some .controlCharacters) ∧
      rejectedRecord = rejectedRecord :=
  ⟨by decide, normalizeText_error_leaves_record sampleEnv rejectedRecord rejectedRecord
    .controlCharacters (by decide)⟩

/-- C9 (the code at a failing input).  On the text `<<match=">>` the capture
pass fails at run time: the match expression is a single double quote, which
is both prefix and suffix, and line 314 slices `regex[1:0]`.  `NormalizeText`
fails with it, in every environment. -/
theorem capture_single_quote_fails (env : Env) :
    adjustRegex (bytes "\"") = none ∧
    captureReplaceableTextSections (newRecord (bytes "<<match=\">>")) = none ∧
    NormalizeText env (newRecord (bytes "<<match=\">>")) = none := by
  have h1 : passesBeforeLower (newRecord (bytes "<<match=\">>")) = none := by decide
  refine ⟨by decide, by decide, ?_⟩
  unfold NormalizeText
  have hc1 : ¬ (newRecord (bytes "<<match=\">>")).OriginalText.length < 1 := by decide
  have hc2 : MatchString ControlCharactersRE (newRecord (bytes "<<match=\">>")).OriginalText =
      false := by decide
  simp only [hc1, hc2, if_false, Bool.false_eq_true]
  unfold normalizePasses
  simp only [h1, Option.none_bind, Option.map_none']

/-- C10. Regex adjustment of a captured variable region: when the capture pass
completes, then for the markers found, with match expressions `R_1 .. R_k`, the
`Matches` fields of the capture groups it appends are
`M_j = cap(lazy(strip(R_j)))` (strip removes one leading and one trailing
double quote only when both are there, lazy appends `?` after a final `+`, `*`
or closing brace, cap rewrites a trailing `{0,5000}?` to `{0,1000}?` and keeps
what precedes it), and the string handed to the coordinated rewrite for marker
`j` is exactly `<<` ++ `M_j` ++ `>>`; on an aligned record the new text is
therefore the old text with each marker replaced by that string. -/
theorem capture_adjusts_match_expression (n n' : NormalizationData)
    (h : captureReplaceableTextSections n = some n') :
    ∃ Rs Ms : List Text,
      List.Forall₂ (fun m R => matchExpressionOf (initializeRecord n).NormalizedText m = some R)
        ((FindAllStringSubmatchIndex ReplaceableTextPatternRE (initializeRecord n).NormalizedText
          (initializeRecord n).NormalizedText.length).getD []) Rs ∧
      List.Forall₂ IsAdjusted Rs Ms ∧
      n'.CaptureGroups.map (fun g => g.Matches) = n.CaptureGroups.map (fun g => g.Matches) ++ Ms ∧
      replaceMatchesWithStringsAndUpdateIndexMap
          { initializeRecord n with CaptureGroups := n'.CaptureGroups }
          (FindAllStringSubmatchIndex ReplaceableTextPatternRE (initializeRecord n).NormalizedText
            (initializeRecord n).NormalizedText.length)
          (Ms.map fun M => bytes "<<" ++ M ++ bytes ">>") = some n' ∧
      ((initializeRecord n).IndexMap.length = (initializeRecord n).NormalizedText.length →
        n'.NormalizedText = splice (initializeRecord n).NormalizedText 0
          ((((FindAllStringSubmatchIndex ReplaceableTextPatternRE
              (initializeRecord n).NormalizedText
              (initializeRecord n).NormalizedText.length).getD []).map spanOf).zip
            (Ms.map fun M => bytes "<<" ++ M ++ bytes ">>"))) := by
  have hvalid := findAll_valid ReplaceableTextPatternRE (initializeRecord n).NormalizedText
    (initializeRecord n).NormalizedText.length (by decide)
  unfold captureReplaceableTextSections captureWith at h
  generalize hall : FindAllStringSubmatchIndex ReplaceableTextPatternRE
    (initializeRecord n).NormalizedText (initializeRecord n).NormalizedText.length = all at h hvalid
  split at h
  · cases h
  · rename_i replacements groups hloop
    obtain ⟨Rs, Ms, hR, hA, hreps, hgroups⟩ := captureLoop_spec _ _ _ _ _ _ hloop
    rw [initializeRecord_captureGroups] at hgroups
    simp only [List.nil_append] at hreps
    have hcg : n'.CaptureGroups = groups := replaceMatches_captureGroups _ _ _ _ h
    refine ⟨Rs, Ms, hR, hA, ?_, ?_, ?_⟩
    · rw [hcg, hgroups]
    · rw [hcg, ← hreps]; exact h
    · intro hal
      cases all with
      | none =>
        simp only [replaceMatchesWithStringsAndUpdateIndexMap, Option.some.injEq] at h
        rw [← h]
        simp [splice]
      | some ms =>
        simp only [Option.getD_some] at hvalid hR ⊢
        have hlen : replacements.length = ms.length := by
          rw [hreps, List.length_map, ← hA.length_eq, ← hR.length_eq]
        have := replaceMatches_valid { initializeRecord n with CaptureGroups := groups } ms
          replacements hal hvalid hlen
        rw [this] at h
        simp only [Option.some.injEq] at h
        rw [← h, hreps]

/-- C10, at a concrete input: the quoted long-form marker `<<match=".{0,5000}">>`
becomes `<<.{0,1000}?>>`. -/
theorem capture_adjusts_match_expression_witness :
    ∃ Rs Ms : List Text,
      List.Forall₂
        (fun m R => matchExpressionOf (initializeRecord captureExample).NormalizedText m = some R)
        ((FindAllStringSubmatchIndex ReplaceableTextPatternRE
          (initializeRecord captureExample).NormalizedText
          (initializeRecord captureExample).NormalizedText.length).getD []) Rs ∧
      List.Forall₂ IsAdjusted Rs Ms ∧
      captureExampleResult.CaptureGroups.map (fun g => g.Matches) =
        captureExample.CaptureGroups.map (fun g => g.Matches) ++ Ms ∧
      replaceMatchesWithStringsAndUpdateIndexMap
          { initializeRecord captureExample with
            CaptureGroups := captureExampleResult.CaptureGroups }
          (FindAllStringSubmatchIndex ReplaceableTextPatternRE
            (initializeRecord captureExample).NormalizedText
            (initializeRecord captureExample).NormalizedText.length)
          (Ms.map fun M => bytes "<<" ++ M ++ bytes ">>") = some captureExampleResult ∧
      ((initializeRecord captureExample).IndexMap.length =
          (initializeRecord captureExample).NormalizedText.length →
        captureExampleResult.NormalizedText =
          splice (initializeRecord captureExample).NormalizedText 0
          ((((FindAllStringSubmatchIndex ReplaceableTextPatternRE
              (initializeRecord captureExample).NormalizedText
              (initializeRecord captureExample).NormalizedText.length).getD []).map spanOf).zip
            (Ms.map fun M => bytes "<<" ++ M ++ bytes ">>"))) :=
  capture_adjusts_match_expression captureExample captureExampleResult (by decide)

/-- C11 (the code at a failing input).  `limitWildcardMatching` rewrites the
upper-case marker `<<MATCH=.+>>` to `<<.{1,144}>>`, but
`limitOptionalWildcardMatching` leaves `<<MATCH=.*>>` as it is (its pattern has
no `(?i)`), and the marker leaves the passes before the lowering as the
unbounded `<<.*?>>`. -/
theorem optionalWildcard_uppercase_not_capped :
    (limitWildcardMatching (newRecord (bytes "<<MATCH=.+>>"))).map (fun n => n.NormalizedText) =
      some (bytes "<<.\x7b1,144\x7d>>") ∧
    (limitOptionalWildcardMatching (newRecord (bytes "<<MATCH=.*>>"))).map
      (fun n => n.NormalizedText) = some (bytes "<<MATCH=.*>>") ∧
    (limitOptionalWildcardMatching (newRecord (bytes "<<match=.*>>"))).map
      (fun n => n.NormalizedText) = some (bytes "<<.\x7b0,144\x7d>>") ∧
    (passesBeforeLower (newRecord (bytes "<<MATCH=.*>>"))).map (fun n => n.NormalizedText) =
      some (bytes "<<.*?>>") := by
  refine ⟨?_, ?_, ?_, ?_⟩ <;> decide

/-- C18 (the code at a failing input).  On the initialized, aligned record of the
whitespace-only text tab, newline, `replaceWhitespace` ends with the text tab:
the first two steps empty the text, the `initialize()` of the third step puts
`OriginalText` back, and only its last character is trimmed.  `NormalizeText`
returns the same text. -/
theorem replaceWhitespace_whitespace_only :
    (initializeRecord (newRecord [9, 10])).IndexMap.length =
      (initializeRecord (newRecord [9, 10])).NormalizedText.length ∧
    (replaceWhitespace (initializeRecord (newRecord [9, 10]))).map
      (fun n => (n.NormalizedText, n.IndexMap)) = some ([9], [0]) ∧
    (NormalizeText sampleEnv (newRecord [9, 10])).map
      (fun r => (r.1.NormalizedText, r.2)) = some ([9], none) := by
  refine ⟨?_, ?_, ?_⟩ <;> decide

/-- C13. Capture-group numbering: when the capture pass completes on a record
with no capture groups yet, `CaptureGroups` has exactly one entry per match of
the marker pattern, in the order of the matches, which are sorted from left to
right in the text; the entry at position `i` (0-based) has `GroupNumber`
`i + 1`, and `Name` and `Original` are the texts of the marker's `name=` and
`original=` groups, the empty string when the group is absent. -/
theorem capture_groups_numbered (n n' : NormalizationData) (h0 : n.CaptureGroups = [])
    (h : captureReplaceableTextSections n = some n') :
    validMatches (initializeRecord n).NormalizedText.length 0
      ((FindAllStringSubmatchIndex ReplaceableTextPatternRE (initializeRecord n).NormalizedText
        (initializeRecord n).NormalizedText.length).getD []) = true ∧
    List.Forall₂ (fun m g => markerField (initializeRecord n).NormalizedText m 0 = some g.Name ∧
        markerField (initializeRecord n).NormalizedText m 1 = some g.Original)
      ((FindAllStringSubmatchIndex ReplaceableTextPatternRE (initializeRecord n).NormalizedText
        (initializeRecord n).NormalizedText.length).getD []) n'.CaptureGroups ∧
    n'.CaptureGroups.map (fun g => g.GroupNumber) =
      (List.range n'.CaptureGroups.length).map (fun (i : Nat) => (i : Int) + 1) := by
  obtain ⟨news, hg, hF, hnum, _⟩ := capture_result n n' h
  rw [h0, List.nil_append] at hg
  rw [h0] at hnum
  refine ⟨findAll_valid ReplaceableTextPatternRE _ _ (by decide), by rw [hg]; exact hF, ?_⟩
  rw [hg, hnum]
  apply List.map_congr_left
  intro i _
  simp

/-- C13, at a concrete input: a full-form marker followed by a bare marker. -/
theorem capture_groups_numbered_witness :
    validMatches (initializeRecord captureTwoExample).NormalizedText.length 0
      ((FindAllStringSubmatchIndex ReplaceableTextPatternRE
        (initializeRecord captureTwoExample).NormalizedText
        (initializeRecord captureTwoExample).NormalizedText.length).getD []) = true ∧
    List.Forall₂
      (fun m g => markerField (initializeRecord captureTwoExample).NormalizedText m 0 =
          some g.Name ∧
        markerField (initializeRecord captureTwoExample).NormalizedText m 1 = some g.Original)
      ((FindAllStringSubmatchIndex ReplaceableTextPatternRE
        (initializeRecord captureTwoExample).NormalizedText
        (initializeRecord captureTwoExample).NormalizedText.length).getD [])
      captureTwoResult.CaptureGroups ∧
    captureTwoResult.CaptureGroups.map (fun g => g.GroupNumber) =
      (List.range captureTwoResult.CaptureGroups.length).map (fun (i : Nat) => (i : Int) + 1) :=
  capture_groups_numbered captureTwoExample captureTwoResult (by decide) (by decide)

/-- C14 (counterexample).  For the template `<<match=[A-Z]+>>` the capture group
holds `Matches = [A-Z]+?`, but the final text is `<<[a-z]+?>>` (line 165 lowers
the marker with the rest of the text), so it does not contain the marker
`<<[A-Z]+?>>`. -/
theorem markers_altered_by_later_passes :
    ∃ n', NormalizeText sampleEnv (newRecord (bytes "<<match=[A-Z]+>>")) = some (n', none) ∧
      n'.CaptureGroups.map (fun g => g.Matches) = [bytes "[A-Z]+?"] ∧
      n'.NormalizedText = bytes "<<[a-z]+?>>" ∧
      ¬ ContainsInOrder n'.NormalizedText (n'.CaptureGroups.map markerOf) := by
  have hsome : (NormalizeText sampleEnv (newRecord (bytes "<<match=[A-Z]+>>"))).isSome = true := by
    decide
  obtain ⟨r, hr⟩ := Option.isSome_iff_exists.mp hsome
  have hval : (NormalizeText sampleEnv (newRecord (bytes "<<match=[A-Z]+>>"))).map
      (fun r => (r.2, r.1.CaptureGroups.map (fun g => g.Matches), r.1.CaptureGroups.map markerOf,
        r.1.NormalizedText)) =
      some (none, [bytes "[A-Z]+?"], [bytes "<<[A-Z]+?>>"], bytes "<<[a-z]+?>>") := by decide
  rw [hr] at hval
  obtain ⟨n', e⟩ := r
  simp only [Option.map_some', Option.some.injEq, Prod.mk.injEq] at hval
  obtain ⟨he, hm, hmk, ht⟩ := hval
  subst he
  refine ⟨n', hr, hm, ht, ?_⟩
  rw [hmk, ht]
  rintro ⟨a, b, hab, _⟩
  have hlen := congrArg List.length hab
  have h11 : (bytes "<<[a-z]+?>>").length = 11 := by decide
  have h11' : (bytes "<<[A-Z]+?>>").length = 11 := by decide
  simp only [List.length_append, h11, h11'] at hlen
  have ha : a = [] := List.length_eq_zero.mp (by omega)
  have hb : b = [] := List.length_eq_zero.mp (by omega)
  subst ha hb
  simp only [List.nil_append, List.append_nil] at hab
  exact absurd hab (by decide)

/-- C14 (amended).  Right after the capture pass, on an aligned record, the text
contains the marker `<<` ++ `Matches` ++ `>>` of every capture group the pass
appended, in order. -/
theorem capture_markers_in_text (n n' : NormalizationData)
    (hal : (initializeRecord n).IndexMap.length = (initializeRecord n).NormalizedText.length)
    (h : captureReplaceableTextSections n = some n') :
    ContainsInOrder n'.NormalizedText
      ((n'.CaptureGroups.drop n.CaptureGroups.length).map markerOf) := by
  obtain ⟨news, hg, hF, _, htext⟩ := capture_result n n' h
  rw [htext hal, hg, List.drop_left]
  apply splice_containsInOrder
  rw [List.length_map, List.length_map, hF.length_eq]

/-- C14 (amended), at a concrete input: a full-form marker followed by a bare
marker. -/
theorem capture_markers_in_text_witness :
    ContainsInOrder captureTwoResult.NormalizedText
      ((captureTwoResult.CaptureGroups.drop captureTwoExample.CaptureGroups.length).map
        markerOf) :=
  capture_markers_in_text captureTwoExample captureTwoResult (by decide) (by decide)

/-- C12 (counterexample).  Passes 2 and 3 turn the marker `<<var;match=.+>>` into
`<<.+?>>` and the marker `<<var;name=N;original=O;match=.*>>` into `<<.*?>>`:
only the bare form is capped, and the capture pass only makes the expression
lazy. -/
theorem varWildcard_not_capped :
    ((limitWildcardMatching (newRecord (bytes "<<var;match=.+>>"))).bind fun n1 =>
      (limitOptionalWildcardMatching n1).bind fun n2 =>
      (captureReplaceableTextSections n2).map fun n3 => n3.NormalizedText) =
        some (bytes "<<.+?>>") ∧
    ((limitWildcardMatching (newRecord (bytes "<<var;name=N;original=O;match=.*>>"))).bind
      fun n1 => (limitOptionalWildcardMatching n1).bind fun n2 =>
      (captureReplaceableTextSections n2).map fun n3 => n3.NormalizedText) =
        some (bytes "<<.*?>>") := by
  constructor <;> decide

/-- C12 (amended).  Pass 2 caps the bare markers: on a record whose index map
is aligned once it is initialized, `limitWildcardMatching` replaces every
occurrence of `<<match=.+>>` (the keyword in any letter-casing), from left to
right, by `<<.{1,144}>>`, and `limitOptionalWildcardMatching` then replaces
every occurrence of the lower-case `<<match=.*>>` by `<<.{0,144}>>`; both keep
the index map aligned, and the text after pass 2 holds no bare `<<match=.+>>`
in any letter-casing and no bare lower-case `<<match=.*>>`. -/
theorem bare_wildcards_capped (n : NormalizationData)
    (hal : (initializeRecord n).IndexMap.length = (initializeRecord n).NormalizedText.length) :
    ∃ n1 n2, limitWildcardMatching n = some n1 ∧ limitOptionalWildcardMatching n1 = some n2 ∧
      n1.NormalizedText =
        rewriteEvery wildcardLen (bytes "<<.\x7b1,144\x7d>>") (initializeRecord n).NormalizedText ∧
      n2.NormalizedText =
        rewriteEvery optionalWildcardLen (bytes "<<.\x7b0,144\x7d>>") n1.NormalizedText ∧
      n1.IndexMap.length = n1.NormalizedText.length ∧
      n2.IndexMap.length = n2.NormalizedText.length ∧
      hasOccurrence wildcardLen n2.NormalizedText = false ∧
      hasOccurrence optionalWildcardLen n2.NormalizedText = false := by
  obtain ⟨n1, h1, ht1, hal1, _, _, _, hfix⟩ := replacePass_rewriteEvery WildcardMatchingPatternRE
    wildcardLen (bytes "<<.\x7b1,144\x7d>>") rfl (by decide) wildcard_run wildcardLen_spec n hal
  have hfix1 := hfix (by decide)
  obtain ⟨n2, h2, ht2, hal2, _⟩ := replacePass_rewriteEvery OptionalWildcardMatchingPatternRE
    optionalWildcardLen (bytes "<<.\x7b0,144\x7d>>") rfl (by decide) optionalWildcard_run
    optionalWildcardLen_spec n1 (by rw [hfix1]; exact hal1)
  rw [hfix1] at ht2
  refine ⟨n1, n2, h1, h2, ht1, ht2, hal1, hal2, ?_, ?_⟩
  · rw [ht2]
    apply wildcard_stays_absent
    rw [ht1]
    exact wildcard_none_left _
  · rw [ht2]
    exact optionalWildcard_none_left _

/-- C12 (amended), at a concrete input: a text with both bare markers. -/
theorem bare_wildcards_capped_witness :
    ∃ n1 n2, limitWildcardMatching wildcardExample = some n1 ∧
      limitOptionalWildcardMatching n1 = some n2 ∧
      n1.NormalizedText =
        rewriteEvery wildcardLen (bytes "<<.\x7b1,144\x7d>>")
          (initializeRecord wildcardExample).NormalizedText ∧
      n2.NormalizedText =
        rewriteEvery optionalWildcardLen (bytes "<<.\x7b0,144\x7d>>") n1.NormalizedText ∧
      n1.IndexMap.length = n1.NormalizedText.length ∧
      n2.IndexMap.length = n2.NormalizedText.length ∧
      hasOccurrence wildcardLen n2.NormalizedText = false ∧
      hasOccurrence optionalWildcardLen n2.NormalizedText = false :=
  bare_wildcards_capped wildcardExample (by decide)

/-- C17. Protocol equivalence: for all strings `s` and `t`, every letter-casing
`tok1` of `https` and every letter-casing `tok2` of `http`, `standardizeToHTTP`
completes on the records of `s ++ tok1 ++ "://" ++ t` and of
`s ++ tok2 ++ "://" ++ t` (records whose index map is aligned once they are
initialized, such as fresh records) and produces the same `NormalizedText` for
both. -/
theorem standardizeToHTTP_protocol_equivalence (s t tok1 tok2 : Text)
    (n1 n2 : NormalizationData)
    (h1 : tok1.map toLowerByte = bytes "https") (h2 : tok2.map toLowerByte = bytes "http")
    (ht1 : (initializeRecord n1).NormalizedText = s ++ tok1 ++ bytes "://" ++ t)
    (ht2 : (initializeRecord n2).NormalizedText = s ++ tok2 ++ bytes "://" ++ t)
    (hal1 : (initializeRecord n1).IndexMap.length = (initializeRecord n1).NormalizedText.length)
    (hal2 : (initializeRecord n2).IndexMap.length = (initializeRecord n2).NormalizedText.length) :
    ∃ r1 r2, standardizeToHTTP n1 = some r1 ∧ standardizeToHTTP n2 = some r2 ∧
      r1.NormalizedText = r2.NormalizedText := by
  obtain ⟨r1, hr1, hx1, _⟩ := standardizeToHTTP_rewriteEvery n1 hal1
  obtain ⟨r2, hr2, hx2, _⟩ := standardizeToHTTP_rewriteEvery n2 hal2
  refine ⟨r1, r2, hr1, hr2, ?_⟩
  rw [hx1, hx2, ht1, ht2]
  exact rewriteEvery_protocol s t tok1 tok2 h1 h2

/-- C17, at a concrete input: `see HTTPS://example.org` and
`see http://example.org`. -/
theorem standardizeToHTTP_protocol_equivalence_witness :
    ∃ r1 r2, standardizeToHTTP (newRecord (bytes "see HTTPS://example.org")) = some r1 ∧
      standardizeToHTTP (newRecord (bytes "see http://example.org")) = some r2 ∧
      r1.NormalizedText = r2.NormalizedText :=
  standardizeToHTTP_protocol_equivalence (bytes "see ") (bytes "example.org") (bytes "HTTPS")
    (bytes "http") (newRecord (bytes "see HTTPS://example.org"))
    (newRecord (bytes "see http://example.org")) (by decide) (by decide) (by decide) (by decide)
    (by decide) (by decide)

/-- C19 (counterexample).  On the text `x httpss y` the first application of
`standardizeToHTTP` gives `x https y` and the second gives `x http y`: the
pattern takes one `s` only, so a second pass still changes the text. -/
theorem standardizeToHTTP_not_idempotent :
    (standardizeToHTTP (newRecord (bytes "x httpss y"))).map (fun n => n.NormalizedText) =
      some (bytes "x https y") ∧
    ((standardizeToHTTP (newRecord (bytes "x httpss y"))).bind standardizeToHTTP).map
      (fun n => (n.NormalizedText, n.IndexMap.length)) = some (bytes "x http y", 8) := by
  constructor <;> decide

/-- C19 (amended).  `standardizeToHTTP` is idempotent on every text in which no
protocol token is directly followed by a further `s`: on a record whose index
map is aligned once it is initialized, both applications complete, and the
second leaves `NormalizedText` and the length of `IndexMap` as the first
produced them. -/
theorem standardizeToHTTP_idempotent (n : NormalizationData)
    (hal : (initializeRecord n).IndexMap.length = (initializeRecord n).NormalizedText.length)
    (hs : noFurtherS (initializeRecord n).NormalizedText = true) :
    ∃ n1 n2, standardizeToHTTP n = some n1 ∧ standardizeToHTTP n1 = some n2 ∧
      n2.NormalizedText = n1.NormalizedText ∧ n2.IndexMap.length = n1.IndexMap.length := by
  obtain ⟨n1, h1, ht1, hal1, hfix⟩ := standardizeToHTTP_rewriteEvery n hal
  obtain ⟨n2, h2, ht2, hal2, _⟩ := standardizeToHTTP_rewriteEvery n1 (by rw [hfix]; exact hal1)
  have hsame : n2.NormalizedText = n1.NormalizedText := by
    rw [ht2, hfix, ht1]
    exact rewriteEvery_http_idem _ _ (le_refl _) hs
  exact ⟨n1, n2, h1, h2, hsame, by rw [hal2, hal1, hsame]⟩

/-- C19 (amended), at a concrete input: the text `see HTTPS://example.org`. -/
theorem standardizeToHTTP_idempotent_witness :
    ∃ n1 n2, standardizeToHTTP (newRecord (bytes "see HTTPS://example.org")) = some n1 ∧
      standardizeToHTTP n1 = some n2 ∧
      n2.NormalizedText = n1.NormalizedText ∧ n2.IndexMap.length = n1.IndexMap.length :=
  standardizeToHTTP_idempotent (newRecord (bytes "see HTTPS://example.org")) (by decide)
    (by decide)

/-- C15. The function `removeHTMLTags` removes exactly the tag spans: for every
text, on an aligned record, the scan completes, the span from `i` to `j` (both
included) is in its match list, as the pair `[i, j + 1]`, if and only if
`text[i]` is `<`, `text[j]` is `>`, no `<` or `>` lies strictly between them,
the text after `text[i]` does not begin with `http`, and `text[j]` is not
directly followed by another `>`; the list holds nothing else, and the new text
is the old one without the positions these spans cover. -/
theorem removeHTMLTags_exact_spans (n : NormalizationData)
    (hal : n.IndexMap.length = n.NormalizedText.length) :
    ∃ ms n', removeHTMLTagsLoop n.NormalizedText (n.NormalizedText.length + 1) 0 [] = some ms ∧
      (∀ i j : Nat, [(i : Int), ((j + 1 : Nat) : Int)] ∈ ms ↔
        isTagSpan n.NormalizedText i j = true) ∧
      (∀ m ∈ ms, ∃ i j : Nat, m = [(i : Int), ((j + 1 : Nat) : Int)]) ∧
      removeHTMLTags n = some n' ∧
      n'.NormalizedText = removeCoveredFrom (ms.map spanOf) 0 n.NormalizedText := by
  obtain ⟨ms, h1, h2, h3, h4⟩ := removeHTMLTagsLoop_spec n.NormalizedText
    (n.NormalizedText.length + 1) 0 [] (Nat.zero_le _) (by omega)
  rw [List.nil_append] at h1
  have hpairs : ∀ m ∈ ms, m.drop 2 = [] := by
    intro m hm
    obtain ⟨i, j, e, _⟩ := h2 m hm
    rw [e]
    rfl
  obtain ⟨n', h5, h6⟩ := removeHTMLTags_of_loop n ms hal h1 hpairs (by simpa using h4)
  refine ⟨ms, n', h1, fun i j => ⟨fun hm => ?_, fun hs => h3 i j (Nat.zero_le _) hs⟩,
    fun m hm => ?_, h5, h6⟩
  · obtain ⟨i', j', e, _, hs⟩ := h2 _ hm
    simp only [List.cons.injEq, Nat.cast_inj, and_true] at e
    obtain ⟨rfl, e2⟩ := e
    have : j = j' := by omega
    subst this
    exact hs
  · obtain ⟨i, j, e, _⟩ := h2 m hm
    exact ⟨i, j, e⟩

/-- C15, at a concrete input: the text `a <b> <http://x> <<c>> d`. -/
theorem removeHTMLTags_exact_spans_witness :
    ∃ ms n', removeHTMLTagsLoop tagExample.NormalizedText (tagExample.NormalizedText.length + 1)
        0 [] = some ms ∧
      (∀ i j : Nat, [(i : Int), ((j + 1 : Nat) : Int)] ∈ ms ↔
        isTagSpan tagExample.NormalizedText i j = true) ∧
      (∀ m ∈ ms, ∃ i j : Nat, m = [(i : Int), ((j + 1 : Nat) : Int)]) ∧
      removeHTMLTags tagExample = some n' ∧
      n'.NormalizedText = removeCoveredFrom (ms.map spanOf) 0 tagExample.NormalizedText :=
  removeHTMLTags_exact_spans tagExample (by decide)

/-- C22 (the code at a failing input).  On the text `a<>b` the scanner of
`removeHTMLTags` collects the span `[1, 3)` and the pass removes `<>`, while
the pattern `<(?!http)[^<>]+>(?!>)`, which asks for at least one character
between `<` and `>`, has no match in that text.  On `a <b> c` the two agree. -/
theorem removeHTMLTags_removes_empty_tag :
    removeHTMLTagsLoop (bytes "a<>b") ((bytes "a<>b").length + 1) 0 [] = some [[1, 3]] ∧
    matchSpansAux tagPatternLen 0 0 (bytes "a<>b") = [] ∧
    (removeHTMLTags (initializeRecord (newRecord (bytes "a<>b")))).map
      (fun n => n.NormalizedText) = some (bytes "ab") ∧
    removeHTMLTagsLoop (bytes "a <b> c") ((bytes "a <b> c").length + 1) 0 [] = some [[2, 5]] ∧
    matchSpansAux tagPatternLen 0 0 (bytes "a <b> c") = [(2, 5)] := by
  refine ⟨?_, ?_, ?_, ?_, ?_⟩ <;> decide

/-- C23 (the code at a failing input).  The capture pass stores the match
expression `a\+`, whose final `+` is a backslash-escaped literal, as `a\+?`,
and emits the marker `<<a\+?>>`; likewise `\}` becomes `\}?`.  The step that
makes a quantifier lazy looks at the last character only: it appends `?` to
every expression that ends in an escaped `+`, `*` or closing brace. -/
theorem escaped_quantifier_made_lazy :
    (captureReplaceableTextSections (newRecord (bytes "<<match=a\\+>>"))).map
      (fun n => (n.NormalizedText, n.CaptureGroups.map (fun g => g.Matches))) =
        some (bytes "<<a\\+?>>", [bytes "a\\+?"]) ∧
    (captureReplaceableTextSections (newRecord (bytes "<<match=\\\x7d>>"))).map
      (fun n => (n.NormalizedText, n.CaptureGroups.map (fun g => g.Matches))) =
        some (bytes "<<\\\x7d?>>", [bytes "\\\x7d?"]) ∧
    (∀ p : Text, makeLazy (p ++ bytes "\\+") = p ++ bytes "\\+?") ∧
    (∀ p : Text, makeLazy (p ++ bytes "\\*") = p ++ bytes "\\*?") ∧
    (∀ p : Text, makeLazy (p ++ bytes "\\\x7d") = p ++ bytes "\\\x7d?") := by
  have h1 : bytes "+" = [43] := by decide
  have h2 : bytes "*" = [42] := by decide
  have h3 : bytes "\x7d" = [125] := by decide
  have h4 : bytes "?" = [63] := by decide
  have e1 : bytes "\\+" = [92, 43] := by decide
  have e2 : bytes "\\*" = [92, 42] := by decide
  have e3 : bytes "\\\x7d" = [92, 125] := by decide
  have e4 : bytes "\\+?" = [92, 43, 63] := by decide
  have e5 : bytes "\\*?" = [92, 42, 63] := by decide
  have e6 : bytes "\\\x7d?" = [92, 125, 63] := by decide
  refine ⟨by decide, by decide, fun p => ?_, fun p => ?_, fun p => ?_⟩
  · unfold makeLazy
    rw [h1, h2, h3, h4, e1, e4]
    simp [hasSuffix_singleton, List.getLast?_append]
  · unfold makeLazy
    rw [h1, h2, h3, h4, e2, e5]
    simp [hasSuffix_singleton, List.getLast?_append]
  · unfold makeLazy
    rw [h1, h2, h3, h4, e3, e6]
    simp [hasSuffix_singleton, List.getLast?_append]

/-- C24 (the code at a failing input).  On the text `<b>`, `removeHTMLTags`
reduces `NormalizedText` and `IndexMap` to empty; the `initialize()` at the
start of the next pass then restores `OriginalText` and the identity map, and
`NormalizeText` returns the text `<b>` with its tag still in place. -/
theorem initialize_restores_emptied_record :
    (removeHTMLTags (initializeRecord (newRecord (bytes "<b>")))).map
      (fun n => (n.NormalizedText, n.IndexMap)) = some ([], []) ∧
    (removeHTMLTags (initializeRecord (newRecord (bytes "<b>")))).map
      (fun n => ((initializeRecord n).NormalizedText, (initializeRecord n).IndexMap)) =
        some (bytes "<b>", [0, 1, 2]) ∧
    ((removeHTMLTags (initializeRecord (newRecord (bytes "<b>")))).bind
      replaceDashLikeCharacters).map (fun n => (n.NormalizedText, n.IndexMap)) =
        some (bytes "<b>", [0, 1, 2]) ∧
    (NormalizeText sampleEnv (newRecord (bytes "<b>"))).map
      (fun r => (r.1.NormalizedText, r.1.IndexMap, r.2)) = some (bytes "<b>", [0, 1, 2], none) := by
  refine ⟨?_, ?_, ?_, ?_⟩ <;> decide

/-- C25. The scanning loop of `removeHTMLTags` terminates and is safe on every
text: the loop is the iteration of `removeHTMLTagsStep`; an iteration entered
with `next` at most the length of the text does not fail and, unless it ends
the loop, leaves `next` strictly larger and still at most the length of the
text; the loop completes within `len(text) + 1` iterations, and the spans it
collects are non-empty, sorted, non-overlapping and within the text. -/
theorem removeHTMLTags_loop_terminates (text : Text) :
    (∀ (fuel next : Nat) (acc : List (List Int)),
      removeHTMLTagsLoop text (fuel + 1) next acc =
        (removeHTMLTagsStep text next).bind fun r =>
          match r with
          | none => some acc
          | some (next', found) => removeHTMLTagsLoop text fuel next' (acc ++ found)) ∧
    (∀ next : Nat, next ≤ text.length →
      ∃ r, removeHTMLTagsStep text next = some r ∧
        ∀ next' found, r = some (next', found) → next < next' ∧ next' ≤ text.length) ∧
    ∃ ms, removeHTMLTagsLoop text (text.length + 1) 0 [] = some ms ∧
      validMatches text.length 0 ms = true := by
  refine ⟨removeHTMLTagsLoop_step text, removeHTMLTagsStep_advances text, ?_⟩
  obtain ⟨ms, h1, _, _, h4⟩ := removeHTMLTagsLoop_spec text (text.length + 1) 0 []
    (Nat.zero_le _) (by omega)
  rw [List.nil_append] at h1
  exact ⟨ms, h1, by simpa using h4⟩

/-- C26. Offsets stay ordered: on an aligned record whose index entries other
than the sentinel `-1` are non-decreasing from left to right (as those of the
identity map are), `replaceMatchesWithStringsAndUpdateIndexMap`, called with
matches that are non-empty, sorted, non-overlapping and within the text and
with one replacement per match, each made of single-byte (ASCII) characters,
completes, and the entries of the new index map other than the sentinel are
again non-decreasing; so for positions `i ≤ j` of the new text that both carry
an offset, the offset at `i` is at most the offset at `j`. -/
theorem offsets_stay_ordered (n : NormalizationData) (ms : List (List Int)) (rs : List Text)
    (hal : n.IndexMap.length = n.NormalizedText.length)
    (hv : validMatches n.NormalizedText.length 0 ms = true) (hr : rs.length = ms.length)
    (hascii : ∀ r ∈ rs, isAscii r = true)
    (hord : (nonSentinel n.IndexMap).Sorted (· ≤ ·)) :
    (∀ k : Nat, (nonSentinel ((List.range k).map Int.ofNat)).Sorted (· ≤ ·)) ∧
    ∃ n', replaceMatchesWithStringsAndUpdateIndexMap n (some ms) rs = some n' ∧
      (nonSentinel n'.IndexMap).Sorted (· ≤ ·) ∧
      ∀ (i j : Nat) (a b : Int), i ≤ j → n'.IndexMap[i]? = some a → n'.IndexMap[j]? = some b →
        a ≠ -1 → b ≠ -1 → a ≤ b := by
  have hiff : ∀ L : List Int, (nonSentinel L).Sorted (· ≤ ·) ↔ L.Pairwise inOrder := by
    intro L
    unfold nonSentinel List.Sorted inOrder
    rw [List.pairwise_filter]
  constructor
  · intro k
    rw [hiff, List.pairwise_map]
    apply List.Pairwise.imp _ (List.pairwise_lt_range k)
    intro a b hab _ _
    exact Int.ofNat_le.mpr (Nat.le_of_lt hab)
  · have hL := (hiff _).mp hord
    obtain ⟨hP, _⟩ := splice_ordered n.IndexMap n.NormalizedText.length hal hL ms rs 0
      (by simpa using hv) hascii
    refine ⟨_, replaceMatches_valid n ms rs hal hv hr, (hiff _).mpr hP, ?_⟩
    intro i j a b hij ha hb
    exact inOrder_of_positions _ hP i j hij a b ha hb

/-- C26, at a concrete input: on `abcdef` with the identity map, `bc` is
replaced by `xyz` and `e` by the empty string. -/
theorem offsets_stay_ordered_witness :
    (∀ k : Nat, (nonSentinel ((List.range k).map Int.ofNat)).Sorted (· ≤ ·)) ∧
    ∃ n', replaceMatchesWithStringsAndUpdateIndexMap exampleRecord (some [[1, 3], [4, 5]])
        [bytes "xyz", []] = some n' ∧
      (nonSentinel n'.IndexMap).Sorted (· ≤ ·) ∧
      ∀ (i j : Nat) (a b : Int), i ≤ j → n'.IndexMap[i]? = some a → n'.IndexMap[j]? = some b →
        a ≠ -1 → b ≠ -1 → a ≤ b :=
  offsets_stay_ordered exampleRecord [[1, 3], [4, 5]] [bytes "xyz", []] (by decide) (by decide)
    (by decide) (by decide) (by decide)

/-- C21. The function `ValidateSPDXTemplateWithLicenseText` returns true exactly
when every step succeeded.  When the normalizer completes on the two texts
read and a successful `AddPrimaryPatternAndSource` leaves a primary pattern,
the call returns a pair `(b, e)`; `b` is true if and only if the id is not in
the initial skip list, both files were read, the example text and the template
normalized without error, the pattern was added and generated, it found
exactly one match in the normalized example, the static-blocks check passed
and the three files were written; in every other case `b` is false; and when
`b` is true the error `e` is nil. -/
theorem validate_true_iff_every_step {Pattern Match Blocks : Type} (env : Env)
    (w : Collaborators Pattern Match Blocks)
    (id templateFile textFile templateDestDir preCheckDestDir textDestDir : String)
    (hText : ∀ t, w.ReadFile textFile = .ok t →
      (NormalizeText env (newRecord t)).isSome = true)
    (hTemplate : ∀ t, w.ReadFile templateFile = .ok t →
      (NormalizeText env (newRecord t)).isSome = true)
    (hPattern : ∀ t ps, w.AddPrimaryPatternAndSource t templateFile = .ok ps → ps ≠ []) :
    ∃ b e, ValidateSPDXTemplateWithLicenseText env w id templateFile textFile templateDestDir
        preCheckDestDir textDestDir = some (b, e) ∧
      (b = true ↔ EveryStepSucceeded env w id templateFile textFile templateDestDir
        preCheckDestDir textDestDir) ∧
      (b = true → e = none) := by
  unfold ValidateSPDXTemplateWithLicenseText
  by_cases hskip : id ∈ initialSkips
  · rw [if_pos hskip]
    exact ⟨false, none, rfl, ⟨(fun h => by cases h), fun h => absurd hskip h.1⟩, fun _ => rfl⟩
  rw [if_neg hskip]
  cases h1 : w.ReadFile textFile with
  | error err =>
    refine ⟨false, _, rfl, ⟨(fun h => by cases h), fun hE => ?_⟩, (fun h => by cases h)⟩
    obtain ⟨_, tb, tpl, nt, ntpl, p, p', others, f, g1, _⟩ := hE
    rw [h1] at g1
    cases g1
  | ok textBytes =>
    have hT := hText textBytes h1
    simp only
    cases h2 : NormalizeText env (newRecord textBytes) with
    | none => rw [h2] at hT; cases hT
    | some r =>
      obtain ⟨normalizedTestData, err⟩ := r
      cases err with
      | some e =>
        refine ⟨false, _, rfl, ⟨(fun h => by cases h), fun hE => ?_⟩, (fun h => by cases h)⟩
        obtain ⟨_, tb, tpl, nt, ntpl, p, p', others, f, g1, _, g3, _⟩ := hE
        rw [h1] at g1
        cases g1
        rw [h2] at g3
        cases g3
      | none =>
        simp only
        cases h3 : w.ReadFile templateFile with
        | error err =>
          refine ⟨false, _, rfl, ⟨(fun h => by cases h), fun hE => ?_⟩, (fun h => by cases h)⟩
          obtain ⟨_, tb, tpl, nt, ntpl, p, p', others, f, _, g2, _⟩ := hE
          rw [h3] at g2
          cases g2
        | ok templateBytes =>
          have hTpl := hTemplate templateBytes h3
          simp only
          cases h4 : w.AddPrimaryPatternAndSource templateBytes templateFile with
          | error err =>
            refine ⟨false, _, rfl, ⟨(fun h => by cases h), fun hE => ?_⟩, (fun h => by cases h)⟩
            obtain ⟨_, tb, tpl, nt, ntpl, p, p', others, f, _, g2, _, _, g5, _⟩ := hE
            rw [h3] at g2
            cases g2
            rw [h4] at g5
            cases g5
          | ok primaryPatterns =>
            have hne := hPattern templateBytes primaryPatterns h4
            cases primaryPatterns with
            | nil => exact absurd rfl hne
            | cons pattern others =>
              simp only [List.getElem?_cons_zero]
              have hfacts : EveryStepSucceeded env w id templateFile textFile templateDestDir
                  preCheckDestDir textDestDir →
                  ∃ (ntpl : NormalizationData) (pattern' : Pattern) (f : Match),
                    w.GenerateMatchingPatternFromSourceText pattern = .ok pattern' ∧
                    w.FindMatchingPatternInNormalizedData pattern' normalizedTestData = .ok [f] ∧
                    NormalizeText env (newRecord templateBytes) = some (ntpl, none) ∧
                    w.PassedStaticBlocksChecks (w.GetStaticBlocks ntpl) normalizedTestData =
                      true ∧
                    w.WritePreChecksFile (w.GetStaticBlocks ntpl)
                      (w.Join preCheckDestDir (id ++ ".json")) = none ∧
                    w.WriteFile (w.Join templateDestDir (id ++ ".template.txt")) templateBytes =
                      none ∧
                    w.WriteFile (w.Join textDestDir (id ++ ".txt")) textBytes = none := by
                intro hE
                obtain ⟨_, tb, tpl, nt, ntpl, p, p'', others', f, g1, g2, g3, g4, g5, g6, g7, g8,
                  g9, g10, g11⟩ := hE
                rw [h1] at g1
                cases g1
                rw [h2] at g3
                cases g3
                rw [h3] at g2
                cases g2
                rw [h4] at g5
                cases g5
                exact ⟨ntpl, p'', f, g6, g7, g4, g8, g9, g10, g11⟩
              cases h5 : w.GenerateMatchingPatternFromSourceText pattern with
              | error err =>
                refine ⟨false, _, rfl, ⟨(fun h => by cases h), fun hE => ?_⟩,
                  (fun h => by cases h)⟩
                obtain ⟨_, _, _, g6, _⟩ := hfacts hE
                rw [h5] at g6
                cases g6
              | ok pattern' =>
                simp only
                cases h6 : w.FindMatchingPatternInNormalizedData pattern' normalizedTestData with
                | error err =>
                  refine ⟨false, _, rfl, ⟨(fun h => by cases h), fun hE => ?_⟩,
                    (fun h => by cases h)⟩
                  obtain ⟨_, _, _, g6, g7, _⟩ := hfacts hE
                  rw [h5] at g6
                  cases g6
                  rw [h6] at g7
                  cases g7
                | ok matched =>
                  simp only
                  by_cases hlen : matched.length ≠ 1
                  · rw [if_pos hlen]
                    have hno : ¬ EveryStepSucceeded env w id templateFile textFile templateDestDir
                        preCheckDestDir textDestDir := by
                      intro hE
                      obtain ⟨_, _, _, g6, g7, _⟩ := hfacts hE
                      rw [h5] at g6
                      cases g6
                      rw [h6] at g7
                      cases g7
                      exact hlen rfl
                    by_cases hs2 : id ∈ laterSkips
                    · rw [if_pos hs2]
                      exact ⟨false, _, rfl, ⟨(fun h => by cases h), fun h => absurd h hno⟩,
                        (fun h => by cases h)⟩
                    · rw [if_neg hs2]
                      exact ⟨false, _, rfl, ⟨(fun h => by cases h), fun h => absurd h hno⟩,
                        (fun h => by cases h)⟩
                  · rw [if_neg hlen]
                    obtain ⟨b, e, hv, hiff, hnil⟩ := validateAndWrite_spec env w id templateDestDir
                      preCheckDestDir textDestDir textBytes templateBytes normalizedTestData hTpl
                    refine ⟨b, e, hv, ⟨fun hb => ?_, fun hE => ?_⟩, hnil⟩
                    · obtain ⟨ntpl, k1, k2, k3, k4, k5⟩ := hiff.mp hb
                      have hone : ∃ f, matched = [f] := by
                        match matched, hlen with
                        | [f], _ => exact ⟨f, rfl⟩
                        | [], h => exact absurd (by simp) h
                        | _ :: _ :: _, h => exact absurd (by simp) h
                      obtain ⟨f, rfl⟩ := hone
                      exact ⟨hskip, textBytes, templateBytes, normalizedTestData, ntpl, pattern,
                        pattern', others, f, h1, h3, h2, k1, h4, h5, h6, k2, k3, k4, k5⟩
                    · obtain ⟨ntpl, _, _, _, _, g4, g8, g9, g10, g11⟩ := hfacts hE
                      exact hiff.mpr ⟨ntpl, g4, g8, g9, g10, g11⟩

/-- C21, in a world where every call succeeds: the license `0BSD`. -/
theorem validate_true_iff_every_step_witness :
    ∃ b e, ValidateSPDXTemplateWithLicenseText sampleEnv sampleWorld "0BSD" "0BSD.template.txt"
        "0BSD.txt" "templates" "prechecks" "texts" = some (b, e) ∧
      (b = true ↔ EveryStepSucceeded sampleEnv sampleWorld "0BSD" "0BSD.template.txt" "0BSD.txt"
        "templates" "prechecks" "texts") ∧
      (b = true → e = none) :=
  validate_true_iff_every_step sampleEnv sampleWorld "0BSD" "0BSD.template.txt" "0BSD.txt"
    "templates" "prechecks" "texts"
    (fun t h => by cases h; decide) (fun t h => by cases h; decide)
    (fun t ps h => by cases h; simp)

end LicenseScanner
